import Mathlib

/-!
# oscilloscope-asteroids: the vector-to-audio engine of `gfx.c`

A shallow embedding of `src/gfx.c` and theorems about it.

Conventions of the embedding
* C `int` is `Int` (no value in the development leaves the 32-bit range on a
  state the engine can reach; see `sendFrame_bufsiz_lt`).
* `Uint16`, `Uint8` are `Nat`, `Sint16` is `Int`; every conversion to a 16-bit
  type is written out (`toUint16`, `toSint16`) and reduces modulo `2^16`.
* A C `double` is a rational number (`ℚ`); infinities and NaN are outside the
  model.  The functions that compute in doubles are embedded twice: with exact
  arithmetic (`lineTo`, `sendFrame`, ...), for the statements that do not depend
  on rounding, and in the namespace `Rounded` with every `double` operation
  followed by a rounding `fl`, whose instance for the program is `roundDouble`
  (IEEE 754 binary64, round to nearest, ties to even); with `fl = id` the second
  embedding is the first.  The library function `sqrt` of `math.h` is an
  argument of `lineTo` and `moveTo`; `sqrtQ` is a concrete instance, exact on
  rational squares.
* A C array is a function from index to cell (`work_pts`, the output stream) or
  a list when its allocated size matters (the sample buffer of a frame).
* A pointer that may be `NULL` is an `Option`; `malloc` always returns a
  non-null block, also for size 0 (the glibc behaviour).
* `SDL_OpenAudio` succeeds and leaves `aspec.samples` as requested.
* The `while` loop of `cb_fill_audio` may not terminate, so its embedding takes
  fuel and returns `none` when the fuel runs out.
-/

namespace Gfx

/-! ## Data model -/

/-- Maximum number of moveTo/lineTo calls on screen at once (`gfx.h`). -/
def MAX_POINTS : Int := 4096

/-- Point list `struct vlist`: `pts` holds triples x, y, weight of `Uint16`,
`n` is the number of triples. -/
structure vlist where
  pts : Int → Nat
  n : Int

/-- Rendered clip `struct frame`: `samples` is the (nullable) buffer of `Sint16`
samples, `n` the number of left/right pairs it is declared to hold. -/
structure frame where
  samples : Option (List Int)
  n : Int

/-- All file-scope variables of `gfx.c`, plus the `static int pos` of
`cb_fill_audio`. -/
structure Engine where
  work : vlist
  currFrame : frame
  nextFrame : frame
  xmin : ℚ
  xmax : ℚ
  ymin : ℚ
  ymax : ℚ
  targetWeight : ℚ
  flipX : Int
  flipY : Int
  swapXY : Int
  g_freq : Int
  g_refresh : Option ℚ
  pos : Int

/-- The state given by the static initialisers of `gfx.c`, before `gfxInit`. -/
def boot : Engine :=
  { work := { pts := fun _ => 0, n := 0 }
    currFrame := { samples := none, n := 0 }
    nextFrame := { samples := none, n := 0 }
    xmin := 0, xmax := 1000, ymin := 0, ymax := 1000, targetWeight := 100
    flipX := 0, flipY := 0, swapXY := 0
    g_freq := 0
    g_refresh := some 0
    pos := 0 }

/-! ## Conversions -/

/-- Conversion of a `double` to an integer type truncates toward zero. -/
def truncQ (q : ℚ) : Int := if 0 ≤ q then ⌊q⌋ else ⌈q⌉

/-- The cast `(Uint16)v` of an integer. -/
def intToUint16 (v : Int) : Nat := (v % 65536).toNat

/-- The cast `(Uint16)q` of a `double`. -/
def toUint16 (q : ℚ) : Nat := intToUint16 (truncQ q)

/-- The cast `(Sint16)v` of an integer. -/
def toSint16 (v : Int) : Int := (v + 32768) % 65536 - 32768

/-- A concrete `sqrt` on rationals: the exact root of a rational square, and
otherwise the root rounded down to a multiple of `1 / (den * 2^32)`. -/
def sqrtQ (q : ℚ) : ℚ :=
  (Nat.sqrt (q.num.toNat * q.den * 4 ^ 32) : ℚ) / ((q.den : ℚ) * 2 ^ 32)

/-- Byte `j` of a sample buffer seen as `Uint8*` (little-endian two's
complement); `none` when the byte lies outside the buffer. -/
def byteAt (buf : List Int) (j : Int) : Option Nat :=
  if j < 0 then none
  else (buf.get? (j.toNat / 2)).map fun s =>
    if j.toNat % 2 = 0 then intToUint16 s % 256 else intToUint16 s / 256

/-- Byte `j` of the sample buffer of a frame; `none` for a null buffer. -/
def frame.byte (f : frame) (j : Int) : Option Nat :=
  match f.samples with
  | none => none
  | some buf => byteAt buf j

/-- The call `memcpy(stream+done, ((Uint8* )f.samples)+pos, toCopy)`. -/
def memcpy (stream : Int → Option Nat) (done : Int) (f : frame) (pos toCopy : Int) :
    Int → Option Nat :=
  fun k => if done ≤ k ∧ k < done + toCopy then f.byte (pos + (k - done)) else stream k

/-! ## gfxInit -/

/-- Function `gfxInit`. `aspec.samples` is a `Uint16` field and `aspec.channels`
is 2; the initial clip is `samples/4*channels` zeroed `Sint16`. -/
def gfxInit (e : Engine) (freq buffer : Int) : Engine :=
  let freq := if freq ≤ 0 then 44100 else freq
  let buffer := if buffer ≤ 0 then 1024 else buffer
  let aspec_samples : Int := intToUint16 buffer
  let aspec_channels : Int := 2
  let initSamps := List.replicate (aspec_samples / 4 * aspec_channels).toNat (0 : Int)
  { e with
    g_freq := freq
    currFrame := { samples := some initSamps, n := aspec_samples / 4 * aspec_channels }
    nextFrame := { samples := none, n := 0 }
    work := { pts := e.work.pts, n := 0 } }

/-! ## cb_fill_audio -/

/-- One pass of the body of the `while(left > 0)` loop of `cb_fill_audio`, on
the loop state `(engine, stream, left, done)`. -/
def cb_fill_audio.body (e : Engine) (stream : Int → Option Nat) (left done : Int) :
    Engine × (Int → Option Nat) × Int × Int :=
  let frameLeft := e.currFrame.n * 4 - e.pos
  let toCopy := if frameLeft < left then frameLeft else left
  let stream := if toCopy > 0 then memcpy stream done e.currFrame e.pos toCopy else stream
  let left := left - toCopy
  let done := done + toCopy
  let pos := e.pos + toCopy
  let frameLeft := frameLeft - toCopy
  let e :=
    if frameLeft ≤ 0 then
      if e.nextFrame.samples ≠ none then
        { e with pos := 0, currFrame := e.nextFrame, nextFrame := { samples := none, n := 0 } }
      else { e with pos := 0 }
    else { e with pos := pos }
  (e, stream, left, done)

/-- The `while(left > 0)` loop of `cb_fill_audio`; `none` when `fuel` passes
do not reach `left ≤ 0`. -/
def cb_fill_audio.loop : Nat → Engine → (Int → Option Nat) → Int → Int →
    Option (Engine × (Int → Option Nat))
  | 0, _, _, _, _ => none
  | fuel + 1, e, stream, left, done =>
    if left > 0 then
      let r := cb_fill_audio.body e stream left done
      cb_fill_audio.loop fuel r.1 r.2.1 r.2.2.1 r.2.2.2
    else some (e, stream)

/-- Function `cb_fill_audio(udata, stream, len)`: the engine and the stream
buffer after the call. -/
def cb_fill_audio (fuel : Nat) (e : Engine) (stream : Int → Option Nat) (len : Int) :
    Option (Engine × (Int → Option Nat)) :=
  cb_fill_audio.loop fuel e stream len 0

/-! ## sendFrame -/

/-- The loop `for(pt = 1; pt < vl->n; pt++) bufsiz += vl->pts[3*pt+2]+1;`,
with `k` passes left. -/
def sendFrame.bufsiz (vl : vlist) : Nat → Int → Int → Int
  | 0, _, bufsiz => bufsiz
  | k + 1, pt, bufsiz => sendFrame.bufsiz vl k (pt + 1) (bufsiz + ((vl.pts (3 * pt + 2) : Int) + 1))

/-- The sample `iX` computed from the running coordinate `X`. -/
def sendFrame.iX (flipX : Int) (X : ℚ) : Int :=
  if flipX ≠ 0 then toSint16 (truncQ X - 32768)
  else toSint16 ((0x0ffff - (toUint16 X : Int)) - 32768)

/-- The sample `iY` computed from the running coordinate `Y`. -/
def sendFrame.iY (flipY : Int) (Y : ℚ) : Int :=
  if flipY ≠ 0 then toSint16 ((0x0ffff - (toUint16 Y : Int)) - 32768)
  else toSint16 (truncQ Y - 32768)

/-- The loop `for(i=0; i<steps; i++)` of `sendFrame` with `k` passes left;
`buf` lists the samples written so far (`pos` is its length). -/
def sendFrame.steps (e : Engine) (dX dY : ℚ) : Nat → ℚ → ℚ → List Int → List Int
  | 0, _, _, buf => buf
  | k + 1, X, Y, buf =>
    let iX := sendFrame.iX e.flipX X
    let iY := sendFrame.iY e.flipY Y
    let buf := if e.swapXY ≠ 0 then buf ++ [iX, iY] else buf ++ [iY, iX]
    sendFrame.steps e dX dY k (X + dX) (Y + dY) buf

/-- The body of the render loop of `sendFrame` for the segment ending at
point `pt`. -/
def sendFrame.segment (e : Engine) (vl : vlist) (pt : Int) (buf : List Int) : List Int :=
  let X : ℚ := vl.pts (3 * (pt - 1) + 0)
  let Y : ℚ := vl.pts (3 * (pt - 1) + 1)
  let nextX : ℚ := vl.pts (3 * pt + 0)
  let nextY : ℚ := vl.pts (3 * pt + 1)
  let steps : Int := (vl.pts (3 * pt + 2) : Int) + 1
  let dX := (nextX - X) / (steps : ℚ)
  let dY := (nextY - Y) / (steps : ℚ)
  sendFrame.steps e dX dY steps.toNat X Y buf

/-- The render loop `for(pt = 1; pt < vl->n; pt++)` of `sendFrame`, with `k`
passes left. -/
def sendFrame.render (e : Engine) (vl : vlist) : Nat → Int → List Int → List Int
  | 0, _, buf => buf
  | k + 1, pt, buf => sendFrame.render e vl k (pt + 1) (sendFrame.segment e vl pt buf)

/-- Function `sendFrame(vl)`. The buffer of the new frame is the list of the
samples written; `g_refresh` is `none` when the division is by zero. -/
def sendFrame (e : Engine) (vl : vlist) : Engine :=
  let bufsiz := sendFrame.bufsiz vl (vl.n - 1).toNat 1 0
  let buf := sendFrame.render e vl (vl.n - 1).toNat 1 []
  { e with
    g_refresh := if bufsiz = 0 then none else some ((e.g_freq : ℚ) / (bufsiz : ℚ))
    nextFrame := { samples := some buf, n := bufsiz } }

/-! ## The drawing interface -/

/-- Function `setScale`. -/
def setScale (e : Engine) (xleft xright ytop ybottom weight : ℚ) : Engine :=
  { e with xmin := xleft, xmax := xright, ymin := ytop, ymax := ybottom, targetWeight := weight }

/-- The scaling and clamping of one coordinate in `lineTo`. -/
def lineTo.scale (lo hi x : ℚ) : ℚ :=
  let x := if lo = hi then 32768 else ((x - lo) / (hi - lo)) * 65535
  if x < 0 then 0 else if x > 65535 then 65535 else x

/-- The value of `lineLen` in `lineTo`, from the previous stored point and the
scaled `x`, `y`. -/
def lineTo.lineLen (sqrt : ℚ → ℚ) (px py : Nat) (x y : ℚ) : ℚ :=
  let xDist : ℚ := (px : ℚ) - x
  let yDist : ℚ := (py : ℚ) - y
  let lineLen := sqrt (xDist * xDist + yDist * yDist) / 65535
  if lineLen < 0.00002 then 5.0 / 100.0 else lineLen

/-- The value of `color` that `lineTo` stores, from the scaled `x`, `y`. -/
def lineTo.color (sqrt : ℚ → ℚ) (e : Engine) (x y color : ℚ) : ℚ :=
  if e.work.n > 0 then
    let lineLen := lineTo.lineLen sqrt (e.work.pts ((e.work.n - 1) * 3 + 0))
      (e.work.pts ((e.work.n - 1) * 3 + 1)) x y
    let color := color * lineLen * e.targetWeight
    if color < 1.0 then 1.0 else color
  else 0

/-- Function `lineTo(x, y, color)`. -/
def lineTo (sqrt : ℚ → ℚ) (e : Engine) (x y color : ℚ) : Engine :=
  if e.work.n ≥ MAX_POINTS then e
  else
    let x := lineTo.scale e.xmin e.xmax x
    let y := lineTo.scale e.ymin e.ymax y
    let color := lineTo.color sqrt e x y color
    let pts := Function.update e.work.pts (e.work.n * 3 + 0) (toUint16 x)
    let pts := Function.update pts (e.work.n * 3 + 1) (toUint16 y)
    let pts := Function.update pts (e.work.n * 3 + 2) (toUint16 color)
    { e with work := { pts := pts, n := e.work.n + 1 } }

/-- Function `moveTo(x, y)`. -/
def moveTo (sqrt : ℚ → ℚ) (e : Engine) (x y : ℚ) : Engine :=
  lineTo sqrt e x y 0

/-- Function `flip(clear)`. -/
def flip (e : Engine) (clear : Int) : Engine :=
  let e := sendFrame e e.work
  if clear ≠ 0 then { e with work := { pts := e.work.pts, n := 0 } } else e

/-- Function `setMode(mode)`. -/
def setMode (e : Engine) (mode : Int) : Engine :=
  { e with flipX := Int.land mode 1, flipY := Int.land mode 2, swapXY := Int.land mode 4 }

/-- The engine states reachable from `gfxInit` by calls of the interface and
returning calls of `cb_fill_audio`. -/
inductive Reachable (sqrt : ℚ → ℚ) : Engine → Prop
  | init (freq buffer : Int) : Reachable sqrt (gfxInit boot freq buffer)
  | setScale {e : Engine} (l r t b w : ℚ) : Reachable sqrt e → Reachable sqrt (setScale e l r t b w)
  | setMode {e : Engine} (mode : Int) : Reachable sqrt e → Reachable sqrt (setMode e mode)
  | moveTo {e : Engine} (x y : ℚ) : Reachable sqrt e → Reachable sqrt (moveTo sqrt e x y)
  | lineTo {e : Engine} (x y c : ℚ) : Reachable sqrt e → Reachable sqrt (lineTo sqrt e x y c)
  | flip {e : Engine} (c : Int) : Reachable sqrt e → Reachable sqrt (flip e c)
  | pull {e e' : Engine} (fuel : Nat) (stream out : Int → Option Nat) (len : Int) :
      Reachable sqrt e → cb_fill_audio fuel e stream len = some (e', out) → Reachable sqrt e'

/-- The calls of the producer side other than `flip`. -/
inductive Draw
  | setScale (l r t b w : ℚ)
  | setMode (mode : Int)
  | moveTo (x y : ℚ)
  | lineTo (x y c : ℚ)

/-- The engine after one producer call. -/
def Draw.run (sqrt : ℚ → ℚ) (e : Engine) : Draw → Engine
  | Draw.setScale l r t b w => Gfx.setScale e l r t b w
  | Draw.setMode mode => Gfx.setMode e mode
  | Draw.moveTo x y => Gfx.moveTo sqrt e x y
  | Draw.lineTo x y c => Gfx.lineTo sqrt e x y c

/-- A sequence of calls of `cb_fill_audio`, each with its fuel, stream buffer
and length; `none` when one of them does not return. -/
def pulls (e : Engine) : List (Nat × (Int → Option Nat) × Int) → Option Engine
  | [] => some e
  | p :: rest =>
    match cb_fill_audio p.1 e p.2.1 p.2.2 with
    | none => none
    | some r => pulls r.1 rest

/-- A stroke list of two points, the second with weight 141. -/
def twoPoints : Engine :=
  { boot with work := { pts := fun i => if i = 5 then 141 else if i = 3 ∨ i = 4 then 65535 else 0, n := 2 } }

/-- An engine playing a clip of two sample pairs, with nothing staged. -/
def oneClip : Engine :=
  { boot with currFrame := { samples := some [1, -2, 3, -4], n := 2 } }

/-- An engine playing a clip of two sample pairs, with a clip of one pair
staged. -/
def twoClips : Engine :=
  { oneClip with nextFrame := { samples := some [7, -8], n := 1 } }

/-- An engine playing a clip of two sample pairs with a stroke list of two
points. -/
def drawn : Engine :=
  { oneClip with work := twoPoints.work }

/-- The engine `drawn` after a commit, a change of mode and a second commit. -/
def drawnTwice : Engine :=
  flip (List.foldl (Draw.run sqrtQ) (flip drawn 0) [Draw.setMode 1]) 1

/-- The stroke list after `setScale(0,1000,0,1000,1); moveTo(0,0);
lineTo(1000,0,65536)`. -/
def overflowed : Engine :=
  lineTo sqrtQ (moveTo sqrtQ (setScale (gfxInit boot 44100 1024) 0 1000 0 1000 1) 0 0) 1000 0 65536

/-- The stroke list after `setScale(0,65535,0,65535,100); moveTo(15/16, 63/64);
lineTo(15/16, 63/64, 1)`. -/
def dwellMissed : Engine :=
  lineTo sqrtQ (moveTo sqrtQ (setScale (gfxInit boot 44100 1024) 0 65535 0 65535 100)
    (15 / 16) (63 / 64)) (15 / 16) (63 / 64) 1

/-- The engine after `gfxInit` and 4096 calls `lineTo(0, 0, 1)`. -/
def fullList : Engine :=
  Nat.iterate (fun e => lineTo sqrtQ e 0 0 1) 4096 (gfxInit boot 44100 1024)

/-! ## The rendered samples -/

/-- The two samples that one pass of the inner loop of `sendFrame` appends for
the running coordinates `p = (X, Y)`, in buffer order (left, right). -/
def sendFrame.pair (e : Engine) (p : ℚ × ℚ) : List Int :=
  if e.swapXY ≠ 0 then [sendFrame.iX e.flipX p.1, sendFrame.iY e.flipY p.2]
  else [sendFrame.iY e.flipY p.2, sendFrame.iX e.flipX p.1]

/-- The running coordinates `(X, Y)` of `k` passes of the inner loop of
`sendFrame`. -/
def sendFrame.track (dX dY : ℚ) : Nat → ℚ → ℚ → List (ℚ × ℚ)
  | 0, _, _ => []
  | k + 1, X, Y => (X, Y) :: sendFrame.track dX dY k (X + dX) (Y + dY)

/-- The running coordinates of the segment ending at point `pt`. -/
def sendFrame.segmentTrack (vl : vlist) (pt : Int) : List (ℚ × ℚ) :=
  let X : ℚ := vl.pts (3 * (pt - 1) + 0)
  let Y : ℚ := vl.pts (3 * (pt - 1) + 1)
  let nextX : ℚ := vl.pts (3 * pt + 0)
  let nextY : ℚ := vl.pts (3 * pt + 1)
  let steps : Int := (vl.pts (3 * pt + 2) : Int) + 1
  let dX := (nextX - X) / (steps : ℚ)
  let dY := (nextY - Y) / (steps : ℚ)
  sendFrame.track dX dY steps.toNat X Y

/-- The running coordinates of `k` passes of the render loop from point `pt`. -/
def sendFrame.renderTrack (vl : vlist) : Nat → Int → List (ℚ × ℚ)
  | 0, _ => []
  | k + 1, pt => sendFrame.segmentTrack vl pt ++ sendFrame.renderTrack vl k (pt + 1)

/-! ## Sample engines of the end-to-end scenario -/

/-- The calls `setScale(0,1000,0,1000,100); moveTo(0,0); lineTo(1000,1000,1.0)`
of the end-to-end scenario. -/
def scenario (sqrt : ℚ → ℚ) (e : Engine) : Engine :=
  lineTo sqrt (moveTo sqrt (setScale e 0 1000 0 1000 100) 0 0) 1000 1000 1

/-- The engine of the end-to-end scenario, started from `gfxInit(44100, 1024)`. -/
def diagonal : Engine := scenario sqrtQ (gfxInit boot 44100 1024)

/-- The engine at the end of a pass of the loop of `cb_fill_audio` that
reaches the end of the active frame: the position is 0 and a staged frame, if
any, has become the active one. -/
def cb_fill_audio.turned (e : Engine) : Engine :=
  if e.nextFrame.samples ≠ none then
    { e with pos := 0, currFrame := e.nextFrame, nextFrame := { samples := none, n := 0 } }
  else { e with pos := 0 }

/-- Closed form of the engine after `cb_fill_audio` with `len` bytes. -/
def cb_fill_audio.after (e : Engine) (len : Int) : Engine :=
  if len ≤ 0 then e
  else if len < e.currFrame.n * 4 - e.pos then { e with pos := e.pos + len }
  else
    { cb_fill_audio.turned e with
      pos := (len - (e.currFrame.n * 4 - e.pos)) % ((cb_fill_audio.turned e).currFrame.n * 4) }

/-- Closed form of byte `j` of what `cb_fill_audio` writes from the state `e`. -/
def cb_fill_audio.byteOut (e : Engine) (j : Int) : Option Nat :=
  if j < e.currFrame.n * 4 - e.pos then e.currFrame.byte (e.pos + j)
  else (cb_fill_audio.turned e).currFrame.byte
    ((j - (e.currFrame.n * 4 - e.pos)) % ((cb_fill_audio.turned e).currFrame.n * 4))

/-- The values of `frameLeft` in the successive passes of the loop of
`cb_fill_audio`: for each pass, the value computed at its top and the value
after `frameLeft -= toCopy`, which `if(frameLeft<0)` tests before the
diagnostic. -/
def cb_fill_audio.frameLefts : Nat → Engine → (Int → Option Nat) → Int → Int →
    List (Int × Int)
  | 0, _, _, _, _ => []
  | fuel + 1, e, stream, left, done =>
    if left > 0 then
      let frameLeft := e.currFrame.n * 4 - e.pos
      let toCopy := if frameLeft < left then frameLeft else left
      let r := cb_fill_audio.body e stream left done
      (frameLeft, frameLeft - toCopy)
        :: cb_fill_audio.frameLefts fuel r.1 r.2.1 r.2.2.1 r.2.2.2
    else []

/-- The engine states reached from `e0` by calls of the interface and
returning calls of `cb_fill_audio`, when every `flip` stages a non-empty
frame. -/
inductive ReachableNonEmpty (sqrt : ℚ → ℚ) (e0 : Engine) : Engine → Prop
  | start : ReachableNonEmpty sqrt e0 e0
  | setScale {e : Engine} (l r t b w : ℚ) :
      ReachableNonEmpty sqrt e0 e → ReachableNonEmpty sqrt e0 (setScale e l r t b w)
  | setMode {e : Engine} (mode : Int) :
      ReachableNonEmpty sqrt e0 e → ReachableNonEmpty sqrt e0 (setMode e mode)
  | moveTo {e : Engine} (x y : ℚ) :
      ReachableNonEmpty sqrt e0 e → ReachableNonEmpty sqrt e0 (moveTo sqrt e x y)
  | lineTo {e : Engine} (x y c : ℚ) :
      ReachableNonEmpty sqrt e0 e → ReachableNonEmpty sqrt e0 (lineTo sqrt e x y c)
  | flip {e : Engine} (c : Int) :
      ReachableNonEmpty sqrt e0 e → 0 < (flip e c).nextFrame.n →
      ReachableNonEmpty sqrt e0 (flip e c)
  | pull {e e' : Engine} (fuel : Nat) (stream out : Int → Option Nat) (len : Int) :
      ReachableNonEmpty sqrt e0 e → cb_fill_audio fuel e stream len = some (e', out) →
      ReachableNonEmpty sqrt e0 e'

/-- The scheduler invariant: the active frame is non-empty, the playback
position is inside it, and a staged frame, if any, is non-empty. -/
def Engine.inFrame (e : Engine) : Prop :=
  0 < e.currFrame.n ∧ 0 ≤ e.pos ∧ e.pos < e.currFrame.n * 4 ∧
    (e.nextFrame.samples ≠ none → 0 < e.nextFrame.n)

instance (e : Engine) : Decidable e.inFrame := by
  unfold Engine.inFrame
  infer_instance

/-! ## Double-precision rounding -/

/-- The integer nearest to `n / d`, the even one of the two when `n / d` lies
half-way. -/
def roundHalfEven (n d : Nat) : Nat :=
  let q := n / d
  let r := n % d
  if 2 * r < d then q else if d < 2 * r then q + 1 else if q % 2 = 0 then q else q + 1

/-- The number of binary digits of `n`, by at most `fuel` halvings. -/
def bitLength : Nat → Nat → Nat
  | 0, _ => 0
  | fuel + 1, n => if n = 0 then 0 else bitLength fuel (n / 2) + 1

/-- The exponent of the unit in the last place of the binary64 numbers next to
`a / d > 0`: `e - 52` for `2 ^ e ≤ a / d < 2 ^ (e + 1)`, and `-1074` in the
subnormal range. -/
def ulpExp (a d : Nat) : Int :=
  let e0 : Int := (bitLength a a : Int) - (bitLength d d : Int)
  let e : Int := if a * 2 ^ (-e0).toNat < d * 2 ^ e0.toNat then e0 - 1 else e0
  max (e - 52) (-1074)

/-- The value of a `double` operation whose exact result is `q`: IEEE 754
binary64 round-to-nearest, ties to even. Overflow to infinity is outside the
model (the exponent is not bounded above). -/
def roundDouble (q : ℚ) : ℚ :=
  if q.num = 0 then 0
  else
    let s := ulpExp q.num.natAbs q.den
    let m := roundHalfEven (q.num.natAbs * 2 ^ (-s).toNat) (q.den * 2 ^ s.toNat)
    (((if q.num < 0 then -1 else 1) * (m : Int) * 2 ^ s.toNat : Int) : ℚ)
      / ((2 ^ (-s).toNat : Nat) : ℚ)

/-! ## The drawing interface and the renderer in double precision

The definitions of this section embed the same functions as above with every
`double` operation followed by the rounding `fl` (for the program, `roundDouble`);
with `fl = id` they are the definitions above. Values of type `double` are the
rationals in the range of `fl`; infinities and NaN are outside the model. -/

namespace Rounded

/-- The scaling and clamping of one coordinate in `lineTo`:
`((x-lo)/(hi-lo))*65535`, each operation rounded. -/
def lineTo.scale (fl : ℚ → ℚ) (lo hi x : ℚ) : ℚ :=
  let x := if lo = hi then 32768 else fl (fl (fl (x - lo) / fl (hi - lo)) * 65535)
  if x < 0 then 0 else if x > 65535 then 65535 else x

/-- The value of `lineLen` in `lineTo`, from the previous stored point and the
scaled `x`, `y`; `0.00002` and `5.0/100.0` are the `double` constants. -/
def lineTo.lineLen (sqrt fl : ℚ → ℚ) (px py : Nat) (x y : ℚ) : ℚ :=
  let xDist : ℚ := fl ((px : ℚ) - x)
  let yDist : ℚ := fl ((py : ℚ) - y)
  let lineLen := fl (sqrt (fl (fl (xDist * xDist) + fl (yDist * yDist))) / 65535)
  if lineLen < fl 0.00002 then fl (5.0 / 100.0) else lineLen

/-- The value of `color` that `lineTo` stores, from the scaled `x`, `y`. -/
def lineTo.color (sqrt fl : ℚ → ℚ) (e : Engine) (x y color : ℚ) : ℚ :=
  if e.work.n > 0 then
    let lineLen := lineTo.lineLen sqrt fl (e.work.pts ((e.work.n - 1) * 3 + 0))
      (e.work.pts ((e.work.n - 1) * 3 + 1)) x y
    let color := fl (fl (color * lineLen) * e.targetWeight)
    if color < 1.0 then 1.0 else color
  else 0

/-- Function `lineTo(x, y, color)`. -/
def lineTo (sqrt fl : ℚ → ℚ) (e : Engine) (x y color : ℚ) : Engine :=
  if e.work.n ≥ MAX_POINTS then e
  else
    let x := lineTo.scale fl e.xmin e.xmax x
    let y := lineTo.scale fl e.ymin e.ymax y
    let color := lineTo.color sqrt fl e x y color
    let pts := Function.update e.work.pts (e.work.n * 3 + 0) (toUint16 x)
    let pts := Function.update pts (e.work.n * 3 + 1) (toUint16 y)
    let pts := Function.update pts (e.work.n * 3 + 2) (toUint16 color)
    { e with work := { pts := pts, n := e.work.n + 1 } }

/-- Function `moveTo(x, y)`. -/
def moveTo (sqrt fl : ℚ → ℚ) (e : Engine) (x y : ℚ) : Engine :=
  lineTo sqrt fl e x y 0

/-- The loop `for(i=0; i<steps; i++)` of `sendFrame` with `k` passes left;
`X += dX` and `Y += dY` are rounded additions. -/
def sendFrame.steps (fl : ℚ → ℚ) (e : Engine) (dX dY : ℚ) : Nat → ℚ → ℚ → List Int → List Int
  | 0, _, _, buf => buf
  | k + 1, X, Y, buf =>
    let iX := Gfx.sendFrame.iX e.flipX X
    let iY := Gfx.sendFrame.iY e.flipY Y
    let buf := if e.swapXY ≠ 0 then buf ++ [iX, iY] else buf ++ [iY, iX]
    sendFrame.steps fl e dX dY k (fl (X + dX)) (fl (Y + dY)) buf

/-- The body of the render loop of `sendFrame` for the segment ending at
point `pt`. -/
def sendFrame.segment (fl : ℚ → ℚ) (e : Engine) (vl : vlist) (pt : Int) (buf : List Int) :
    List Int :=
  let X : ℚ := vl.pts (3 * (pt - 1) + 0)
  let Y : ℚ := vl.pts (3 * (pt - 1) + 1)
  let nextX : ℚ := vl.pts (3 * pt + 0)
  let nextY : ℚ := vl.pts (3 * pt + 1)
  let steps : Int := (vl.pts (3 * pt + 2) : Int) + 1
  let dX := fl (fl (nextX - X) / (steps : ℚ))
  let dY := fl (fl (nextY - Y) / (steps : ℚ))
  sendFrame.steps fl e dX dY steps.toNat X Y buf

/-- The render loop `for(pt = 1; pt < vl->n; pt++)` of `sendFrame`, with `k`
passes left. -/
def sendFrame.render (fl : ℚ → ℚ) (e : Engine) (vl : vlist) : Nat → Int → List Int → List Int
  | 0, _, buf => buf
  | k + 1, pt, buf =>
    sendFrame.render fl e vl k (pt + 1) (sendFrame.segment fl e vl pt buf)

/-- Function `sendFrame(vl)`. -/
def sendFrame (fl : ℚ → ℚ) (e : Engine) (vl : vlist) : Engine :=
  let bufsiz := Gfx.sendFrame.bufsiz vl (vl.n - 1).toNat 1 0
  let buf := sendFrame.render fl e vl (vl.n - 1).toNat 1 []
  { e with
    g_refresh := if bufsiz = 0 then none else some (fl ((e.g_freq : ℚ) / (bufsiz : ℚ)))
    nextFrame := { samples := some buf, n := bufsiz } }

/-- Function `flip(clear)`. -/
def flip (fl : ℚ → ℚ) (e : Engine) (clear : Int) : Engine :=
  let e := sendFrame fl e e.work
  if clear ≠ 0 then { e with work := { pts := e.work.pts, n := 0 } } else e

/-- The running coordinate after `i` passes of the inner loop of `sendFrame`:
`i` rounded additions of the step `d` to the start `p`. -/
def sendFrame.running (fl : ℚ → ℚ) (p d : ℚ) : Nat → ℚ
  | 0 => p
  | i + 1 => fl (sendFrame.running fl p d i + d)

end Rounded

/-- The running coordinates `(X, Y)` of `k` passes of the inner loop of
`sendFrame`, with rounded additions. -/
def Rounded.sendFrame.track (fl : ℚ → ℚ) (dX dY : ℚ) : Nat → ℚ → ℚ → List (ℚ × ℚ)
  | 0, _, _ => []
  | k + 1, X, Y => (X, Y) :: Rounded.sendFrame.track fl dX dY k (fl (X + dX)) (fl (Y + dY))

/-- The running coordinates of the segment ending at point `pt`, in double
precision. -/
def Rounded.sendFrame.segmentTrack (fl : ℚ → ℚ) (vl : vlist) (pt : Int) : List (ℚ × ℚ) :=
  let X : ℚ := vl.pts (3 * (pt - 1) + 0)
  let Y : ℚ := vl.pts (3 * (pt - 1) + 1)
  let nextX : ℚ := vl.pts (3 * pt + 0)
  let nextY : ℚ := vl.pts (3 * pt + 1)
  let steps : Int := (vl.pts (3 * pt + 2) : Int) + 1
  let dX := fl (fl (nextX - X) / (steps : ℚ))
  let dY := fl (fl (nextY - Y) / (steps : ℚ))
  Rounded.sendFrame.track fl dX dY steps.toNat X Y

/-- A stroke list of two points: a segment from X = 0 to X = 3 with weight 8. -/
def shortLine : vlist :=
  { pts := fun i => if i = 3 then 3 else if i = 5 then 8 else 0, n := 2 }

/-! # Theorems -/

/-! ## sendFrame: the size of the rendered frame -/

theorem sendFrame_bufsiz_eq (vl : vlist) (k : Nat) (pt acc : Int) :
    sendFrame.bufsiz vl k pt acc
      = acc + ∑ i in Finset.range k, ((vl.pts (3 * (pt + (i : Int)) + 2) : Int) + 1) := by
  induction k generalizing pt acc with
  | zero => simp [sendFrame.bufsiz]
  | succ k ih =>
    rw [sendFrame.bufsiz, ih, Finset.sum_range_succ']
    have hshift : ∀ i : Nat, pt + 1 + (i : Int) = pt + ((i + 1 : Nat) : Int) := by
      intro i
      push_cast
      ring
    simp only [hshift, Nat.cast_zero, add_zero]
    ring

theorem sendFrame_bufsiz_nonneg (vl : vlist) (k : Nat) (pt : Int) :
    0 ≤ sendFrame.bufsiz vl k pt 0 := by
  rw [sendFrame_bufsiz_eq]
  have : 0 ≤ ∑ i in Finset.range k, ((vl.pts (3 * (pt + (i : Int)) + 2) : Int) + 1) :=
    Finset.sum_nonneg fun i _ => by positivity
  omega

/-- The accumulator `bufsiz` of `sendFrame` stays below `2^31` on a stroke list
of at most `MAX_POINTS` points with 16-bit weights, so the C `int` does not
overflow. -/
theorem sendFrame_bufsiz_lt (vl : vlist) (hn : vl.n ≤ MAX_POINTS)
    (hw : ∀ i, vl.pts i < 65536) :
    sendFrame.bufsiz vl (vl.n - 1).toNat 1 0 * 4 < 2 ^ 31 := by
  rw [sendFrame_bufsiz_eq]
  have hle : ∑ i in Finset.range (vl.n - 1).toNat, ((vl.pts (3 * (1 + (i : Int)) + 2) : Int) + 1)
      ≤ ∑ _i in Finset.range (vl.n - 1).toNat, (65536 : Int) := by
    apply Finset.sum_le_sum
    intro i _
    have := hw (3 * (1 + (i : Int)) + 2)
    omega
  simp only [Finset.sum_const, Finset.card_range, smul_eq_mul, nsmul_eq_mul] at hle
  have hk : (((vl.n - 1).toNat : Nat) : Int) ≤ 4095 := by
    unfold MAX_POINTS at hn
    omega
  nlinarith

/-- Claim C1: for every stroke list with at least two points the frame that
`flip` (through `sendFrame`) stages has a sample-pair count equal to the sum,
over every point except the first, of that point's stored weight plus one. -/
theorem sendFrame_pair_count (e : Engine) (clear : Int) (hN : 2 ≤ e.work.n) :
    (flip e clear).nextFrame.n
      = ∑ i in Finset.Ico 1 e.work.n.toNat, ((e.work.pts (3 * (i : Int) + 2) : Int) + 1) := by
  have hflip : (flip e clear).nextFrame.n = sendFrame.bufsiz e.work (e.work.n - 1).toNat 1 0 := by
    unfold flip sendFrame
    split <;> rfl
  rw [hflip, sendFrame_bufsiz_eq, Finset.sum_Ico_eq_sum_range]
  have hk : (e.work.n - 1).toNat = e.work.n.toNat - 1 := by omega
  rw [hk, zero_add]
  apply Finset.sum_congr rfl
  intro i _
  push_cast
  rfl

theorem sendFrame_pair_count_witness :
    (2 : Int) ≤ twoPoints.work.n ∧
    (flip twoPoints 1).nextFrame.n
      = ∑ i in Finset.Ico 1 twoPoints.work.n.toNat,
          ((twoPoints.work.pts (3 * (i : Int) + 2) : Int) + 1) :=
  ⟨by decide, sendFrame_pair_count twoPoints 1 (by decide)⟩

/-! ## cb_fill_audio: one pass of the loop -/

theorem loop_exit (fuel : Nat) (e : Engine) (stream : Int → Option Nat) (left done : Int)
    (h : left ≤ 0) : cb_fill_audio.loop (fuel + 1) e stream left done = some (e, stream) := by
  rw [cb_fill_audio.loop, if_neg (by omega)]

theorem loop_pass (fuel : Nat) (e : Engine) (stream : Int → Option Nat) (left done : Int)
    (h : 0 < left) :
    cb_fill_audio.loop (fuel + 1) e stream left done
      = cb_fill_audio.loop fuel (cb_fill_audio.body e stream left done).1
          (cb_fill_audio.body e stream left done).2.1
          (cb_fill_audio.body e stream left done).2.2.1
          (cb_fill_audio.body e stream left done).2.2.2 := by
  rw [cb_fill_audio.loop, if_pos h]

/-- A request that ends before the end of the active frame: one copy, the
position advances, no frame changes. -/
theorem body_within (e : Engine) (stream : Int → Option Nat) (left done : Int)
    (h0 : 0 < left) (h1 : left < e.currFrame.n * 4 - e.pos) :
    cb_fill_audio.body e stream left done
      = ({ e with pos := e.pos + left }, memcpy stream done e.currFrame e.pos left, 0,
          done + left) := by
  unfold cb_fill_audio.body
  simp only []
  rw [if_neg (show ¬ e.currFrame.n * 4 - e.pos < left by omega), if_pos (show left > 0 from h0),
    if_neg (show ¬ e.currFrame.n * 4 - e.pos - left ≤ 0 by omega)]
  simp

/-- A request that reaches the end of the active frame: the rest of the frame
is copied, the position returns to 0 and a staged frame, if any, is swapped in. -/
theorem body_end (e : Engine) (stream : Int → Option Nat) (left done : Int)
    (h0 : 0 < e.currFrame.n * 4 - e.pos) (h1 : e.currFrame.n * 4 - e.pos ≤ left) :
    cb_fill_audio.body e stream left done
      = (if e.nextFrame.samples ≠ none then
            { e with pos := 0, currFrame := e.nextFrame, nextFrame := { samples := none, n := 0 } }
          else { e with pos := 0 },
          memcpy stream done e.currFrame e.pos (e.currFrame.n * 4 - e.pos),
          left - (e.currFrame.n * 4 - e.pos), done + (e.currFrame.n * 4 - e.pos)) := by
  have hc : (if e.currFrame.n * 4 - e.pos < left then e.currFrame.n * 4 - e.pos else left)
      = e.currFrame.n * 4 - e.pos := by
    split
    · rfl
    · omega
  unfold cb_fill_audio.body
  simp only [hc]
  rw [if_pos (show e.currFrame.n * 4 - e.pos > 0 from h0),
    if_pos (show e.currFrame.n * 4 - e.pos - (e.currFrame.n * 4 - e.pos) ≤ 0 by omega)]

/-! ## cb_fill_audio: looping the active frame -/

/-- With no staged frame, the loop copies the active frame `A` cyclically from
the current position and stops after at most `left` passes. -/
theorem loop_cycle (A : frame) (hn : 0 < A.n) :
    ∀ (fuel : Nat) (e : Engine) (stream : Int → Option Nat) (left done : Int),
      e.currFrame = A → e.nextFrame.samples = none → 0 ≤ e.pos → e.pos < A.n * 4 →
      0 ≤ left → left < fuel →
      cb_fill_audio.loop fuel e stream left done
        = some ({ e with pos := (e.pos + left) % (A.n * 4) },
            fun k => if done ≤ k ∧ k < done + left
              then A.byte ((e.pos + (k - done)) % (A.n * 4)) else stream k) := by
  intro fuel
  induction fuel with
  | zero => intro e stream left done _ _ _ _ h1 h2; omega
  | succ fuel ih =>
    intro e stream left done hA hnext hp0 hp hl hf
    rcases eq_or_lt_of_le hl with h0 | h0
    · subst h0
      rw [loop_exit _ _ _ _ _ (le_refl _)]
      have hpos : (e.pos + 0) % (A.n * 4) = e.pos := by
        rw [add_zero]
        exact Int.emod_eq_of_lt hp0 hp
      rw [hpos]
      congr 2
      funext k
      rw [if_neg (by omega)]
    · rw [loop_pass _ _ _ _ _ h0]
      by_cases hw : left < e.currFrame.n * 4 - e.pos
      · rw [body_within e stream left done h0 hw]
        have hf1 : 0 < fuel := by omega
        obtain ⟨f, rfl⟩ : ∃ f, fuel = f + 1 := ⟨fuel - 1, by omega⟩
        rw [loop_exit _ _ _ _ _ (le_refl _)]
        dsimp only
        rw [hA] at hw
        have hpos : (e.pos + left) % (A.n * 4) = e.pos + left :=
          Int.emod_eq_of_lt (by omega) (by omega)
        rw [hpos]
        congr 2
        funext k
        unfold memcpy
        rw [hA]
        by_cases hk : done ≤ k ∧ k < done + left
        · rw [if_pos hk, if_pos hk]
          have : (e.pos + (k - done)) % (A.n * 4) = e.pos + (k - done) :=
            Int.emod_eq_of_lt (by omega) (by omega)
          rw [this]
        · rw [if_neg hk, if_neg hk]
      · have hfl : 0 < e.currFrame.n * 4 - e.pos := by rw [hA]; omega
        rw [body_end e stream left done hfl (by omega)]
        rw [if_neg (by simp [hnext])]
        dsimp only
        rw [hA] at hw hfl
        rw [ih { e with pos := 0 } _ _ _ hA hnext (le_refl _) (show (0 : Int) < A.n * 4 by omega)
          (show 0 ≤ left - (e.currFrame.n * 4 - e.pos) by rw [hA]; omega)
          (show left - (e.currFrame.n * 4 - e.pos) < (fuel : Int) by rw [hA]; omega)]
        have hpos : ((0 : Int) + (left - (e.currFrame.n * 4 - e.pos))) % (A.n * 4)
            = (e.pos + left) % (A.n * 4) := by
          rw [hA]
          have : e.pos + left = (0 + (left - (A.n * 4 - e.pos))) + A.n * 4 := by ring
          rw [this, Int.add_emod_self]
        simp only [hpos]
        congr 2
        funext k
        unfold memcpy
        rw [hA]
        by_cases hk2 : done + (A.n * 4 - e.pos) ≤ k ∧
            k < done + (A.n * 4 - e.pos) + (left - (A.n * 4 - e.pos))
        · rw [if_pos hk2, if_pos (by omega)]
          have : e.pos + (k - done) = (0 + (k - (done + (A.n * 4 - e.pos)))) + A.n * 4 := by
            ring
          rw [this, Int.add_emod_self]
        · rw [if_neg hk2]
          by_cases hk1 : done ≤ k ∧ k < done + (A.n * 4 - e.pos)
          · rw [if_pos hk1, if_pos (by omega)]
            have : (e.pos + (k - done)) % (A.n * 4) = e.pos + (k - done) :=
              Int.emod_eq_of_lt (by omega) (by omega)
            rw [this]
          · rw [if_neg hk1, if_neg (by omega)]

/-- Claim C2: with no staged frame and an active frame of `n > 0` pairs, a
request of `len ≥ 0` bytes from any position `pos` in `[0, 4n)` returns (with
`fuel > len`), writes exactly the stream bytes `0 .. len-1`, byte `k` being byte
`(pos + k) mod 4n` of the active frame, leaves every other stream byte and the
whole engine but the position unchanged, and leaves the position at
`(pos + len) mod 4n`, however often the request wraps around the frame. -/
theorem pull_loops_active_frame (e : Engine) (stream : Int → Option Nat) (len : Int)
    (fuel : Nat) (hstaged : e.nextFrame.samples = none) (hn : 0 < e.currFrame.n)
    (hp0 : 0 ≤ e.pos) (hp : e.pos < 4 * e.currFrame.n) (hlen : 0 ≤ len) (hfuel : len < fuel) :
    ∃ out, cb_fill_audio fuel e stream len
        = some ({ e with pos := (e.pos + len) % (4 * e.currFrame.n) }, out) ∧
      (∀ k, 0 ≤ k → k < len → out k = e.currFrame.byte ((e.pos + k) % (4 * e.currFrame.n))) ∧
      (∀ k, k < 0 ∨ len ≤ k → out k = stream k) := by
  have hcomm : 4 * e.currFrame.n = e.currFrame.n * 4 := by ring
  rw [hcomm] at hp ⊢
  refine ⟨_, loop_cycle e.currFrame hn fuel e stream len 0 rfl hstaged hp0 hp hlen hfuel, ?_, ?_⟩
  · intro k hk0 hk
    simp only [zero_add, sub_zero]
    rw [if_pos ⟨hk0, hk⟩]
  · intro k hk
    simp only [zero_add]
    rw [if_neg (by omega)]

theorem pull_loops_active_frame_witness :
    oneClip.nextFrame.samples = none ∧ 0 < oneClip.currFrame.n ∧
    ∃ out, cb_fill_audio 21 { oneClip with pos := 3 } (fun _ => none) 20
        = some ({ oneClip with pos := (3 + 20) % (4 * oneClip.currFrame.n) }, out) ∧
      (∀ k, 0 ≤ k → k < 20 → out k = oneClip.currFrame.byte ((3 + k) % (4 * oneClip.currFrame.n))) ∧
      (∀ k, k < 0 ∨ 20 ≤ k → out k = (fun _ => none) k) :=
  ⟨rfl, by decide,
    pull_loops_active_frame { oneClip with pos := 3 } (fun _ => none) 20 21 rfl (by decide)
      (by decide) (by decide) (by decide) (by decide)⟩

/-! ## cb_fill_audio: an empty active frame -/

/-- With an empty active frame and nothing staged, a pass of the loop changes
nothing, so the loop never ends. -/
theorem loop_stall (e : Engine) (h0 : e.currFrame.n = 0) (hp : e.pos = 0)
    (hnext : e.nextFrame.samples = none) :
    ∀ (fuel : Nat) (stream : Int → Option Nat) (left done : Int), 0 < left →
      cb_fill_audio.loop fuel e stream left done = none := by
  have hbody : ∀ (stream : Int → Option Nat) (left done : Int), 0 < left →
      cb_fill_audio.body e stream left done = (e, stream, left, done) := by
    intro stream left done hl
    unfold cb_fill_audio.body
    simp only [h0, hp]
    rw [if_pos (show (0 : Int) * 4 - 0 < left by omega)]
    rw [if_neg (show ¬ ((0 : Int) * 4 - 0 > 0) by omega)]
    rw [if_pos (show (0 : Int) * 4 - 0 - (0 * 4 - 0) ≤ 0 by omega)]
    rw [if_neg (by simp [hnext])]
    have he : ({ e with pos := 0 } : Engine) = e := by
      cases e
      simp only [Engine.mk.injEq, true_and]
      exact hp.symm
    rw [he]
    simp
  intro fuel
  induction fuel with
  | zero => intro stream left done _; rfl
  | succ fuel ih =>
    intro stream left done hl
    rw [loop_pass _ _ _ _ _ hl, hbody stream left done hl]
    exact ih stream left done hl

/-- Claim C3 (refuted on the code): two reachable states in which a request is
never completed. After `gfxInit` with a buffer size below 4 the initial clip has
0 sample pairs; after `flip` on an empty stroke list a clip of 0 pairs is staged
and becomes active at the next frame boundary. In both the loop of
`cb_fill_audio` makes no progress, whatever the fuel. -/
theorem pull_stalls_on_empty_frame :
    (Reachable sqrtQ (gfxInit boot 44100 2) ∧
      ∀ (fuel : Nat) (stream : Int → Option Nat),
        cb_fill_audio fuel (gfxInit boot 44100 2) stream 4 = none) ∧
    (Reachable sqrtQ (flip (gfxInit boot 44100 1024) 1) ∧
      ∀ (fuel : Nat) (stream : Int → Option Nat),
        cb_fill_audio fuel (flip (gfxInit boot 44100 1024) 1) stream 4096 = none) := by
  refine ⟨⟨Reachable.init _ _, ?_⟩, ⟨Reachable.flip _ (Reachable.init _ _), ?_⟩⟩
  · intro fuel stream
    exact loop_stall _ (by decide) rfl rfl fuel stream 4 0 (by decide)
  · intro fuel stream
    cases fuel with
    | zero => rfl
    | succ fuel =>
      unfold cb_fill_audio
      rw [loop_pass _ _ _ _ _ (by decide)]
      rw [body_end _ _ _ _ (by decide) (by decide)]
      rw [if_pos (by simp [flip, sendFrame])]
      dsimp only
      apply loop_stall
      · decide
      · rfl
      · rfl
      · decide

/-! ## cb_fill_audio: the frame boundary -/

/-- A request that ends inside the active frame returns after one pass. -/
theorem loop_within (e : Engine) (stream : Int → Option Nat) (left done : Int) (fuel : Nat)
    (hw : left < e.currFrame.n * 4 - e.pos) :
    cb_fill_audio.loop (fuel + 2) e stream left done
      = some ({ e with pos := e.pos + max left 0 },
          fun k => if done ≤ k ∧ k < done + left
            then e.currFrame.byte (e.pos + (k - done)) else stream k) := by
  by_cases h0 : 0 < left
  · rw [loop_pass _ _ _ _ _ h0, body_within e stream left done h0 hw]
    dsimp only
    rw [loop_exit _ _ _ _ _ (le_refl _), max_eq_left (le_of_lt h0)]
    rfl
  · rw [loop_exit _ _ _ _ _ (by omega), max_eq_right (by omega), add_zero]
    congr 2
    funext k
    rw [if_neg (by omega)]

/-- A request that reaches the end of the active frame while a non-empty
frame is staged: the rest of the active frame, then the staged frame cyclically
from its byte 0; the staged frame is active afterwards. -/
theorem loop_swap (e : Engine) (stream : Int → Option Nat) (left done : Int) (fuel : Nat)
    (hS : e.nextFrame.samples ≠ none) (hm : 0 < e.nextFrame.n)
    (hp : e.pos < e.currFrame.n * 4) (hlen : e.currFrame.n * 4 - e.pos ≤ left)
    (hf : left < fuel) :
    cb_fill_audio.loop fuel e stream left done
      = some ({ e with
            pos := (left - (e.currFrame.n * 4 - e.pos)) % (e.nextFrame.n * 4)
            currFrame := e.nextFrame
            nextFrame := { samples := none, n := 0 } },
          fun k =>
            if done + (e.currFrame.n * 4 - e.pos) ≤ k ∧ k < done + left then
              e.nextFrame.byte ((k - (done + (e.currFrame.n * 4 - e.pos))) % (e.nextFrame.n * 4))
            else if done ≤ k ∧ k < done + (e.currFrame.n * 4 - e.pos) then
              e.currFrame.byte (e.pos + (k - done))
            else stream k) := by
  obtain ⟨f, rfl⟩ : ∃ f, fuel = f + 1 := ⟨fuel - 1, by omega⟩
  rw [loop_pass _ _ _ _ _ (by omega), body_end e stream left done (by omega) hlen, if_pos hS]
  dsimp only
  rw [loop_cycle e.nextFrame hm f _ _ _ _ rfl rfl (le_refl _) (show (0 : Int) < e.nextFrame.n * 4 by omega)
    (show 0 ≤ left - (e.currFrame.n * 4 - e.pos) by omega)
    (show left - (e.currFrame.n * 4 - e.pos) < (f : Int) by push_cast at hf; omega)]
  simp only [zero_add]
  congr 2
  funext k
  unfold memcpy
  by_cases hk : done + (e.currFrame.n * 4 - e.pos) ≤ k ∧ k < done + left
  · rw [if_pos hk, if_pos (by omega)]
  · rw [if_neg hk, if_neg (by omega)]

/-- Claim C4: when a frame `S` of `m > 0` pairs is staged, the active frame `A`
has `n > 0` pairs and the request reaches the end of `A` (`len ≥ 4n - pos`), the
call returns (with `fuel > len`) having written `A[pos .. 4n)` followed by the
bytes of `S` read cyclically from byte 0; afterwards `S` is active, the staged
slot is empty and the position is `(len - (4n - pos)) mod 4m`. -/
theorem pull_swaps_in_staged_frame (e : Engine) (stream : Int → Option Nat) (len : Int)
    (fuel : Nat) (hS : e.nextFrame.samples ≠ none) (hm : 0 < e.nextFrame.n)
    (_hn : 0 < e.currFrame.n) (_hp0 : 0 ≤ e.pos) (hp : e.pos < 4 * e.currFrame.n)
    (hlen : 4 * e.currFrame.n - e.pos ≤ len) (hfuel : len < fuel) :
    ∃ out, cb_fill_audio fuel e stream len
        = some ({ e with
            currFrame := e.nextFrame
            nextFrame := { samples := none, n := 0 }
            pos := (len - (4 * e.currFrame.n - e.pos)) % (4 * e.nextFrame.n) }, out) ∧
      (∀ k, 0 ≤ k → k < 4 * e.currFrame.n - e.pos → out k = e.currFrame.byte (e.pos + k)) ∧
      (∀ k, 4 * e.currFrame.n - e.pos ≤ k → k < len →
        out k = e.nextFrame.byte ((k - (4 * e.currFrame.n - e.pos)) % (4 * e.nextFrame.n))) ∧
      (∀ k, k < 0 ∨ len ≤ k → out k = stream k) := by
  have hcn : 4 * e.currFrame.n = e.currFrame.n * 4 := by ring
  have hcm : 4 * e.nextFrame.n = e.nextFrame.n * 4 := by ring
  rw [hcn] at hp hlen
  rw [hcn, hcm]
  refine ⟨_, loop_swap e stream len 0 fuel hS hm hp hlen hfuel, ?_, ?_, ?_⟩
  · intro k hk0 hk
    simp only [zero_add, sub_zero]
    rw [if_neg (by omega), if_pos ⟨hk0, hk⟩]
  · intro k hk0 hk
    simp only [zero_add]
    rw [if_pos ⟨hk0, hk⟩]
  · intro k hk
    simp only [zero_add]
    rw [if_neg (by omega), if_neg (by omega)]

theorem pull_swaps_in_staged_frame_witness :
    twoClips.nextFrame.samples ≠ none ∧ 0 < twoClips.nextFrame.n ∧ 0 < twoClips.currFrame.n ∧
    ∃ out, cb_fill_audio 21 { twoClips with pos := 3 } (fun _ => none) 20
        = some ({ twoClips with
            currFrame := twoClips.nextFrame
            nextFrame := { samples := none, n := 0 }
            pos := (20 - (4 * twoClips.currFrame.n - 3)) % (4 * twoClips.nextFrame.n) }, out) ∧
      (∀ k, 0 ≤ k → k < 4 * twoClips.currFrame.n - 3 → out k = twoClips.currFrame.byte (3 + k)) ∧
      (∀ k, 4 * twoClips.currFrame.n - 3 ≤ k → k < 20 →
        out k = twoClips.nextFrame.byte ((k - (4 * twoClips.currFrame.n - 3)) % (4 * twoClips.nextFrame.n))) ∧
      (∀ k, k < 0 ∨ 20 ≤ k → out k = (fun _ => none) k) :=
  ⟨by decide, by decide, by decide,
    pull_swaps_in_staged_frame { twoClips with pos := 3 } (fun _ => none) 20 21 (by decide)
      (by decide) (by decide) (by decide) (by decide) (by decide) (by decide)⟩

/-- Claim C6: partial frames are never played. From a position `pos` in an
active frame of `n > 0` pairs, (1) a request of fewer than `4n - pos` bytes
returns leaving the active frame and the staged slot as they were, with every
byte written taken from the active frame, whether or not a frame is staged;
(2) whenever a call returns with another active frame, the request reached the
end of the active frame; (3) a staged non-empty frame swapped in by a request
that reaches the end is read from its byte 0: the position is 0 when the request
ends at the boundary and the first byte written after it is byte 0 of that frame. -/
theorem partial_frames_never_played (e : Engine) (_hn : 0 < e.currFrame.n) (_hp0 : 0 ≤ e.pos)
    (hp : e.pos < 4 * e.currFrame.n) :
    (∀ (fuel : Nat) (stream : Int → Option Nat) (len : Int),
      len < 4 * e.currFrame.n - e.pos → 2 ≤ fuel →
      ∃ e' out, cb_fill_audio fuel e stream len = some (e', out) ∧
        e'.currFrame = e.currFrame ∧ e'.nextFrame = e.nextFrame ∧
        e'.pos = e.pos + max len 0 ∧
        (∀ k, 0 ≤ k → k < len → out k = e.currFrame.byte (e.pos + k)) ∧
        (∀ k, k < 0 ∨ len ≤ k → out k = stream k)) ∧
    (∀ (fuel : Nat) (stream : Int → Option Nat) (len : Int) (e' : Engine)
      (out : Int → Option Nat),
      cb_fill_audio fuel e stream len = some (e', out) → e'.currFrame ≠ e.currFrame →
      4 * e.currFrame.n - e.pos ≤ len) ∧
    (e.nextFrame.samples ≠ none → 0 < e.nextFrame.n →
      ∀ (fuel : Nat) (stream : Int → Option Nat) (len : Int),
      4 * e.currFrame.n - e.pos ≤ len → len < fuel →
      ∃ e' out, cb_fill_audio fuel e stream len = some (e', out) ∧
        e'.currFrame = e.nextFrame ∧
        (len = 4 * e.currFrame.n - e.pos → e'.pos = 0) ∧
        (4 * e.currFrame.n - e.pos < len →
          out (4 * e.currFrame.n - e.pos) = e.nextFrame.byte 0)) := by
  have hcn : 4 * e.currFrame.n = e.currFrame.n * 4 := by ring
  rw [hcn] at hp ⊢
  have hin : ∀ (fuel : Nat) (stream : Int → Option Nat) (len : Int),
      len < e.currFrame.n * 4 - e.pos → 2 ≤ fuel →
      cb_fill_audio fuel e stream len
        = some ({ e with pos := e.pos + max len 0 },
            fun k => if 0 ≤ k ∧ k < 0 + len
              then e.currFrame.byte (e.pos + (k - 0)) else stream k) := by
    intro fuel stream len hlen hfuel
    obtain ⟨f, rfl⟩ : ∃ f, fuel = f + 2 := ⟨fuel - 2, by omega⟩
    exact loop_within e stream len 0 f hlen
  refine ⟨?_, ?_, ?_⟩
  · intro fuel stream len hlen hfuel
    refine ⟨_, _, hin fuel stream len hlen hfuel, rfl, rfl, rfl, ?_, ?_⟩
    · intro k hk0 hk
      simp only [zero_add, sub_zero]
      rw [if_pos ⟨hk0, hk⟩]
    · intro k hk
      simp only [zero_add]
      rw [if_neg (by omega)]
  · intro fuel stream len e' out hret hne
    by_contra hlt
    have hlen : len < e.currFrame.n * 4 - e.pos := by omega
    apply hne
    rcases Nat.lt_or_ge fuel 2 with hf | hf
    · have hcases : fuel = 0 ∨ fuel = 1 := by omega
      rcases hcases with rfl | rfl
      · simp [cb_fill_audio, cb_fill_audio.loop] at hret
      · by_cases h0 : 0 < len
        · unfold cb_fill_audio at hret
          rw [loop_pass _ _ _ _ _ h0] at hret
          simp [cb_fill_audio.loop] at hret
        · unfold cb_fill_audio at hret
          rw [loop_exit _ _ _ _ _ (by omega)] at hret
          simp only [Option.some.injEq, Prod.mk.injEq] at hret
          rw [← hret.1]
    · rw [hin fuel stream len hlen hf] at hret
      simp only [Option.some.injEq, Prod.mk.injEq] at hret
      rw [← hret.1]
  · intro hS hm fuel stream len hlen hfuel
    refine ⟨_, _, loop_swap e stream len 0 fuel hS hm hp hlen hfuel, rfl, ?_, ?_⟩
    · intro hl
      show (len - (e.currFrame.n * 4 - e.pos)) % (e.nextFrame.n * 4) = 0
      rw [hl, sub_self, Int.zero_emod]
    · intro hl
      simp only [zero_add]
      rw [if_pos ⟨le_refl _, hl⟩, sub_self, Int.zero_emod]

theorem partial_frames_never_played_witness :
    0 < twoClips.currFrame.n ∧
    (∀ (fuel : Nat) (stream : Int → Option Nat) (len : Int),
      len < 4 * twoClips.currFrame.n - 3 → 2 ≤ fuel →
      ∃ e' out, cb_fill_audio fuel { twoClips with pos := 3 } stream len = some (e', out) ∧
        e'.currFrame = twoClips.currFrame ∧ e'.nextFrame = twoClips.nextFrame ∧
        e'.pos = 3 + max len 0 ∧
        (∀ k, 0 ≤ k → k < len → out k = twoClips.currFrame.byte (3 + k)) ∧
        (∀ k, k < 0 ∨ len ≤ k → out k = stream k)) :=
  ⟨by decide,
    (partial_frames_never_played { twoClips with pos := 3 } (by decide) (by decide)
      (by decide)).1⟩

/-! ## The staged slot -/

theorem flip_currFrame (e : Engine) (c : Int) : (flip e c).currFrame = e.currFrame := by
  unfold flip sendFrame
  split <;> rfl

theorem lineTo_currFrame (sqrt : ℚ → ℚ) (e : Engine) (x y c : ℚ) :
    (lineTo sqrt e x y c).currFrame = e.currFrame := by
  unfold lineTo
  split <;> rfl

theorem draws_currFrame (sqrt : ℚ → ℚ) (ds : List Draw) :
    ∀ e : Engine, (ds.foldl (Draw.run sqrt) e).currFrame = e.currFrame := by
  induction ds with
  | nil => intro e; rfl
  | cons d ds ih =>
    intro e
    rw [List.foldl_cons, ih]
    cases d with
    | setScale l r t b w => rfl
    | setMode mode => rfl
    | moveTo x y => exact lineTo_currFrame sqrt e x y 0
    | lineTo x y c => exact lineTo_currFrame sqrt e x y c

/-- What `flip` stages is the rendering of the stroke list, whatever was staged. -/
theorem flip_nextFrame (e : Engine) (c : Int) :
    (flip e c).nextFrame
      = { samples := some (sendFrame.render e e.work (e.work.n - 1).toNat 1 [])
          n := sendFrame.bufsiz e.work (e.work.n - 1).toNat 1 0 } := by
  unfold flip sendFrame
  split <;> rfl

/-- A pass of the loop keeps both frame slots, or moves a non-null staged frame
to the active slot and empties the staged slot. -/
theorem body_slots (e : Engine) (stream : Int → Option Nat) (left done : Int) :
    ((cb_fill_audio.body e stream left done).1.currFrame = e.currFrame ∧
      (cb_fill_audio.body e stream left done).1.nextFrame = e.nextFrame) ∨
    (e.nextFrame.samples ≠ none ∧
      (cb_fill_audio.body e stream left done).1.currFrame = e.nextFrame ∧
      (cb_fill_audio.body e stream left done).1.nextFrame = { samples := none, n := 0 }) := by
  unfold cb_fill_audio.body
  dsimp only
  split_ifs <;>
    first
      | exact Or.inr ⟨by assumption, rfl, rfl⟩
      | exact Or.inl ⟨rfl, rfl⟩

/-- The pair of frame slots is either (`A`, `F`) or (`F`, empty). -/
theorem loop_slots (A F : frame) :
    ∀ (fuel : Nat) (e : Engine) (stream : Int → Option Nat) (left done : Int) (e' : Engine)
      (out : Int → Option Nat),
      cb_fill_audio.loop fuel e stream left done = some (e', out) →
      ((e.currFrame = A ∧ e.nextFrame = F) ∨ (e.currFrame = F ∧ e.nextFrame.samples = none)) →
      ((e'.currFrame = A ∧ e'.nextFrame = F) ∨ (e'.currFrame = F ∧ e'.nextFrame.samples = none)) := by
  intro fuel
  induction fuel with
  | zero =>
    intro e stream left done e' out h _
    simp [cb_fill_audio.loop] at h
  | succ fuel ih =>
    intro e stream left done e' out h hinv
    by_cases hl : 0 < left
    · rw [loop_pass _ _ _ _ _ hl] at h
      apply ih _ _ _ _ _ _ h
      rcases body_slots e stream left done with ⟨hc, hx⟩ | ⟨hs, hc, hx⟩
      · rw [hc, hx]; exact hinv
      · rcases hinv with ⟨_, hF⟩ | ⟨_, hnone⟩
        · right
          rw [hc, hx, hF]
          exact ⟨rfl, rfl⟩
        · exact absurd hnone hs
    · rw [loop_exit _ _ _ _ _ (by omega)] at h
      simp only [Option.some.injEq, Prod.mk.injEq] at h
      rw [← h.1]
      exact hinv

theorem pulls_slots (A F : frame) :
    ∀ (ps : List (Nat × (Int → Option Nat) × Int)) (e e' : Engine),
      pulls e ps = some e' →
      ((e.currFrame = A ∧ e.nextFrame = F) ∨ (e.currFrame = F ∧ e.nextFrame.samples = none)) →
      ((e'.currFrame = A ∧ e'.nextFrame = F) ∨ (e'.currFrame = F ∧ e'.nextFrame.samples = none)) := by
  intro ps
  induction ps with
  | nil =>
    intro e e' h hinv
    simp only [pulls, Option.some.injEq] at h
    rw [← h]
    exact hinv
  | cons p ps ih =>
    intro e e' h hinv
    rw [pulls] at h
    cases hr : cb_fill_audio p.1 e p.2.1 p.2.2 with
    | none => rw [hr] at h; simp at h
    | some r =>
      rw [hr] at h
      obtain ⟨e1, out⟩ := r
      exact ih e1 e' h (loop_slots A F _ _ _ _ _ _ _ hr hinv)

/-- Claim C5: when a frame is committed (`flip e c1`), then, after any drawing
calls but no pull, a second frame is committed, the staged slot holds exactly
the second frame (the rendering of the stroke list at the second commit), and
after every sequence of returning pulls the active frame is the one that was
active before the commits or the second frame; the first staged frame is never
activated. -/
theorem second_commit_replaces_first (sqrt : ℚ → ℚ) (e : Engine) (c1 c2 : Int)
    (ds : List Draw) (ps : List (Nat × (Int → Option Nat) × Int)) (e' : Engine)
    (h : pulls (flip (ds.foldl (Draw.run sqrt) (flip e c1)) c2) ps = some e') :
    (flip (ds.foldl (Draw.run sqrt) (flip e c1)) c2).nextFrame
      = { samples := some (sendFrame.render (ds.foldl (Draw.run sqrt) (flip e c1))
            (ds.foldl (Draw.run sqrt) (flip e c1)).work
            ((ds.foldl (Draw.run sqrt) (flip e c1)).work.n - 1).toNat 1 [])
          n := sendFrame.bufsiz (ds.foldl (Draw.run sqrt) (flip e c1)).work
            ((ds.foldl (Draw.run sqrt) (flip e c1)).work.n - 1).toNat 1 0 } ∧
    (e'.currFrame = e.currFrame ∨
      e'.currFrame = (flip (ds.foldl (Draw.run sqrt) (flip e c1)) c2).nextFrame) := by
  refine ⟨flip_nextFrame _ c2, ?_⟩
  have hcur : (flip (ds.foldl (Draw.run sqrt) (flip e c1)) c2).currFrame = e.currFrame := by
    rw [flip_currFrame, draws_currFrame, flip_currFrame]
  rcases pulls_slots e.currFrame (flip (ds.foldl (Draw.run sqrt) (flip e c1)) c2).nextFrame
      ps _ e' h (Or.inl ⟨hcur, rfl⟩) with ⟨hA, _⟩ | ⟨hF, _⟩
  · exact Or.inl hA
  · exact Or.inr hF

theorem second_commit_replaces_first_witness :
    pulls drawnTwice [(21, fun _ => none, 20)]
      = some { drawnTwice with
          pos := (20 - (drawnTwice.currFrame.n * 4 - drawnTwice.pos)) % (drawnTwice.nextFrame.n * 4)
          currFrame := drawnTwice.nextFrame
          nextFrame := { samples := none, n := 0 } } ∧
    drawnTwice.nextFrame
      = { samples := some (sendFrame.render (List.foldl (Draw.run sqrtQ) (flip drawn 0) [Draw.setMode 1])
            (List.foldl (Draw.run sqrtQ) (flip drawn 0) [Draw.setMode 1]).work
            ((List.foldl (Draw.run sqrtQ) (flip drawn 0) [Draw.setMode 1]).work.n - 1).toNat 1 [])
          n := sendFrame.bufsiz (List.foldl (Draw.run sqrtQ) (flip drawn 0) [Draw.setMode 1]).work
            ((List.foldl (Draw.run sqrtQ) (flip drawn 0) [Draw.setMode 1]).work.n - 1).toNat 1 0 } ∧
    (drawnTwice.nextFrame = drawn.currFrame ∨ drawnTwice.nextFrame = drawnTwice.nextFrame) := by
  have hret : pulls drawnTwice [(21, fun _ => none, 20)]
      = some { drawnTwice with
          pos := (20 - (drawnTwice.currFrame.n * 4 - drawnTwice.pos)) % (drawnTwice.nextFrame.n * 4)
          currFrame := drawnTwice.nextFrame
          nextFrame := { samples := none, n := 0 } } := by
    have hc := loop_swap drawnTwice (fun _ => none) 20 0 21
      (by rw [drawnTwice, flip_nextFrame]; simp) (by decide) (by decide) (by decide) (by decide)
    simp only [pulls, cb_fill_audio, hc]
  exact ⟨hret, second_commit_replaces_first sqrtQ drawn 0 1 [Draw.setMode 1]
    [(21, fun _ => none, 20)] _ hret⟩

/-! ## lineTo: what is stored -/

theorem sqrtQ_mul_self (q : ℚ) (hq : 0 ≤ q) : sqrtQ (q * q) = q := by
  unfold sqrtQ
  rw [Rat.mul_self_num, Rat.mul_self_den]
  have hnum : 0 ≤ q.num := Rat.num_nonneg.mpr hq
  obtain ⟨a, ha⟩ : ∃ a : Nat, q.num = (a : Int) := ⟨q.num.toNat, (Int.toNat_of_nonneg hnum).symm⟩
  have hsq : (q.num * q.num).toNat * (q.den * q.den) * 4 ^ 32
      = (a * q.den * 2 ^ 32) * (a * q.den * 2 ^ 32) := by
    have : (q.num * q.num).toNat = a * a := by
      rw [ha]
      exact_mod_cast Int.toNat_natCast (a * a)
    rw [this]
    ring
  rw [hsq, Nat.sqrt_eq]
  have hden : (q.den : ℚ) ≠ 0 := by exact_mod_cast q.den_nz
  have hq' : q = (a : ℚ) / (q.den : ℚ) := by
    have h := (Rat.num_div_den q).symm
    rw [ha] at h
    exact_mod_cast h
  have hgoal : ((a * q.den * 2 ^ 32 : Nat) : ℚ) / (((q.den * q.den : Nat) : ℚ) * 2 ^ 32)
      = (a : ℚ) / (q.den : ℚ) := by
    push_cast
    field_simp
    ring
  rw [hgoal]
  exact hq'.symm

theorem toUint16_of_range (q : ℚ) (h0 : 0 ≤ q) (h1 : q < 65536) : (toUint16 q : Int) = ⌊q⌋ := by
  unfold toUint16 intToUint16 truncQ
  rw [if_pos h0]
  have hf0 : 0 ≤ ⌊q⌋ := Int.floor_nonneg.mpr h0
  have hf1 : ⌊q⌋ < 65536 := Int.floor_lt.mpr (by exact_mod_cast h1)
  omega

theorem toUint16_natCast (k : Nat) (hk : k < 65536) : toUint16 (k : ℚ) = k := by
  have h := toUint16_of_range (k : ℚ) (by positivity) (by exact_mod_cast hk)
  rw [Int.floor_natCast] at h
  exact_mod_cast h

theorem toUint16_zero : toUint16 0 = 0 := by
  have := toUint16_natCast 0 (by norm_num)
  simpa using this

/-- What `lineTo` stores on a list that is not full. -/
theorem lineTo_stores (sqrt : ℚ → ℚ) (e : Engine) (x y c : ℚ) (h : e.work.n < MAX_POINTS) :
    (lineTo sqrt e x y c).work.n = e.work.n + 1 ∧
    (lineTo sqrt e x y c).work.pts (e.work.n * 3 + 0) = toUint16 (lineTo.scale e.xmin e.xmax x) ∧
    (lineTo sqrt e x y c).work.pts (e.work.n * 3 + 1) = toUint16 (lineTo.scale e.ymin e.ymax y) ∧
    (lineTo sqrt e x y c).work.pts (e.work.n * 3 + 2)
      = toUint16 (lineTo.color sqrt e (lineTo.scale e.xmin e.xmax x)
          (lineTo.scale e.ymin e.ymax y) c) := by
  unfold lineTo
  rw [if_neg (by omega)]
  refine ⟨rfl, ?_, ?_, ?_⟩
  · simp [Function.update]
  · simp [Function.update]
  · simp [Function.update]

/-- The cells of `work_pts` that `lineTo` does not write keep their value. -/
theorem lineTo_pts_other (sqrt : ℚ → ℚ) (e : Engine) (x y c : ℚ) (i : Int)
    (h0 : i ≠ e.work.n * 3 + 0) (h1 : i ≠ e.work.n * 3 + 1) (h2 : i ≠ e.work.n * 3 + 2) :
    (lineTo sqrt e x y c).work.pts i = e.work.pts i := by
  unfold lineTo
  split
  · rfl
  · dsimp only
    rw [Function.update_noteq h2, Function.update_noteq h1, Function.update_noteq h0]

/-- The scale, weight and orientation settings are not changed by `lineTo`. -/
theorem lineTo_settings (sqrt : ℚ → ℚ) (e : Engine) (x y c : ℚ) :
    (lineTo sqrt e x y c).xmin = e.xmin ∧ (lineTo sqrt e x y c).xmax = e.xmax ∧
    (lineTo sqrt e x y c).ymin = e.ymin ∧ (lineTo sqrt e x y c).ymax = e.ymax ∧
    (lineTo sqrt e x y c).targetWeight = e.targetWeight := by
  unfold lineTo
  split <;> exact ⟨rfl, rfl, rfl, rfl, rfl⟩

/-- The stroke list after `moveTo(x0, y0); lineTo(x, y, c)` on an empty list. -/
theorem moveTo_lineTo_stores (sqrt : ℚ → ℚ) (e : Engine) (x0 y0 x y c : ℚ)
    (hn : e.work.n = 0) :
    (lineTo sqrt (moveTo sqrt e x0 y0) x y c).work.n = 2 ∧
    (lineTo sqrt (moveTo sqrt e x0 y0) x y c).work.pts 0
      = toUint16 (lineTo.scale e.xmin e.xmax x0) ∧
    (lineTo sqrt (moveTo sqrt e x0 y0) x y c).work.pts 1
      = toUint16 (lineTo.scale e.ymin e.ymax y0) ∧
    (lineTo sqrt (moveTo sqrt e x0 y0) x y c).work.pts 2 = 0 ∧
    (lineTo sqrt (moveTo sqrt e x0 y0) x y c).work.pts 3
      = toUint16 (lineTo.scale e.xmin e.xmax x) ∧
    (lineTo sqrt (moveTo sqrt e x0 y0) x y c).work.pts 4
      = toUint16 (lineTo.scale e.ymin e.ymax y) ∧
    (lineTo sqrt (moveTo sqrt e x0 y0) x y c).work.pts 5
      = toUint16
          (if c * lineTo.lineLen sqrt (toUint16 (lineTo.scale e.xmin e.xmax x0))
                (toUint16 (lineTo.scale e.ymin e.ymax y0)) (lineTo.scale e.xmin e.xmax x)
                (lineTo.scale e.ymin e.ymax y) * e.targetWeight < 1.0
            then 1.0
            else c * lineTo.lineLen sqrt (toUint16 (lineTo.scale e.xmin e.xmax x0))
                (toUint16 (lineTo.scale e.ymin e.ymax y0)) (lineTo.scale e.xmin e.xmax x)
                (lineTo.scale e.ymin e.ymax y) * e.targetWeight) := by
  have hfull : e.work.n < MAX_POINTS := by rw [hn]; decide
  obtain ⟨m1, m2, m3, m4⟩ := lineTo_stores sqrt e x0 y0 0 hfull
  obtain ⟨s1, s2, s3, s4, s5⟩ := lineTo_settings sqrt e x0 y0 0
  rw [hn] at m1 m2 m3 m4
  norm_num at m1 m2 m3 m4
  have hcol0 : lineTo.color sqrt e (lineTo.scale e.xmin e.xmax x0)
      (lineTo.scale e.ymin e.ymax y0) 0 = 0 := by
    unfold lineTo.color
    rw [if_neg (by omega)]
  rw [hcol0] at m4
  have hz : toUint16 0 = 0 := by
    have := toUint16_natCast 0 (by norm_num)
    simpa using this
  rw [hz] at m4
  have hM : (moveTo sqrt e x0 y0) = lineTo sqrt e x0 y0 0 := rfl
  have hfull2 : (moveTo sqrt e x0 y0).work.n < MAX_POINTS := by rw [hM, m1]; decide
  obtain ⟨l1, l2, l3, l4⟩ := lineTo_stores sqrt (moveTo sqrt e x0 y0) x y c hfull2
  rw [hM] at l1 l2 l3 l4 ⊢
  rw [m1] at l1 l2 l3 l4
  rw [s1, s2, s3, s4] at *
  norm_num at l1 l2 l3 l4
  refine ⟨l1, ?_, ?_, ?_, l2, l3, ?_⟩
  · rw [lineTo_pts_other _ _ _ _ _ _ (by rw [m1]; decide) (by rw [m1]; decide) (by rw [m1]; decide)]
    exact m2
  · rw [lineTo_pts_other _ _ _ _ _ _ (by rw [m1]; decide) (by rw [m1]; decide) (by rw [m1]; decide)]
    exact m3
  · rw [lineTo_pts_other _ _ _ _ _ _ (by rw [m1]; decide) (by rw [m1]; decide) (by rw [m1]; decide)]
    exact m4
  · rw [l4]
    unfold lineTo.color
    rw [if_pos (by rw [m1]; decide)]
    simp only [m1, s5]
    norm_num
    rw [m2, m3]

/-- The 16-bit value stored for a scaled and clamped coordinate. -/
theorem scale_stored (lo hi x : ℚ) :
    (toUint16 (lineTo.scale lo hi x) : Int)
      = if lo = hi then 32768 else max 0 (min 65535 ⌊(x - lo) / (hi - lo) * 65535⌋) := by
  by_cases hd : lo = hi
  · rw [if_pos hd]
    have hs : lineTo.scale lo hi x = ((32768 : Nat) : ℚ) := by
      unfold lineTo.scale
      simp only [hd, if_true]
      norm_num
    rw [hs, toUint16_natCast _ (by norm_num)]
    rfl
  · rw [if_neg hd]
    unfold lineTo.scale
    simp only [hd, if_false]
    by_cases hneg : (x - lo) / (hi - lo) * 65535 < 0
    · rw [if_pos hneg, toUint16_zero]
      have hf : ⌊(x - lo) / (hi - lo) * 65535⌋ < 0 := Int.floor_lt.mpr (by exact_mod_cast hneg)
      omega
    · rw [if_neg hneg]
      by_cases hbig : (x - lo) / (hi - lo) * 65535 > 65535
      · rw [if_pos hbig]
        have h := toUint16_natCast 65535 (by norm_num)
        have hf : (65535 : Int) ≤ ⌊(x - lo) / (hi - lo) * 65535⌋ :=
          Int.le_floor.mpr (by exact_mod_cast le_of_lt hbig)
        have hc : ((65535 : Nat) : ℚ) = 65535 := by norm_num
        rw [hc] at h
        rw [h]
        omega
      · rw [if_neg hbig]
        have h0 : 0 ≤ (x - lo) / (hi - lo) * 65535 := not_lt.mp hneg
        have h1 : (x - lo) / (hi - lo) * 65535 ≤ 65535 := not_lt.mp hbig
        rw [toUint16_of_range _ h0 (by linarith)]
        have hf0 : 0 ≤ ⌊(x - lo) / (hi - lo) * 65535⌋ := Int.floor_nonneg.mpr h0
        have hf1 : ⌊(x - lo) / (hi - lo) * 65535⌋ ≤ 65535 := by
          have : ⌊(x - lo) / (hi - lo) * 65535⌋ < 65535 + 1 :=
            Int.floor_lt.mpr (by push_cast; linarith)
          omega
        omega

theorem lineTo_full (sqrt : ℚ → ℚ) (e : Engine) (x y c : ℚ) (h : MAX_POINTS ≤ e.work.n) :
    lineTo sqrt e x y c = e := by
  unfold lineTo
  rw [if_pos h]

theorem lineTo_n_bound (sqrt : ℚ → ℚ) (e : Engine) (x y c : ℚ)
    (h : 0 ≤ e.work.n ∧ e.work.n ≤ 4096) :
    0 ≤ (lineTo sqrt e x y c).work.n ∧ (lineTo sqrt e x y c).work.n ≤ 4096 := by
  unfold lineTo MAX_POINTS
  split
  · exact h
  · dsimp only
    omega

theorem body_work (e : Engine) (stream : Int → Option Nat) (left done : Int) :
    (cb_fill_audio.body e stream left done).1.work = e.work := by
  unfold cb_fill_audio.body
  dsimp only
  split_ifs <;> rfl

theorem loop_work :
    ∀ (fuel : Nat) (e : Engine) (stream : Int → Option Nat) (left done : Int) (e' : Engine)
      (out : Int → Option Nat),
      cb_fill_audio.loop fuel e stream left done = some (e', out) → e'.work = e.work := by
  intro fuel
  induction fuel with
  | zero =>
    intro e stream left done e' out h
    simp [cb_fill_audio.loop] at h
  | succ fuel ih =>
    intro e stream left done e' out h
    by_cases hl : 0 < left
    · rw [loop_pass _ _ _ _ _ hl] at h
      rw [ih _ _ _ _ _ _ h, body_work]
    · rw [loop_exit _ _ _ _ _ (by omega)] at h
      simp only [Option.some.injEq, Prod.mk.injEq] at h
      rw [← h.1]

theorem flip_n_bound (e : Engine) (c : Int) (h : 0 ≤ e.work.n ∧ e.work.n ≤ 4096) :
    0 ≤ (flip e c).work.n ∧ (flip e c).work.n ≤ 4096 := by
  unfold flip sendFrame
  split
  · dsimp only
    omega
  · exact h

theorem reachable_n_bound (sqrt : ℚ → ℚ) (e : Engine) (h : Reachable sqrt e) :
    0 ≤ e.work.n ∧ e.work.n ≤ 4096 := by
  induction h with
  | init freq buffer =>
    show (0 : Int) ≤ 0 ∧ (0 : Int) ≤ 4096
    omega
  | setScale l r t b w _ ih => exact ih
  | setMode mode _ ih => exact ih
  | moveTo x y _ ih => exact lineTo_n_bound sqrt _ x y 0 ih
  | lineTo x y c _ ih => exact lineTo_n_bound sqrt _ x y c ih
  | flip c _ ih => exact flip_n_bound _ c ih
  | pull fuel stream out len _ hret ih =>
    rw [loop_work _ _ _ _ _ _ _ hret]
    exact ih

theorem fullList_iterate (k : Nat) (hk : k ≤ 4096) :
    Reachable sqrtQ (Nat.iterate (fun e => lineTo sqrtQ e 0 0 1) k (gfxInit boot 44100 1024)) ∧
    (Nat.iterate (fun e => lineTo sqrtQ e 0 0 1) k (gfxInit boot 44100 1024)).work.n = k := by
  induction k with
  | zero => exact ⟨Reachable.init _ _, rfl⟩
  | succ k ih =>
    obtain ⟨hr, hn⟩ := ih (by omega)
    rw [Function.iterate_succ_apply']
    refine ⟨Reachable.lineTo _ _ _ hr, ?_⟩
    rw [(lineTo_stores sqrtQ _ 0 0 1 (by rw [hn]; unfold MAX_POINTS; omega)).1, hn]
    push_cast
    rfl

theorem fullList_spec : Reachable sqrtQ fullList ∧ fullList.work.n = 4096 := by
  have h := fullList_iterate 4096 (le_refl _)
  unfold fullList
  refine ⟨h.1, ?_⟩
  rw [h.2]
  norm_num

/-- Claim C8: in every reachable state the stroke list holds between 0 and
`MAX_POINTS = 4096` points, and on a list of 4096 points `lineTo` and `moveTo`
change nothing (neither the length nor any stored point). -/
theorem stroke_list_bounded (sqrt : ℚ → ℚ) (e : Engine) (h : Reachable sqrt e) :
    (0 ≤ e.work.n ∧ e.work.n ≤ 4096) ∧
    (e.work.n = 4096 → ∀ x y c : ℚ, lineTo sqrt e x y c = e ∧ moveTo sqrt e x y = e) := by
  refine ⟨reachable_n_bound sqrt e h, ?_⟩
  intro hn x y c
  have hfull : MAX_POINTS ≤ e.work.n := by rw [hn]; decide
  exact ⟨lineTo_full sqrt e x y c hfull, lineTo_full sqrt e x y 0 hfull⟩

theorem stroke_list_bounded_witness :
    Reachable sqrtQ fullList ∧ fullList.work.n = 4096 ∧
    ((0 ≤ fullList.work.n ∧ fullList.work.n ≤ 4096) ∧
      (fullList.work.n = 4096 →
        ∀ x y c : ℚ, lineTo sqrtQ fullList x y c = fullList ∧ moveTo sqrtQ fullList x y = fullList)) :=
  ⟨fullList_spec.1, fullList_spec.2, stroke_list_bounded sqrtQ fullList fullList_spec.1⟩

/-! ## lineTo: the stored weight -/

/-- When `color` stays below 65536 the weight stored for a point other than the
first is at least 1. -/
theorem lineTo_weight_ge_one (sqrt : ℚ → ℚ) (e : Engine) (x y c : ℚ) (h0 : 0 < e.work.n)
    (hfull : e.work.n < MAX_POINTS)
    (hlt : lineTo.color sqrt e (lineTo.scale e.xmin e.xmax x) (lineTo.scale e.ymin e.ymax y) c
      < 65536) :
    1 ≤ (lineTo sqrt e x y c).work.pts (e.work.n * 3 + 2) := by
  have hge : 1 ≤ lineTo.color sqrt e (lineTo.scale e.xmin e.xmax x)
      (lineTo.scale e.ymin e.ymax y) c := by
    unfold lineTo.color
    rw [if_pos h0]
    dsimp only
    split_ifs with h
    · norm_num
    · have h1 := not_lt.mp h
      have h2 : (1.0 : ℚ) = 1 := by norm_num
      rw [h2] at h1
      exact h1
  rw [(lineTo_stores sqrt e x y c hfull).2.2.2]
  have hc := toUint16_of_range _ (le_trans zero_le_one hge) hlt
  have hf : (1 : Int) ≤ ⌊lineTo.color sqrt e (lineTo.scale e.xmin e.xmax x)
      (lineTo.scale e.ymin e.ymax y) c⌋ := Int.le_floor.mpr (by exact_mod_cast hge)
  omega

/-- When the measured length is below the threshold, `moveTo` followed by
`lineTo` on an empty list stores the weight computed from the dwell length
`5.0/100.0`. -/
theorem dwell_weight (sqrt : ℚ → ℚ) (e : Engine) (x0 y0 x y c : ℚ) (hn : e.work.n = 0)
    (hshort :
      sqrt (((toUint16 (lineTo.scale e.xmin e.xmax x0) : ℚ) - lineTo.scale e.xmin e.xmax x)
            * ((toUint16 (lineTo.scale e.xmin e.xmax x0) : ℚ) - lineTo.scale e.xmin e.xmax x)
          + ((toUint16 (lineTo.scale e.ymin e.ymax y0) : ℚ) - lineTo.scale e.ymin e.ymax y)
            * ((toUint16 (lineTo.scale e.ymin e.ymax y0) : ℚ) - lineTo.scale e.ymin e.ymax y))
        / 65535 < 0.00002) :
    (lineTo sqrt (moveTo sqrt e x0 y0) x y c).work.pts 5
      = toUint16 (max 1 (c * (5.0 / 100.0) * e.targetWeight)) := by
  rw [(moveTo_lineTo_stores sqrt e x0 y0 x y c hn).2.2.2.2.2.2]
  have hlen : lineTo.lineLen sqrt (toUint16 (lineTo.scale e.xmin e.xmax x0))
      (toUint16 (lineTo.scale e.ymin e.ymax y0)) (lineTo.scale e.xmin e.xmax x)
      (lineTo.scale e.ymin e.ymax y) = 5.0 / 100.0 := by
    unfold lineTo.lineLen
    dsimp only
    rw [if_pos hshort]
  rw [hlen]
  congr 1
  have h1 : (1.0 : ℚ) = 1 := by norm_num
  rw [h1]
  split_ifs with h
  · exact (max_eq_left (le_of_lt h)).symm
  · exact (max_eq_right (not_lt.mp h)).symm

/-- Claim C9 (refuted on the code): after `setScale(0,1000,0,1000,1);
moveTo(0,0); lineTo(1000,0,65536)` the second point is appended and its stored
weight is 0: `color` is 65536.0 and the cast to `Uint16` keeps the low 16 bits. -/
theorem lineTo_weight_wraps_to_zero :
    Reachable sqrtQ overflowed ∧ overflowed.work.n = 2 ∧ overflowed.work.pts 5 = 0 := by
  refine ⟨Reachable.lineTo _ _ _ (Reachable.moveTo _ _
    (Reachable.setScale _ _ _ _ _ (Reachable.init _ _))), ?_⟩
  obtain ⟨h1, -, -, -, -, -, h5⟩ := moveTo_lineTo_stores sqrtQ
    (setScale (gfxInit boot 44100 1024) 0 1000 0 1000 1) 0 0 1000 0 65536 rfl
  refine ⟨h1, ?_⟩
  have hx0 : lineTo.scale 0 1000 0 = 0 := by norm_num [lineTo.scale]
  have hx1 : lineTo.scale 0 1000 1000 = 65535 := by norm_num [lineTo.scale]
  have hs : sqrtQ 4294836225 = 65535 := by
    have h := sqrtQ_mul_self 65535 (by norm_num)
    norm_num at h
    exact h
  have hlen : lineTo.lineLen sqrtQ 0 0 65535 0 = 1 := by
    unfold lineTo.lineLen
    norm_num [hs]
  show (lineTo sqrtQ (moveTo sqrtQ (setScale (gfxInit boot 44100 1024) 0 1000 0 1000 1) 0 0)
    1000 0 65536).work.pts 5 = 0
  rw [h5]
  simp only [setScale, hx0, hx1, toUint16_zero, hlen]
  norm_num [toUint16, truncQ, intToUint16]

/-- Claim C10 (refuted on the code): after `setScale(0,65535,0,65535,100)`,
`moveTo(15/16, 63/64)` followed by `lineTo(15/16, 63/64, 1)` to the same logical
point stores weight 1, while the minimum dwell length 0.05 gives
`⌊max(1, 1 * 0.05 * 100)⌋ = 5`: the distance is taken from the truncated stored
point (0, 0) to the untruncated new point and is `87/64/65535 ≥ 0.00002`. -/
theorem dwell_threshold_missed :
    Reachable sqrtQ dwellMissed ∧ dwellMissed.work.n = 2 ∧ dwellMissed.work.pts 5 = 1 ∧
    ⌊max (1 : ℚ) (1 * 0.05 * 100)⌋ = 5 := by
  refine ⟨Reachable.lineTo _ _ _ (Reachable.moveTo _ _
    (Reachable.setScale _ _ _ _ _ (Reachable.init _ _))), ?_⟩
  obtain ⟨h1, -, -, -, -, -, h5⟩ := moveTo_lineTo_stores sqrtQ
    (setScale (gfxInit boot 44100 1024) 0 65535 0 65535 100) (15 / 16) (63 / 64)
    (15 / 16) (63 / 64) 1 rfl
  refine ⟨h1, ?_, ?_⟩
  · have hx : lineTo.scale 0 65535 (15 / 16) = 15 / 16 := by norm_num [lineTo.scale]
    have hy : lineTo.scale 0 65535 (63 / 64) = 63 / 64 := by norm_num [lineTo.scale]
    have hux : toUint16 (15 / 16) = 0 := by
      have h := toUint16_of_range (15 / 16) (by norm_num) (by norm_num)
      have hf : ⌊(15 / 16 : ℚ)⌋ = 0 := by norm_num [Int.floor_eq_iff]
      rw [hf] at h
      exact_mod_cast h
    have huy : toUint16 (63 / 64) = 0 := by
      have h := toUint16_of_range (63 / 64) (by norm_num) (by norm_num)
      have hf : ⌊(63 / 64 : ℚ)⌋ = 0 := by norm_num [Int.floor_eq_iff]
      rw [hf] at h
      exact_mod_cast h
    have hs : sqrtQ (87 / 64 * (87 / 64)) = 87 / 64 := sqrtQ_mul_self _ (by norm_num)
    have hlen : lineTo.lineLen sqrtQ 0 0 (15 / 16) (63 / 64) = 87 / 64 / 65535 := by
      unfold lineTo.lineLen
      have : (((0 : Nat) : ℚ) - 15 / 16) * (((0 : Nat) : ℚ) - 15 / 16)
          + (((0 : Nat) : ℚ) - 63 / 64) * (((0 : Nat) : ℚ) - 63 / 64) = 87 / 64 * (87 / 64) := by
        norm_num
      simp only [this, hs]
      norm_num
    show (lineTo sqrtQ (moveTo sqrtQ (setScale (gfxInit boot 44100 1024) 0 65535 0 65535 100)
      (15 / 16) (63 / 64)) (15 / 16) (63 / 64) 1).work.pts 5 = 1
    rw [h5]
    simp only [setScale, hx, hy, hux, huy, hlen]
    norm_num [toUint16, truncQ, intToUint16]
  · norm_num [Int.floor_eq_iff]

/-! ## sendFrame: the rendered samples -/

theorem steps_eq (e : Engine) (dX dY : ℚ) :
    ∀ (k : Nat) (X Y : ℚ) (buf : List Int),
      sendFrame.steps e dX dY k X Y buf
        = buf ++ (sendFrame.track dX dY k X Y).flatMap (sendFrame.pair e) := by
  intro k
  induction k with
  | zero => intro X Y buf; simp [sendFrame.steps, sendFrame.track]
  | succ k ih =>
    intro X Y buf
    rw [sendFrame.steps, sendFrame.track, List.flatMap_cons, ih]
    unfold sendFrame.pair
    split <;> simp

theorem segment_eq (e : Engine) (vl : vlist) (pt : Int) (buf : List Int) :
    sendFrame.segment e vl pt buf
      = buf ++ (sendFrame.segmentTrack vl pt).flatMap (sendFrame.pair e) := by
  unfold sendFrame.segment sendFrame.segmentTrack
  exact steps_eq e _ _ _ _ _ _

/-- The samples written by the render loop are the pairs of the running
coordinates, in order. -/
theorem render_eq (e : Engine) (vl : vlist) :
    ∀ (k : Nat) (pt : Int) (buf : List Int),
      sendFrame.render e vl k pt buf
        = buf ++ (sendFrame.renderTrack vl k pt).flatMap (sendFrame.pair e) := by
  intro k
  induction k with
  | zero => intro pt buf; simp [sendFrame.render, sendFrame.renderTrack]
  | succ k ih =>
    intro pt buf
    rw [sendFrame.render, ih, segment_eq, sendFrame.renderTrack, List.flatMap_append,
      List.append_assoc]

theorem track_length (dX dY : ℚ) :
    ∀ (k : Nat) (X Y : ℚ), (sendFrame.track dX dY k X Y).length = k := by
  intro k
  induction k with
  | zero => intro X Y; rfl
  | succ k ih => intro X Y; rw [sendFrame.track, List.length_cons, ih]

theorem track_getElem (dX dY : ℚ) :
    ∀ (k i : Nat) (X Y : ℚ), i < k →
      (sendFrame.track dX dY k X Y)[i]? = some (X + i * dX, Y + i * dY) := by
  intro k
  induction k with
  | zero => intro i X Y h; omega
  | succ k ih =>
    intro i X Y h
    rw [sendFrame.track]
    cases i with
    | zero => simp
    | succ i =>
      rw [List.getElem?_cons_succ, ih i _ _ (by omega)]
      push_cast
      congr 2 <;> ring

/-- Indexing a list of pairs written one after the other. -/
theorem flatMap_pair_getElem {α : Type} (f : α → List Int) (g h : α → Int)
    (hf : ∀ a, f a = [g a, h a]) :
    ∀ (l : List α) (i : Nat),
      (l.flatMap f)[2 * i]? = (l[i]?).map g ∧ (l.flatMap f)[2 * i + 1]? = (l[i]?).map h := by
  intro l
  induction l with
  | nil => intro i; simp
  | cons a l ih =>
    intro i
    rw [List.flatMap_cons, hf]
    cases i with
    | zero => simp
    | succ i =>
      have h1 : 2 * (i + 1) = (2 * i) + 1 + 1 := by ring
      have h2 : 2 * (i + 1) + 1 = (2 * i + 1) + 1 + 1 := by ring
      rw [h2, h1]
      simp only [List.cons_append, List.nil_append, List.getElem?_cons_succ]
      exact ih i

theorem flatMap_pair_length {α : Type} (f : α → List Int) (g h : α → Int)
    (hf : ∀ a, f a = [g a, h a]) (l : List α) : (l.flatMap f).length = 2 * l.length := by
  induction l with
  | nil => rfl
  | cons a l ih =>
    rw [List.flatMap_cons, List.length_append, ih, hf]
    simp only [List.length_cons, List.length_nil]
    ring

/-! ## sendFrame: sample values and channels -/

theorem toSint16_of_range (v : Int) (h0 : -32768 ≤ v) (h1 : v ≤ 32767) : toSint16 v = v := by
  unfold toSint16
  omega

theorem intToUint16_cast (v : Int) : ((intToUint16 v : Nat) : Int) = v % 65536 := by
  unfold intToUint16
  omega

/-- The X sample for a running coordinate whose integer part is in the 16-bit
range. -/
theorem iX_of_range (flipX : Int) (X : ℚ) (h0 : 0 ≤ truncQ X) (h1 : truncQ X ≤ 65535) :
    sendFrame.iX flipX X
      = if flipX ≠ 0 then truncQ X - 32768 else (65535 - truncQ X) - 32768 := by
  unfold sendFrame.iX toUint16
  rw [intToUint16_cast]
  split
  · exact toSint16_of_range _ (by omega) (by omega)
  · rw [Int.emod_eq_of_lt h0 (by omega)]
    exact toSint16_of_range _ (by omega) (by omega)

/-- The Y sample for a running coordinate whose integer part is in the 16-bit
range. -/
theorem iY_of_range (flipY : Int) (Y : ℚ) (h0 : 0 ≤ truncQ Y) (h1 : truncQ Y ≤ 65535) :
    sendFrame.iY flipY Y
      = if flipY ≠ 0 then (65535 - truncQ Y) - 32768 else truncQ Y - 32768 := by
  unfold sendFrame.iY toUint16
  rw [intToUint16_cast]
  split
  · rw [Int.emod_eq_of_lt h0 (by omega)]
    exact toSint16_of_range _ (by omega) (by omega)
  · exact toSint16_of_range _ (by omega) (by omega)

/-- Mirroring X replaces the sample `x` by `-1 - x`, for every running
coordinate. -/
theorem iX_mirror (s : Int) (hs : s ≠ 0) (X : ℚ) :
    sendFrame.iX s X = -1 - sendFrame.iX 0 X := by
  unfold sendFrame.iX toUint16
  rw [if_pos hs, if_neg (by simp), intToUint16_cast]
  unfold toSint16
  omega

theorem pair_swapped (e : Engine) (hs : e.swapXY ≠ 0) (p : ℚ × ℚ) :
    sendFrame.pair e p = [sendFrame.iX e.flipX p.1, sendFrame.iY e.flipY p.2] := by
  unfold sendFrame.pair
  rw [if_pos hs]

theorem pair_straight (e : Engine) (hs : e.swapXY = 0) (p : ℚ × ℚ) :
    sendFrame.pair e p = [sendFrame.iY e.flipY p.2, sendFrame.iX e.flipX p.1] := by
  unfold sendFrame.pair
  rw [if_neg (by simp [hs])]

/-- The frame staged by `sendFrame`, in terms of the running coordinates. -/
theorem sendFrame_nextFrame (e : Engine) (vl : vlist) :
    (sendFrame e vl).nextFrame
      = { samples := some ((sendFrame.renderTrack vl (vl.n - 1).toNat 1).flatMap
            (sendFrame.pair e))
          n := sendFrame.bufsiz vl (vl.n - 1).toNat 1 0 } := by
  unfold sendFrame
  dsimp only
  rw [render_eq, List.nil_append]

/-- Claim C13: for every stroke list and every setting of the mirror flags, the
frames rendered with swap-axes set (`swapXY = s ≠ 0`) and clear have the same
sample-pair count and the same number of samples, and for every pair index `i`
the (left, right) samples of one are the (right, left) samples of the other. -/
theorem swap_axes_exchanges_channels (e : Engine) (vl : vlist) (s : Int) (hs : s ≠ 0) :
    (sendFrame { e with swapXY := s } vl).nextFrame.n
      = (sendFrame { e with swapXY := 0 } vl).nextFrame.n ∧
    ∃ l1 l0 : List Int,
      (sendFrame { e with swapXY := s } vl).nextFrame.samples = some l1 ∧
      (sendFrame { e with swapXY := 0 } vl).nextFrame.samples = some l0 ∧
      l1.length = l0.length ∧
      ∀ i : Nat, l1[2 * i]? = l0[2 * i + 1]? ∧ l1[2 * i + 1]? = l0[2 * i]? := by
  rw [sendFrame_nextFrame, sendFrame_nextFrame]
  refine ⟨rfl, _, _, rfl, rfl, ?_, ?_⟩
  · rw [flatMap_pair_length _ _ _ (pair_swapped { e with swapXY := s } hs),
      flatMap_pair_length _ _ _ (pair_straight { e with swapXY := 0 } rfl)]
  · intro i
    have h1 := flatMap_pair_getElem _ _ _ (pair_swapped { e with swapXY := s } hs)
      (sendFrame.renderTrack vl (vl.n - 1).toNat 1) i
    have h0 := flatMap_pair_getElem _ _ _ (pair_straight { e with swapXY := 0 } rfl)
      (sendFrame.renderTrack vl (vl.n - 1).toNat 1) i
    exact ⟨h1.1.trans h0.2.symm, h1.2.trans h0.1.symm⟩

theorem swap_axes_exchanges_channels_witness :
    (4 : Int) ≠ 0 ∧
    (sendFrame { twoPoints with swapXY := 4 } twoPoints.work).nextFrame.n
      = (sendFrame { twoPoints with swapXY := 0 } twoPoints.work).nextFrame.n ∧
    ∃ l1 l0 : List Int,
      (sendFrame { twoPoints with swapXY := 4 } twoPoints.work).nextFrame.samples = some l1 ∧
      (sendFrame { twoPoints with swapXY := 0 } twoPoints.work).nextFrame.samples = some l0 ∧
      l1.length = l0.length ∧
      ∀ i : Nat, l1[2 * i]? = l0[2 * i + 1]? ∧ l1[2 * i + 1]? = l0[2 * i]? :=
  ⟨by decide, swap_axes_exchanges_channels twoPoints twoPoints.work 4 (by decide)⟩

/-! ## setMode -/

theorem land_natCast (m : Int) (n : Nat) : ∃ r : Nat, Int.land m (n : Int) = (r : Int) := by
  cases m <;> exact ⟨_, rfl⟩

theorem land_natCast_testBit (m : Int) (n r : Nat) (h : Int.land m (n : Int) = (r : Int))
    (i : Nat) : r.testBit i = (m.testBit i && n.testBit i) := by
  have h1 := Int.testBit_land m (n : Int) i
  rw [h] at h1
  exact h1

/-- Masking with a single bit is non-zero exactly when that bit is set. -/
theorem land_two_pow_ne_zero (m : Int) (k : Nat) :
    Int.land m ((2 ^ k : Nat) : Int) ≠ 0 ↔ m.testBit k = true := by
  obtain ⟨r, hr⟩ := land_natCast m (2 ^ k)
  have hbits := land_natCast_testBit m (2 ^ k) r hr
  rw [hr]
  constructor
  · intro hne
    have hr0 : r ≠ 0 := by exact_mod_cast hne
    obtain ⟨i, hi⟩ := Nat.ne_zero_implies_bit_true hr0
    rw [hbits, Nat.testBit_two_pow, Bool.and_eq_true, decide_eq_true_eq] at hi
    rw [hi.2]
    exact hi.1
  · intro hk hz
    have hr0 : r = 0 := by exact_mod_cast hz
    have := hbits k
    rw [hr0, Nat.zero_testBit, hk, Nat.testBit_two_pow] at this
    simp at this

/-- Masking first with `a` and then with a submask `b` of `a` is masking with
`b`. -/
theorem land_land_submask (m : Int) (a b : Nat)
    (hsub : ∀ i, b.testBit i = true → a.testBit i = true) :
    Int.land (Int.land m (a : Int)) (b : Int) = Int.land m (b : Int) := by
  obtain ⟨r1, h1⟩ := land_natCast m a
  obtain ⟨r2, h2⟩ := land_natCast (Int.land m (a : Int)) b
  obtain ⟨r3, h3⟩ := land_natCast m b
  rw [h2, h3]
  have : r2 = r3 := by
    apply Nat.eq_of_testBit_eq
    intro i
    have e2 := land_natCast_testBit _ b r2 h2 i
    rw [h1] at e2
    have e1 := land_natCast_testBit m a r1 h1 i
    have e3 := land_natCast_testBit m b r3 h3 i
    have e2' : r2.testBit i = (r1.testBit i && b.testBit i) := e2
    rw [e2', e1, e3]
    cases hb : b.testBit i
    · simp
    · simp [hsub i hb]
  rw [this]

theorem submask_two_pow (a k : Nat) (h : a.testBit k = true) :
    ∀ i, (2 ^ k : Nat).testBit i = true → a.testBit i = true := by
  intro i hi
  rw [Nat.testBit_two_pow, decide_eq_true_eq] at hi
  rw [← hi]
  exact h

/-- Claim C16: after `setMode(m)` mirror-X is in effect (`flipX ≠ 0`) iff bit 0
of `m` is set, mirror-Y iff bit 1 is set, swap-axes iff bit 2 is set; the bits
above bit 2 are ignored: `setMode(m & 7)` leaves the same engine state as
`setMode(m)`, hence the same rendering of every stroke list. -/
theorem setMode_bits (e : Engine) (m : Int) :
    ((setMode e m).flipX ≠ 0 ↔ m.testBit 0 = true) ∧
    ((setMode e m).flipY ≠ 0 ↔ m.testBit 1 = true) ∧
    ((setMode e m).swapXY ≠ 0 ↔ m.testBit 2 = true) ∧
    setMode e (Int.land m 7) = setMode e m ∧
    ∀ vl : vlist, sendFrame (setMode e (Int.land m 7)) vl = sendFrame (setMode e m) vl := by
  have h7 : setMode e (Int.land m 7) = setMode e m := by
    have e1 : Int.land (Int.land m 7) 1 = Int.land m 1 :=
      land_land_submask m 7 (2 ^ 0) (submask_two_pow 7 0 (by decide))
    have e2 : Int.land (Int.land m 7) 2 = Int.land m 2 :=
      land_land_submask m 7 (2 ^ 1) (submask_two_pow 7 1 (by decide))
    have e4 : Int.land (Int.land m 7) 4 = Int.land m 4 :=
      land_land_submask m 7 (2 ^ 2) (submask_two_pow 7 2 (by decide))
    unfold setMode
    rw [e1, e2, e4]
  refine ⟨land_two_pow_ne_zero m 0, land_two_pow_ne_zero m 1, land_two_pow_ne_zero m 2, h7, ?_⟩
  intro vl
  rw [h7]

/-! ## Mirror-X -/

theorem flip_samples (e : Engine) (c : Int) :
    (flip e c).nextFrame
      = { samples := some ((sendFrame.renderTrack e.work (e.work.n - 1).toNat 1).flatMap
            (sendFrame.pair e))
          n := sendFrame.bufsiz e.work (e.work.n - 1).toNat 1 0 } := by
  rw [flip_nextFrame, render_eq, List.nil_append]

/-- Claim C14 (as amended): `setMode(1); setMode(1)` leaves the engine as a
single `setMode(1)` does, with mirror-X set (`setMode` assigns the flags, it
does not toggle them). The frame then rendered has the pair count and the left
(Y) samples of the frame rendered under mode 0, and every right (X) sample `x`
of the mode-0 frame is replaced by `-1 - x`. -/
theorem setMode_twice_is_mirror (e : Engine) (c : Int) :
    setMode (setMode e 1) 1 = setMode e 1 ∧
    (setMode (setMode e 1) 1).flipX = 1 ∧
    (flip (setMode (setMode e 1) 1) c).nextFrame.n = (flip (setMode e 0) c).nextFrame.n ∧
    ∃ l1 l0 : List Int,
      (flip (setMode (setMode e 1) 1) c).nextFrame.samples = some l1 ∧
      (flip (setMode e 0) c).nextFrame.samples = some l0 ∧
      l1.length = l0.length ∧
      ∀ i : Nat, l1[2 * i]? = l0[2 * i]? ∧
        l1[2 * i + 1]? = (l0[2 * i + 1]?).map (fun x => -1 - x) := by
  have hidem : setMode (setMode e 1) 1 = setMode e 1 := rfl
  have hp1 : ∀ p : ℚ × ℚ, sendFrame.pair (setMode e 1) p
      = [sendFrame.iY 0 p.2, -1 - sendFrame.iX 0 p.1] := by
    intro p
    rw [pair_straight (setMode e 1) rfl, iX_mirror (setMode e 1).flipX (by show Int.land 1 1 ≠ 0; decide)]
    rfl
  have hp0 : ∀ p : ℚ × ℚ, sendFrame.pair (setMode e 0) p
      = [sendFrame.iY 0 p.2, sendFrame.iX 0 p.1] := by
    intro p
    rw [pair_straight (setMode e 0) rfl]
    rfl
  refine ⟨hidem, rfl, ?_, ?_⟩
  · rw [hidem, flip_samples, flip_samples]
    rfl
  · rw [hidem, flip_samples, flip_samples]
    refine ⟨_, _, rfl, rfl, ?_, ?_⟩
    · rw [flatMap_pair_length _ _ _ hp1, flatMap_pair_length _ _ _ hp0]
      rfl
    · intro i
      have h1 := flatMap_pair_getElem _ _ _ hp1
        (sendFrame.renderTrack (setMode e 1).work ((setMode e 1).work.n - 1).toNat 1) i
      have h0 := flatMap_pair_getElem _ _ _ hp0
        (sendFrame.renderTrack (setMode e 0).work ((setMode e 0).work.n - 1).toNat 1) i
      refine ⟨h1.1.trans h0.1.symm, ?_⟩
      rw [h1.2, h0.2, Option.map_map]
      rfl

/-- Claim C15: for running coordinates whose integer parts `c` lie in
0..65535, the X sample is `c - 32768` with mirror-X and `(65535 - c) - 32768`
without, the Y sample is `(65535 - c) - 32768` with mirror-Y and `c - 32768`
without, and a pass of the inner loop appends (left, right) = (X sample,
Y sample) when swap-axes is set and (Y sample, X sample) otherwise. -/
theorem renderer_sample_formulas (e : Engine) (X Y : ℚ)
    (hX0 : 0 ≤ truncQ X) (hX1 : truncQ X ≤ 65535) (hY0 : 0 ≤ truncQ Y) (hY1 : truncQ Y ≤ 65535) :
    sendFrame.iX e.flipX X
      = (if e.flipX ≠ 0 then truncQ X - 32768 else (65535 - truncQ X) - 32768) ∧
    sendFrame.iY e.flipY Y
      = (if e.flipY ≠ 0 then (65535 - truncQ Y) - 32768 else truncQ Y - 32768) ∧
    ∀ (dX dY : ℚ) (k : Nat) (buf : List Int),
      sendFrame.steps e dX dY (k + 1) X Y buf
        = sendFrame.steps e dX dY k (X + dX) (Y + dY)
            (buf ++
              if e.swapXY ≠ 0 then
                [if e.flipX ≠ 0 then truncQ X - 32768 else (65535 - truncQ X) - 32768,
                 if e.flipY ≠ 0 then (65535 - truncQ Y) - 32768 else truncQ Y - 32768]
              else
                [if e.flipY ≠ 0 then (65535 - truncQ Y) - 32768 else truncQ Y - 32768,
                 if e.flipX ≠ 0 then truncQ X - 32768 else (65535 - truncQ X) - 32768]) := by
  refine ⟨iX_of_range _ _ hX0 hX1, iY_of_range _ _ hY0 hY1, ?_⟩
  intro dX dY k buf
  rw [sendFrame.steps, iX_of_range _ _ hX0 hX1, iY_of_range _ _ hY0 hY1]
  split <;> rfl

theorem renderer_sample_formulas_witness :
    (0 : Int) ≤ truncQ (1000 / 3) ∧ truncQ (1000 / 3) ≤ 65535 ∧
    sendFrame.iX twoPoints.flipX (1000 / 3)
      = (if twoPoints.flipX ≠ 0 then truncQ (1000 / 3) - 32768
          else (65535 - truncQ (1000 / 3)) - 32768) :=
  have h : truncQ (1000 / 3) = 333 := by
    unfold truncQ
    rw [if_pos (by norm_num)]
    norm_num [Int.floor_eq_iff]
  ⟨by rw [h]; decide, by rw [h]; decide,
    (renderer_sample_formulas twoPoints (1000 / 3) (1000 / 3) (by rw [h]; decide)
      (by rw [h]; decide) (by rw [h]; decide) (by rw [h]; decide)).1⟩

/-- Claim C17: `flip(0)` leaves the stroke list as it was, `flip(c)` with
`c ≠ 0` sets its length to 0, and in both cases the staged frame is the
rendering of the stroke list as it was before the call. -/
theorem flip_stroke_list (e : Engine) (c : Int) :
    (flip e 0).work = e.work ∧
    (flip e c).work.n = (if c = 0 then e.work.n else 0) ∧
    (flip e c).nextFrame
      = { samples := some (sendFrame.render e e.work (e.work.n - 1).toNat 1 [])
          n := sendFrame.bufsiz e.work (e.work.n - 1).toNat 1 0 } ∧
    (flip e c).nextFrame = (sendFrame e e.work).nextFrame := by
  refine ⟨rfl, ?_, flip_nextFrame e c, ?_⟩
  · unfold flip
    by_cases hc : c = 0
    · rw [if_pos hc, if_neg (by simp [hc])]
      rfl
    · rw [if_neg hc, if_pos hc]
  · unfold flip
    dsimp only
    split <;> rfl

/-! ## The end-to-end scenario -/

/-- The orientation flags are not changed by `lineTo`. -/
theorem lineTo_flags (sqrt : ℚ → ℚ) (e : Engine) (x y c : ℚ) :
    (lineTo sqrt e x y c).flipX = e.flipX ∧ (lineTo sqrt e x y c).flipY = e.flipY ∧
    (lineTo sqrt e x y c).swapXY = e.swapXY := by
  unfold lineTo
  split <;> exact ⟨rfl, rfl, rfl⟩

/-- The value of `sqrtQ` at `2 * 65535^2`. -/
theorem sqrtQ_diagonal : sqrtQ 8589672450 = 398059655531860 / 2 ^ 32 := by
  unfold sqrtQ
  have hnum : (8589672450 : ℚ).num = 8589672450 := rfl
  have hden : (8589672450 : ℚ).den = 1 := rfl
  rw [hnum, hden]
  have ht : (8589672450 : Int).toNat = 8589672450 := rfl
  have hs : Nat.sqrt ((8589672450 : Int).toNat * 1 * 4 ^ 32) = 398059655531860 := by
    rw [ht]
    symm
    rw [Nat.eq_sqrt]
    constructor <;> norm_num
  rw [hs]
  norm_num

theorem sqrtQ_diagonal_bounds :
    (141 : ℚ) / 100 * 65535 ≤ sqrtQ 8589672450 ∧ sqrtQ 8589672450 < 142 / 100 * 65535 := by
  rw [sqrtQ_diagonal]
  constructor <;> norm_num

/-- The stroke list after `setScale(0,1000,0,1000,100); moveTo(0,0);
lineTo(1000,1000,1.0)` on an empty list, for a `sqrt` with
`1.41 ≤ sqrt(2 * 65535^2) / 65535 < 1.42`. -/
theorem scenario_list (sqrt : ℚ → ℚ) (e : Engine) (hn : e.work.n = 0)
    (hsqrt : (141 : ℚ) / 100 * 65535 ≤ sqrt 8589672450 ∧ sqrt 8589672450 < 142 / 100 * 65535) :
    (lineTo sqrt (moveTo sqrt (setScale e 0 1000 0 1000 100) 0 0) 1000 1000 1).work.n = 2 ∧
    (lineTo sqrt (moveTo sqrt (setScale e 0 1000 0 1000 100) 0 0) 1000 1000 1).work.pts 0 = 0 ∧
    (lineTo sqrt (moveTo sqrt (setScale e 0 1000 0 1000 100) 0 0) 1000 1000 1).work.pts 1 = 0 ∧
    (lineTo sqrt (moveTo sqrt (setScale e 0 1000 0 1000 100) 0 0) 1000 1000 1).work.pts 2 = 0 ∧
    (lineTo sqrt (moveTo sqrt (setScale e 0 1000 0 1000 100) 0 0) 1000 1000 1).work.pts 3
      = 65535 ∧
    (lineTo sqrt (moveTo sqrt (setScale e 0 1000 0 1000 100) 0 0) 1000 1000 1).work.pts 4
      = 65535 ∧
    (lineTo sqrt (moveTo sqrt (setScale e 0 1000 0 1000 100) 0 0) 1000 1000 1).work.pts 5
      = 141 := by
  obtain ⟨h0, h1, h2, h3, h4, h5, h6⟩ := moveTo_lineTo_stores sqrt
    (setScale e 0 1000 0 1000 100) 0 0 1000 1000 1 hn
  have hx0 : lineTo.scale 0 1000 0 = 0 := by norm_num [lineTo.scale]
  have hx1 : lineTo.scale 0 1000 1000 = 65535 := by norm_num [lineTo.scale]
  have hu : toUint16 65535 = 65535 := by
    have := toUint16_natCast 65535 (by norm_num)
    simpa using this
  have hlen : lineTo.lineLen sqrt 0 0 65535 65535 = sqrt 8589672450 / 65535 := by
    unfold lineTo.lineLen
    have harg : (((0 : Nat) : ℚ) - 65535) * (((0 : Nat) : ℚ) - 65535)
        + (((0 : Nat) : ℚ) - 65535) * (((0 : Nat) : ℚ) - 65535) = 8589672450 := by norm_num
    simp only [harg]
    rw [if_neg]
    rw [not_lt]
    calc (0.00002 : ℚ) ≤ 141 / 100 * 65535 / 65535 := by norm_num
      _ ≤ sqrt 8589672450 / 65535 := by
        apply div_le_div_of_nonneg_right hsqrt.1 (by norm_num)
  have hcol : toUint16 (if 1 * (sqrt 8589672450 / 65535) * (100 : ℚ) < 1.0 then 1.0
      else 1 * (sqrt 8589672450 / 65535) * (100 : ℚ)) = 141 := by
    have hlo : (141 : ℚ) ≤ 1 * (sqrt 8589672450 / 65535) * 100 := by
      have := hsqrt.1
      rw [one_mul, div_mul_eq_mul_div, le_div_iff₀ (by norm_num)]
      linarith
    have hhi : 1 * (sqrt 8589672450 / 65535) * 100 < (142 : ℚ) := by
      have := hsqrt.2
      rw [one_mul, div_mul_eq_mul_div, div_lt_iff₀ (by norm_num)]
      linarith
    rw [if_neg (by norm_num; linarith)]
    have hc := toUint16_of_range _ (by linarith) (by linarith : 1 * (sqrt 8589672450 / 65535) * 100 < (65536 : ℚ))
    have hf : ⌊1 * (sqrt 8589672450 / 65535) * (100 : ℚ)⌋ = 141 := by
      rw [Int.floor_eq_iff]
      constructor
      · exact_mod_cast hlo
      · push_cast
        linarith
    rw [hf] at hc
    exact_mod_cast hc
  simp only [setScale, hx0, hx1, toUint16_zero, hu, hlen] at h1 h2 h4 h5 h6
  exact ⟨h0, h1, h2, h3, h4, h5, h6.trans hcol⟩

theorem segmentTrack_length (vl : vlist) (pt : Int) :
    (sendFrame.segmentTrack vl pt).length = vl.pts (3 * pt + 2) + 1 := by
  unfold sendFrame.segmentTrack
  dsimp only
  rw [track_length]
  omega

theorem segmentTrack_getElem (vl : vlist) (pt : Int) (i : Nat) (hi : i < vl.pts (3 * pt + 2) + 1) :
    (sendFrame.segmentTrack vl pt)[i]?
      = some ((vl.pts (3 * (pt - 1) + 0) : ℚ)
            + i * (((vl.pts (3 * pt + 0) : ℚ) - (vl.pts (3 * (pt - 1) + 0) : ℚ))
                / (((vl.pts (3 * pt + 2) : Int) + 1 : Int) : ℚ)),
          (vl.pts (3 * (pt - 1) + 1) : ℚ)
            + i * (((vl.pts (3 * pt + 1) : ℚ) - (vl.pts (3 * (pt - 1) + 1) : ℚ))
                / (((vl.pts (3 * pt + 2) : Int) + 1 : Int) : ℚ))) := by
  unfold sendFrame.segmentTrack
  dsimp only
  rw [track_getElem _ _ _ _ _ _ (by omega)]

/-- A stroke list of two points is rendered as one segment. -/
theorem renderTrack_two_points (vl : vlist) (hn : vl.n = 2) :
    sendFrame.renderTrack vl (vl.n - 1).toNat 1 = sendFrame.segmentTrack vl 1 := by
  rw [hn]
  show sendFrame.renderTrack vl 1 1 = sendFrame.segmentTrack vl 1
  rw [sendFrame.renderTrack, sendFrame.renderTrack, List.append_nil]

theorem bufsiz_two_points (vl : vlist) (hn : vl.n = 2) :
    sendFrame.bufsiz vl (vl.n - 1).toNat 1 0 = (vl.pts 5 : Int) + 1 := by
  rw [hn]
  show sendFrame.bufsiz vl 1 1 0 = (vl.pts 5 : Int) + 1
  rw [sendFrame.bufsiz, sendFrame.bufsiz]
  norm_num

/-- The samples of the frame staged from a stroke list of two points. -/
theorem flip_two_points (e : Engine) (c : Int) (hn : e.work.n = 2) :
    (flip e c).nextFrame.n = (e.work.pts 5 : Int) + 1 ∧
    ∃ l : List Int, (flip e c).nextFrame.samples = some l ∧
      l.length = 2 * (e.work.pts 5 + 1) ∧
      ∀ i : Nat, i < e.work.pts 5 + 1 →
        [l[2 * i]?, l[2 * i + 1]?]
          = (sendFrame.pair e
              ((e.work.pts 0 : ℚ) + i * (((e.work.pts 3 : ℚ) - (e.work.pts 0 : ℚ))
                  / (((e.work.pts 5 : Int) + 1 : Int) : ℚ)),
               (e.work.pts 1 : ℚ) + i * (((e.work.pts 4 : ℚ) - (e.work.pts 1 : ℚ))
                  / (((e.work.pts 5 : Int) + 1 : Int) : ℚ)))).map some := by
  rw [flip_samples, renderTrack_two_points _ hn, bufsiz_two_points _ hn]
  refine ⟨rfl, _, rfl, ?_, ?_⟩
  · have hlen := segmentTrack_length e.work 1
    norm_num at hlen
    by_cases hs : e.swapXY = 0
    · rw [flatMap_pair_length _ _ _ (pair_straight e hs), hlen]
    · rw [flatMap_pair_length _ _ _ (pair_swapped e hs), hlen]
  · intro i hi
    have hget := segmentTrack_getElem e.work 1 i (by norm_num; exact hi)
    norm_num at hget
    by_cases hs : e.swapXY = 0
    · have h := flatMap_pair_getElem _ _ _ (pair_straight e hs) (sendFrame.segmentTrack e.work 1) i
      rw [h.1, h.2, hget, pair_straight e hs]
      simp
    · have h := flatMap_pair_getElem _ _ _ (pair_swapped e hs) (sendFrame.segmentTrack e.work 1) i
      rw [h.1, h.2, hget, pair_swapped e hs]
      simp

theorem scenario_flags (sqrt : ℚ → ℚ) (e : Engine) :
    (scenario sqrt e).flipX = e.flipX ∧ (scenario sqrt e).flipY = e.flipY ∧
    (scenario sqrt e).swapXY = e.swapXY := by
  unfold scenario moveTo
  obtain ⟨a1, a2, a3⟩ := lineTo_flags sqrt (lineTo sqrt (setScale e 0 1000 0 1000 100) 0 0 0)
    1000 1000 1
  obtain ⟨b1, b2, b3⟩ := lineTo_flags sqrt (setScale e 0 1000 0 1000 100) 0 0 0
  exact ⟨a1.trans b1, a2.trans b2, a3.trans b3⟩

/-- The sample pair under mode 0 for running coordinates in the 16-bit range. -/
theorem pair_mode0 (e : Engine) (hfx : e.flipX = 0) (hfy : e.flipY = 0) (hsw : e.swapXY = 0)
    (X Y : ℚ) (cx cy : Int) (hX : truncQ X = cx) (hY : truncQ Y = cy)
    (hcx : 0 ≤ cx ∧ cx ≤ 65535) (hcy : 0 ≤ cy ∧ cy ≤ 65535) :
    sendFrame.pair e (X, Y) = [cy - 32768, (65535 - cx) - 32768] := by
  rw [pair_straight e hsw, hfx, hfy]
  dsimp only
  rw [iX_of_range 0 X (by omega) (by omega), iY_of_range 0 Y (by omega) (by omega), hX, hY]
  simp

theorem truncQ_natCast (k : Nat) : truncQ (k : ℚ) = k := by
  unfold truncQ
  rw [if_pos (by positivity), Int.floor_natCast]

theorem truncQ_last_step : truncQ ((0 : ℚ) + (141 : Nat) * ((65535 - 0) / ((141 + 1 : Int) : ℚ)))
    = 65073 := by
  unfold truncQ
  rw [if_pos (by norm_num)]
  norm_num [Int.floor_eq_iff]

/-- Claim C12: in the scenario `setScale(0,1000,0,1000,100); moveTo(0,0);
lineTo(1000,1000,1.0); flip(1)` from an empty stroke list, the list before
`flip` holds two points with weights 0 and 141, the staged frame is one segment
of 142 sample pairs (284 samples) and the list is empty afterwards. The `sqrt`
of `math.h` is any function with `1.41 ≤ sqrt(2 * 65535^2) / 65535 < 1.42`. -/
theorem scenario_frame_size (sqrt : ℚ → ℚ) (e : Engine) (hn : e.work.n = 0)
    (hsqrt : (141 : ℚ) / 100 * 65535 ≤ sqrt 8589672450 ∧ sqrt 8589672450 < 142 / 100 * 65535) :
    (scenario sqrt e).work.n = 2 ∧
    (scenario sqrt e).work.pts 2 = 0 ∧
    (scenario sqrt e).work.pts 5 = 141 ∧
    (flip (scenario sqrt e) 1).nextFrame.n = 142 ∧
    (∃ l : List Int, (flip (scenario sqrt e) 1).nextFrame.samples = some l ∧ l.length = 284) ∧
    (flip (scenario sqrt e) 1).work.n = 0 := by
  obtain ⟨h0, _, _, h2, _, _, h5⟩ := scenario_list sqrt e hn hsqrt
  have hS : (scenario sqrt e).work.n = 2 := h0
  have hw : (scenario sqrt e).work.pts 5 = 141 := h5
  obtain ⟨hcount, l, hl, hlen, _⟩ := flip_two_points (scenario sqrt e) 1 hS
  refine ⟨hS, h2, hw, ?_, ⟨l, hl, ?_⟩, rfl⟩
  · rw [hcount, hw]
    rfl
  · rw [hlen, hw]

theorem scenario_frame_size_witness :
    (gfxInit boot 44100 1024).work.n = 0 ∧
    (scenario sqrtQ (gfxInit boot 44100 1024)).work.n = 2 ∧
    (scenario sqrtQ (gfxInit boot 44100 1024)).work.pts 2 = 0 ∧
    (scenario sqrtQ (gfxInit boot 44100 1024)).work.pts 5 = 141 ∧
    (flip (scenario sqrtQ (gfxInit boot 44100 1024)) 1).nextFrame.n = 142 ∧
    (∃ l : List Int, (flip (scenario sqrtQ (gfxInit boot 44100 1024)) 1).nextFrame.samples
        = some l ∧ l.length = 284) ∧
    (flip (scenario sqrtQ (gfxInit boot 44100 1024)) 1).work.n = 0 :=
  ⟨rfl, scenario_frame_size sqrtQ (gfxInit boot 44100 1024) rfl sqrtQ_diagonal_bounds⟩

/-- The first and the last sample pair of the staged frame of the scenario
under mode 0. -/
theorem scenario_samples (sqrt : ℚ → ℚ) (e : Engine) (hn : e.work.n = 0)
    (hsqrt : (141 : ℚ) / 100 * 65535 ≤ sqrt 8589672450 ∧ sqrt 8589672450 < 142 / 100 * 65535)
    (hfx : e.flipX = 0) (hfy : e.flipY = 0) (hsw : e.swapXY = 0) :
    ∃ l : List Int, (flip (scenario sqrt e) 1).nextFrame.samples = some l ∧
      l.length = 284 ∧
      [l[0]?, l[1]?] = [some (-32768), some 32767] ∧
      [l[282]?, l[283]?] = [some 32305, some (-32306)] := by
  obtain ⟨h0, p0, p1, _, p3, p4, p5⟩ := scenario_list sqrt e hn hsqrt
  obtain ⟨fx, fy, sw⟩ := scenario_flags sqrt e
  rw [hfx] at fx
  rw [hfy] at fy
  rw [hsw] at sw
  obtain ⟨_, l, hl, hlen, hget⟩ := flip_two_points (scenario sqrt e) 1 h0
  have q0 : (scenario sqrt e).work.pts 0 = 0 := p0
  have q1 : (scenario sqrt e).work.pts 1 = 0 := p1
  have q3 : (scenario sqrt e).work.pts 3 = 65535 := p3
  have q4 : (scenario sqrt e).work.pts 4 = 65535 := p4
  have q5 : (scenario sqrt e).work.pts 5 = 141 := p5
  rw [q0, q1, q3, q4, q5] at hget
  rw [q5] at hlen
  refine ⟨l, hl, hlen, ?_, ?_⟩
  · have h := hget 0 (by norm_num)
    rw [pair_mode0 _ fx fy sw _ _ 0 0 (by norm_num [truncQ]) (by norm_num [truncQ])
      (by omega) (by omega)] at h
    exact h
  · have h := hget 141 (by norm_num)
    rw [pair_mode0 _ fx fy sw _ _ 65073 65073 (by exact_mod_cast truncQ_last_step)
      (by exact_mod_cast truncQ_last_step) (by omega) (by omega)] at h
    exact h

theorem scenario_endpoint_pair (sqrt : ℚ → ℚ) (e : Engine)
    (hfx : e.flipX = 0) (hfy : e.flipY = 0) (hsw : e.swapXY = 0) :
    sendFrame.pair (scenario sqrt e) (65535, 65535) = [32767, -32768] := by
  obtain ⟨fx, fy, sw⟩ := scenario_flags sqrt e
  rw [hfx] at fx
  rw [hfy] at fy
  rw [hsw] at sw
  rw [pair_mode0 _ fx fy sw 65535 65535 65535 65535 (truncQ_natCast 65535)
    (truncQ_natCast 65535) (by omega) (by omega)]
  rfl

/-- Claim C11 (refuted as stated): in the scenario started from
`gfxInit(44100, 1024)` the last sample pair of the staged frame is
(32305, -32306), not the pair (32767, -32768) of device coordinate
(65535, 65535). -/
theorem scenario_last_pair_is_not_the_endpoint :
    ∃ l : List Int, (flip diagonal 1).nextFrame.samples = some l ∧
      l.length = 284 ∧
      [l[282]?, l[283]?] = [some 32305, some (-32306)] ∧
      sendFrame.pair diagonal (65535, 65535) = [32767, -32768] ∧
      [l[282]?, l[283]?] ≠ (sendFrame.pair diagonal (65535, 65535)).map some := by
  obtain ⟨l, hl, hlen, _, hlast⟩ := scenario_samples sqrtQ (gfxInit boot 44100 1024) rfl
    sqrtQ_diagonal_bounds rfl rfl rfl
  have hend := scenario_endpoint_pair sqrtQ (gfxInit boot 44100 1024) rfl rfl rfl
  refine ⟨l, hl, hlen, hlast, hend, ?_⟩
  rw [hlast]
  unfold diagonal
  rw [hend]
  decide

/-- Claim C11 (as amended): in the scenario under mode 0 the first sample pair
of the staged frame is the pair produced from device coordinate (0, 0), and the
last of the 142 pairs is the pair produced from the last interpolation step
`141/142` of the way, whose coordinates truncate to (65073, 65073); the pair of
the end point (65535, 65535) is another one. -/
theorem scenario_first_and_last_pair (sqrt : ℚ → ℚ) (e : Engine) (hn : e.work.n = 0)
    (hsqrt : (141 : ℚ) / 100 * 65535 ≤ sqrt 8589672450 ∧ sqrt 8589672450 < 142 / 100 * 65535)
    (hfx : e.flipX = 0) (hfy : e.flipY = 0) (hsw : e.swapXY = 0) :
    ∃ l : List Int, (flip (scenario sqrt e) 1).nextFrame.samples = some l ∧
      l.length = 284 ∧
      [l[0]?, l[1]?] = (sendFrame.pair (scenario sqrt e) (0, 0)).map some ∧
      [l[282]?, l[283]?] = (sendFrame.pair (scenario sqrt e) (65073, 65073)).map some ∧
      sendFrame.pair (scenario sqrt e) (0, 0) = [-32768, 32767] ∧
      sendFrame.pair (scenario sqrt e) (65073, 65073) = [32305, -32306] ∧
      sendFrame.pair (scenario sqrt e) (65535, 65535) = [32767, -32768] := by
  obtain ⟨fx, fy, sw⟩ := scenario_flags sqrt e
  rw [hfx] at fx
  rw [hfy] at fy
  rw [hsw] at sw
  have hfirst : sendFrame.pair (scenario sqrt e) (0, 0) = [-32768, 32767] := by
    rw [pair_mode0 _ fx fy sw 0 0 0 0 (truncQ_natCast 0) (truncQ_natCast 0) (by omega) (by omega)]
    rfl
  have hstep : sendFrame.pair (scenario sqrt e) (65073, 65073) = [32305, -32306] := by
    rw [pair_mode0 _ fx fy sw 65073 65073 65073 65073 (truncQ_natCast 65073)
      (truncQ_natCast 65073) (by omega) (by omega)]
    rfl
  obtain ⟨l, hl, hlen, h0, hlast⟩ := scenario_samples sqrt e hn hsqrt hfx hfy hsw
  refine ⟨l, hl, hlen, ?_, ?_, hfirst, hstep, scenario_endpoint_pair sqrt e hfx hfy hsw⟩
  · rw [h0, hfirst]
    rfl
  · rw [hlast, hstep]
    rfl

theorem scenario_first_and_last_pair_witness :
    (gfxInit boot 44100 1024).work.n = 0 ∧ (gfxInit boot 44100 1024).flipX = 0 ∧
    ∃ l : List Int, (flip (scenario sqrtQ (gfxInit boot 44100 1024)) 1).nextFrame.samples
        = some l ∧
      l.length = 284 ∧
      [l[0]?, l[1]?] = (sendFrame.pair (scenario sqrtQ (gfxInit boot 44100 1024)) (0, 0)).map some ∧
      [l[282]?, l[283]?]
        = (sendFrame.pair (scenario sqrtQ (gfxInit boot 44100 1024)) (65073, 65073)).map some ∧
      sendFrame.pair (scenario sqrtQ (gfxInit boot 44100 1024)) (0, 0) = [-32768, 32767] ∧
      sendFrame.pair (scenario sqrtQ (gfxInit boot 44100 1024)) (65073, 65073)
        = [32305, -32306] ∧
      sendFrame.pair (scenario sqrtQ (gfxInit boot 44100 1024)) (65535, 65535)
        = [32767, -32768] :=
  ⟨rfl, rfl, scenario_first_and_last_pair sqrtQ (gfxInit boot 44100 1024) rfl
    sqrtQ_diagonal_bounds rfl rfl rfl⟩

/-- Claim C14 (refuted as stated): for the stroke list `twoPoints` the frame
rendered after `setMode(1); setMode(1)` differs from the frame rendered under
mode 0. -/
theorem setMode_twice_differs_from_baseline :
    (flip (setMode (setMode twoPoints 1) 1) 0).nextFrame.samples
      ≠ (flip (setMode twoPoints 0) 0).nextFrame.samples := by
  obtain ⟨_, l1, hl1, _, hg1⟩ := flip_two_points (setMode (setMode twoPoints 1) 1) 0 rfl
  obtain ⟨_, l0, hl0, _, hg0⟩ := flip_two_points (setMode twoPoints 0) 0 rfl
  have h1 := hg1 0 (by decide)
  have h0 := hg0 0 (by decide)
  have hz : truncQ ((0 : ℚ)) = 0 := by norm_num [truncQ]
  have e1 : sendFrame.iX 1 (0 : ℚ) = -32768 := by
    rw [iX_of_range 1 0 (by rw [hz]) (by rw [hz]; decide), hz]
    decide
  have e0 : sendFrame.iX 0 (0 : ℚ) = 32767 := by
    rw [iX_of_range 0 0 (by rw [hz]) (by rw [hz]; decide), hz]
    decide
  have hp1 : sendFrame.pair (setMode (setMode twoPoints 1) 1) (0, 0)
      = [sendFrame.iY 0 0, -32768] := by
    rw [pair_straight _ rfl]
    show [sendFrame.iY 0 0, sendFrame.iX 1 0] = _
    rw [e1]
  have hp0 : sendFrame.pair (setMode twoPoints 0) (0, 0) = [sendFrame.iY 0 0, 32767] := by
    rw [pair_straight _ rfl]
    show [sendFrame.iY 0 0, sendFrame.iX 0 0] = _
    rw [e0]
  have hc1 : ((setMode (setMode twoPoints 1) 1).work.pts 0 : ℚ) = 0 := by
    show ((twoPoints.work.pts 0 : Nat) : ℚ) = 0
    norm_num [twoPoints]
  have hc1' : ((setMode (setMode twoPoints 1) 1).work.pts 1 : ℚ) = 0 := by
    show ((twoPoints.work.pts 1 : Nat) : ℚ) = 0
    norm_num [twoPoints]
  have hc0 : ((setMode twoPoints 0).work.pts 0 : ℚ) = 0 := hc1
  have hc0' : ((setMode twoPoints 0).work.pts 1 : ℚ) = 0 := hc1'
  simp only [hc1, hc1', Nat.cast_zero, zero_mul, add_zero, Nat.mul_zero, Nat.zero_add] at h1
  simp only [hc0, hc0', Nat.cast_zero, zero_mul, add_zero, Nat.mul_zero, Nat.zero_add] at h0
  rw [hp1] at h1
  rw [hp0] at h0
  rw [hl1, hl0]
  intro heq
  have hl : l1 = l0 := Option.some.inj heq
  rw [hl] at h1
  have hne := h1.symm.trans h0
  simp at hne

/-! ## The weight scale -/

theorem segment_length (E : Engine) (vl : vlist) (pt : Int) (buf : List Int) :
    (sendFrame.segment E vl pt buf).length = buf.length + 2 * (vl.pts (3 * pt + 2) + 1) := by
  rw [segment_eq, List.length_append, ← segmentTrack_length]
  by_cases hs : E.swapXY = 0
  · rw [flatMap_pair_length _ _ _ (pair_straight E hs)]
  · rw [flatMap_pair_length _ _ _ (pair_swapped E hs)]

/-- Claim C21: a `lineTo` or `moveTo` on an empty stroke list appends a first
point whose stored weight is 0, whatever the weight argument, the scale
rectangle and the global weight scale are. -/
theorem first_point_weight_zero (sqrt : ℚ → ℚ) (e : Engine) (x y c : ℚ) (hn : e.work.n = 0) :
    (lineTo sqrt e x y c).work.n = 1 ∧ (lineTo sqrt e x y c).work.pts 2 = 0 ∧
    (moveTo sqrt e x y).work.n = 1 ∧ (moveTo sqrt e x y).work.pts 2 = 0 := by
  have hfull : e.work.n < MAX_POINTS := by rw [hn]; decide
  have key : ∀ c' : ℚ, (lineTo sqrt e x y c').work.n = 1 ∧ (lineTo sqrt e x y c').work.pts 2 = 0 := by
    intro c'
    obtain ⟨h1, _, _, h4⟩ := lineTo_stores sqrt e x y c' hfull
    have hcol : lineTo.color sqrt e (lineTo.scale e.xmin e.xmax x)
        (lineTo.scale e.ymin e.ymax y) c' = 0 := by
      unfold lineTo.color
      rw [if_neg (by omega)]
    rw [hcol, toUint16_zero, hn] at h4
    rw [hn] at h1
    norm_num at h1 h4
    exact ⟨h1, h4⟩
  exact ⟨(key c).1, (key c).2, (key 0).1, (key 0).2⟩

theorem first_point_weight_zero_witness :
    (gfxInit boot 44100 1024).work.n = 0 ∧
    (lineTo sqrtQ (gfxInit boot 44100 1024) 250 750 3).work.n = 1 ∧
    (lineTo sqrtQ (gfxInit boot 44100 1024) 250 750 3).work.pts 2 = 0 ∧
    (moveTo sqrtQ (gfxInit boot 44100 1024) 250 750).work.n = 1 ∧
    (moveTo sqrtQ (gfxInit boot 44100 1024) 250 750).work.pts 2 = 0 :=
  ⟨rfl, first_point_weight_zero sqrtQ (gfxInit boot 44100 1024) 250 750 3 rfl⟩

/-! ## sendFrame: samples written and samples allocated -/

theorem steps_append (e : Engine) (dX dY : ℚ) (k : Nat) (X Y : ℚ) (buf : List Int) :
    ∃ tail : List Int, sendFrame.steps e dX dY k X Y buf = buf ++ tail :=
  ⟨_, steps_eq e dX dY k X Y buf⟩

/-- The number of samples written by `k` passes of the render loop, against the
count computed by the same passes of the size loop. -/
theorem render_length (e : Engine) (vl : vlist) :
    ∀ (k : Nat) (pt : Int) (buf : List Int) (acc : Int),
      ((sendFrame.render e vl k pt buf).length : Int) + 2 * acc
        = (buf.length : Int) + 2 * sendFrame.bufsiz vl k pt acc := by
  intro k
  induction k with
  | zero =>
    intro pt buf acc
    rw [sendFrame.render, sendFrame.bufsiz]
  | succ k ih =>
    intro pt buf acc
    rw [sendFrame.render, sendFrame.bufsiz]
    have h := ih (pt + 1) (sendFrame.segment e vl pt buf) (acc + ((vl.pts (3 * pt + 2) : Int) + 1))
    rw [segment_length] at h
    push_cast at h
    linarith

/-- Claim C22: for every stroke list, when the render loop of `sendFrame` ends
the number of samples written (`pos`) is exactly `bufsiz * 2`, so the sanity
check `pos != bufsiz*2` fails to fire; every pass of the loops appends at the
end of what was written, so every write index is below `bufsiz * 2`, the size
of the allocated buffer. -/
theorem sendFrame_writes_exactly_bufsiz (e : Engine) (vl : vlist) :
    ((sendFrame.render e vl (vl.n - 1).toNat 1 []).length : Int)
      = sendFrame.bufsiz vl (vl.n - 1).toNat 1 0 * 2 ∧
    (∃ l : List Int, (sendFrame e vl).nextFrame.samples = some l ∧
      (l.length : Int) = (sendFrame e vl).nextFrame.n * 2) ∧
    (∀ (k : Nat) (pt : Int) (buf : List Int),
      ∃ tail : List Int, sendFrame.render e vl k pt buf = buf ++ tail) ∧
    (∀ (dX dY : ℚ) (k : Nat) (X Y : ℚ) (buf : List Int),
      ∃ tail : List Int, sendFrame.steps e dX dY k X Y buf = buf ++ tail) := by
  have hlen : ((sendFrame.render e vl (vl.n - 1).toNat 1 []).length : Int)
      = sendFrame.bufsiz vl (vl.n - 1).toNat 1 0 * 2 := by
    have h := render_length e vl (vl.n - 1).toNat 1 [] 0
    simp only [List.length_nil, Nat.cast_zero, mul_zero, add_zero, zero_add] at h
    rw [h]
    ring
  refine ⟨hlen, ⟨_, rfl, hlen⟩, ?_, ?_⟩
  · intro k pt buf
    exact ⟨_, render_eq e vl k pt buf⟩
  · intro dX dY k X Y buf
    exact ⟨_, steps_eq e dX dY k X Y buf⟩

/-! ## The producer side -/

theorem lineTo_pos (sqrt : ℚ → ℚ) (e : Engine) (x y c : ℚ) :
    (lineTo sqrt e x y c).pos = e.pos := by
  unfold lineTo
  split <;> rfl

/-- Claim C23: `setScale`, `setMode`, `moveTo`, `lineTo` and `flip` leave the
active frame and the playback position as they are, and `flip` changes nothing
but the staged slot, the recorded refresh rate and, when `clear ≠ 0`, the
length of the stroke list. -/
theorem producer_touches_only_staged_slot (sqrt : ℚ → ℚ) (e : Engine) (l r t b w x y c : ℚ)
    (mode clear : Int) :
    ((setScale e l r t b w).currFrame = e.currFrame ∧ (setScale e l r t b w).pos = e.pos) ∧
    ((setMode e mode).currFrame = e.currFrame ∧ (setMode e mode).pos = e.pos) ∧
    ((moveTo sqrt e x y).currFrame = e.currFrame ∧ (moveTo sqrt e x y).pos = e.pos) ∧
    ((lineTo sqrt e x y c).currFrame = e.currFrame ∧ (lineTo sqrt e x y c).pos = e.pos) ∧
    ((flip e clear).currFrame = e.currFrame ∧ (flip e clear).pos = e.pos) ∧
    flip e clear
      = { e with
          nextFrame := (flip e clear).nextFrame
          g_refresh := (flip e clear).g_refresh
          work := { pts := e.work.pts, n := if clear = 0 then e.work.n else 0 } } := by
  refine ⟨⟨rfl, rfl⟩, ⟨rfl, rfl⟩, ⟨lineTo_currFrame sqrt e x y 0, lineTo_pos sqrt e x y 0⟩,
    ⟨lineTo_currFrame sqrt e x y c, lineTo_pos sqrt e x y c⟩, ⟨flip_currFrame e clear, ?_⟩, ?_⟩
  · unfold flip sendFrame
    split <;> rfl
  · unfold flip sendFrame
    by_cases hc : clear = 0
    · rw [if_neg (by simp [hc]), if_pos hc]
    · rw [if_pos hc, if_neg hc]

/-! ## sendFrame: the interpolation -/

theorem truncQ_intCast (z : Int) : truncQ ((z : Int) : ℚ) = z := by
  unfold truncQ
  split
  · exact Int.floor_intCast z
  · exact Int.ceil_intCast z

/-- The samples of a pair depend on the running coordinates through their
integer parts only. -/
theorem pair_truncQ (e : Engine) (X Y : ℚ) :
    sendFrame.pair e (X, Y) = sendFrame.pair e (((truncQ X : Int) : ℚ), ((truncQ Y : Int) : ℚ)) := by
  unfold sendFrame.pair sendFrame.iX sendFrame.iY toUint16
  simp only [truncQ_intCast]

/-! ## The sample buffer of a frame -/

/-- Claim C27 (refuted on the code): the clip that `gfxInit` makes active holds
as many samples as its recorded number of sample *pairs*, half of what the
count announces: after `gfxInit(44100, 1024)` the buffer has 512 samples (1024
bytes) and `n` is 512, so byte offset 1024, which is below `4 * n = 2048`, lies
outside the buffer, and a first `cb_fill_audio` of 1025 bytes copies from
there. -/
theorem gfxInit_buffer_is_half_of_its_count :
    (∀ (e : Engine) (freq buffer : Int), ∃ l : List Int,
      (gfxInit e freq buffer).currFrame.samples = some l ∧
      (l.length : Int) = (gfxInit e freq buffer).currFrame.n) ∧
    (gfxInit boot 44100 1024).currFrame.n = 512 ∧
    (gfxInit boot 44100 1024).currFrame.samples = some (List.replicate 512 0) ∧
    (gfxInit boot 44100 1024).currFrame.byte 1023 = some 0 ∧
    (gfxInit boot 44100 1024).currFrame.byte 1024 = none ∧
    ∃ (e' : Engine) (out : Int → Option Nat),
      cb_fill_audio 3 (gfxInit boot 44100 1024) (fun _ => some 0) 1025 = some (e', out) ∧
      out 1023 = some 0 ∧ out 1024 = none := by
  have h1023 : (gfxInit boot 44100 1024).currFrame.byte 1023 = some 0 := by
    show byteAt (List.replicate 512 0) 1023 = some 0
    unfold byteAt
    rw [if_neg (by decide), List.get?_eq_getElem?]
    have h : (1023 : Int).toNat / 2 = 511 := by decide
    rw [h, List.getElem?_replicate, if_pos (by decide)]
    rfl
  have h1024 : (gfxInit boot 44100 1024).currFrame.byte 1024 = none := by
    show byteAt (List.replicate 512 0) 1024 = none
    unfold byteAt
    rw [if_neg (by decide), List.get?_eq_getElem?]
    have h : (1024 : Int).toNat / 2 = 512 := by decide
    rw [h, List.getElem?_replicate, if_neg (by decide)]
    rfl
  refine ⟨?_, rfl, rfl, h1023, h1024, ?_⟩
  · intro e freq buffer
    refine ⟨_, rfl, ?_⟩
    rw [List.length_replicate]
    apply Int.toNat_of_nonneg
    unfold intToUint16
    omega
  · have hw : (1025 : Int)
        < (gfxInit boot 44100 1024).currFrame.n * 4 - (gfxInit boot 44100 1024).pos := by decide
    refine ⟨_, _, loop_within (gfxInit boot 44100 1024) (fun _ => some 0) 1025 0 1 hw, ?_, ?_⟩
    · show (if (0 : Int) ≤ 1023 ∧ (1023 : Int) < 0 + 1025
        then (gfxInit boot 44100 1024).currFrame.byte ((gfxInit boot 44100 1024).pos + (1023 - 0))
        else some 0) = some 0
      rw [if_pos (by decide)]
      exact h1023
    · show (if (0 : Int) ≤ 1024 ∧ (1024 : Int) < 0 + 1025
        then (gfxInit boot 44100 1024).currFrame.byte ((gfxInit boot 44100 1024).pos + (1024 - 0))
        else some 0) = none
      rw [if_pos (by decide)]
      exact h1024

/-! ## gfxInit: the audio configuration -/

theorem turned_pos (e : Engine) : (cb_fill_audio.turned e).pos = 0 := by
  unfold cb_fill_audio.turned
  split <;> rfl

theorem turned_staged (e : Engine) : (cb_fill_audio.turned e).nextFrame.samples = none := by
  unfold cb_fill_audio.turned
  split
  · rfl
  · rename_i h
    exact not_not.1 h

theorem turned_n (e : Engine) (hn : 0 < e.currFrame.n)
    (hs : e.nextFrame.samples ≠ none → 0 < e.nextFrame.n) :
    0 < (cb_fill_audio.turned e).currFrame.n := by
  unfold cb_fill_audio.turned
  split
  · rename_i h
    exact hs h
  · exact hn

theorem turned_set_pos (e : Engine) (p : Int) :
    cb_fill_audio.turned { e with pos := p } = cb_fill_audio.turned e := by
  unfold cb_fill_audio.turned
  dsimp only

theorem turned_turned (e : Engine) (p : Int) :
    cb_fill_audio.turned { cb_fill_audio.turned e with pos := p } = cb_fill_audio.turned e := by
  rw [turned_set_pos]
  have hs := turned_staged e
  have hp := turned_pos e
  generalize cb_fill_audio.turned e = t at hs hp
  unfold cb_fill_audio.turned
  rw [if_neg (by rw [hs]; simp)]
  cases t
  dsimp only at hp
  subst hp
  rfl

/-- A pass of the loop that reaches the end of the active frame, or starts
past it. -/
theorem body_turn (e : Engine) (stream : Int → Option Nat) (left done : Int)
    (_ : 0 < left) (h1 : e.currFrame.n * 4 - e.pos ≤ left) :
    cb_fill_audio.body e stream left done
      = (cb_fill_audio.turned e,
          if e.currFrame.n * 4 - e.pos > 0
            then memcpy stream done e.currFrame e.pos (e.currFrame.n * 4 - e.pos) else stream,
          left - (e.currFrame.n * 4 - e.pos), done + (e.currFrame.n * 4 - e.pos)) := by
  have hc : (if e.currFrame.n * 4 - e.pos < left then e.currFrame.n * 4 - e.pos else left)
      = e.currFrame.n * 4 - e.pos := by
    split
    · rfl
    · omega
  unfold cb_fill_audio.body cb_fill_audio.turned
  simp only [hc]
  rw [if_pos (show e.currFrame.n * 4 - e.pos - (e.currFrame.n * 4 - e.pos) ≤ 0 by omega)]

/-- With enough fuel, `cb_fill_audio.loop` returns the closed form: the engine
`after e left` and, at the offsets `done ≤ k < done + left`, the bytes
`byteOut e (k - done)`. -/
theorem pull_closed (e : Engine) (hn : 0 < e.currFrame.n)
    (hs : e.nextFrame.samples ≠ none → 0 < e.nextFrame.n)
    (fuel : Nat) (stream : Int → Option Nat) (left done : Int) (hl : 0 ≤ left)
    (hf : left + max 0 (e.pos - e.currFrame.n * 4 + 1) < fuel) :
    ∃ out : Int → Option Nat,
      cb_fill_audio.loop fuel e stream left done = some (cb_fill_audio.after e left, out) ∧
      ∀ k, done ≤ k → k < done + left → out k = cb_fill_audio.byteOut e (k - done) := by
  have hmax : 0 ≤ max 0 (e.pos - e.currFrame.n * 4 + 1) := le_max_left _ _
  have hmax2 : e.pos - e.currFrame.n * 4 + 1 ≤ max 0 (e.pos - e.currFrame.n * 4 + 1) :=
    le_max_right _ _
  by_cases h0 : left ≤ 0
  · obtain ⟨f, rfl⟩ : ∃ f, fuel = f + 1 := ⟨fuel - 1, by omega⟩
    refine ⟨stream, ?_, fun k h1 h2 => by omega⟩
    rw [loop_exit _ _ _ _ _ h0]
    unfold cb_fill_audio.after
    rw [if_pos h0]
  · have h0' : 0 < left := by omega
    by_cases hw : left < e.currFrame.n * 4 - e.pos
    · obtain ⟨f, rfl⟩ : ∃ f, fuel = f + 2 := ⟨fuel - 2, by omega⟩
      refine ⟨memcpy stream done e.currFrame e.pos left, ?_, ?_⟩
      · rw [loop_pass _ _ _ _ _ h0', body_within e stream left done h0' hw]
        dsimp only
        rw [loop_exit _ _ _ _ _ (le_refl _)]
        unfold cb_fill_audio.after
        rw [if_neg h0, if_pos hw]
      · intro k h1 h2
        unfold memcpy cb_fill_audio.byteOut
        rw [if_pos ⟨h1, h2⟩, if_pos (by omega)]
    · obtain ⟨f, rfl⟩ : ∃ f, fuel = f + 1 := ⟨fuel - 1, by omega⟩
      have hn' := turned_n e hn hs
      have hcyc := loop_cycle (cb_fill_audio.turned e).currFrame hn' f (cb_fill_audio.turned e)
        (if e.currFrame.n * 4 - e.pos > 0
          then memcpy stream done e.currFrame e.pos (e.currFrame.n * 4 - e.pos) else stream)
        (left - (e.currFrame.n * 4 - e.pos)) (done + (e.currFrame.n * 4 - e.pos)) rfl
        (turned_staged e) (by rw [turned_pos]) (by rw [turned_pos]; omega) (by omega)
        (by push_cast at hf; omega)
      rw [loop_pass _ _ _ _ _ h0', body_turn e stream left done h0' (by omega)]
      dsimp only
      rw [hcyc]
      simp only [turned_pos, zero_add]
      refine ⟨fun k =>
        if done + (e.currFrame.n * 4 - e.pos) ≤ k ∧
            k < done + (e.currFrame.n * 4 - e.pos) + (left - (e.currFrame.n * 4 - e.pos)) then
          (cb_fill_audio.turned e).currFrame.byte
            ((k - (done + (e.currFrame.n * 4 - e.pos))) % ((cb_fill_audio.turned e).currFrame.n * 4))
        else
          (if e.currFrame.n * 4 - e.pos > 0
            then memcpy stream done e.currFrame e.pos (e.currFrame.n * 4 - e.pos) else stream) k,
        ?_, ?_⟩
      · unfold cb_fill_audio.after
        rw [if_neg h0, if_neg hw]
      · intro k h1 h2
        dsimp only
        unfold cb_fill_audio.byteOut
        by_cases hk : k - done < e.currFrame.n * 4 - e.pos
        · rw [if_neg (by omega), if_pos hk, if_pos (by omega)]
          unfold memcpy
          rw [if_pos (by omega)]
        · rw [if_pos (by omega), if_neg hk]
          have harg : k - (done + (e.currFrame.n * 4 - e.pos))
              = k - done - (e.currFrame.n * 4 - e.pos) := by ring
          rw [harg]

theorem emod_step_lt (x b n r : Int) (hr : r = x % n) (hn : 0 < n) (hb : 0 ≤ b)
    (h : b < n - r) : r + b = (x + b) % n := by
  have h0 : 0 ≤ r := hr ▸ Int.emod_nonneg x (by omega)
  rw [← Int.emod_add_emod, ← hr]
  exact (Int.emod_eq_of_lt (by omega) (by omega)).symm

theorem emod_step_ge (x b n r : Int) (hr : r = x % n) (_ : 0 < n) :
    (b - (n - r)) % n = (x + b) % n := by
  have h1 : b - (n - r) = (r + b) + (-1) * n := by ring
  rw [h1, Int.add_mul_emod_self, hr, Int.emod_add_emod]

theorem after_zero (e : Engine) : cb_fill_audio.after e 0 = e := by
  unfold cb_fill_audio.after
  rw [if_pos (le_refl _)]

/-- The frames after a pull are again non-empty. -/
theorem after_frames (e : Engine) (hn : 0 < e.currFrame.n)
    (hs : e.nextFrame.samples ≠ none → 0 < e.nextFrame.n) (a : Int) :
    0 < (cb_fill_audio.after e a).currFrame.n ∧
    ((cb_fill_audio.after e a).nextFrame.samples ≠ none →
      0 < (cb_fill_audio.after e a).nextFrame.n) ∧
    max 0 ((cb_fill_audio.after e a).pos - (cb_fill_audio.after e a).currFrame.n * 4 + 1)
      ≤ max 0 (e.pos - e.currFrame.n * 4 + 1) := by
  unfold cb_fill_audio.after
  split
  · exact ⟨hn, hs, le_refl _⟩
  · split
    · refine ⟨hn, hs, ?_⟩
      dsimp only
      rw [max_eq_left (by omega)]
      exact le_max_left _ _
    · have hn' := turned_n e hn hs
      refine ⟨hn', fun h => absurd (turned_staged e) h, ?_⟩
      dsimp only
      have hlt := Int.emod_lt_of_pos (a - (e.currFrame.n * 4 - e.pos))
        (show (0 : Int) < (cb_fill_audio.turned e).currFrame.n * 4 by omega)
      rw [max_eq_left (by omega)]
      exact le_max_left _ _

/-- Two pulls in a row leave the engine that one pull of the total length
leaves. -/
theorem after_add (e : Engine) (hn : 0 < e.currFrame.n)
    (hs : e.nextFrame.samples ≠ none → 0 < e.nextFrame.n) (a b : Int)
    (ha : 0 ≤ a) (hb : 0 ≤ b) :
    cb_fill_audio.after (cb_fill_audio.after e a) b = cb_fill_audio.after e (a + b) := by
  rcases eq_or_lt_of_le ha with ha0 | ha0
  · rw [← ha0, after_zero, zero_add]
  rcases eq_or_lt_of_le hb with hb0 | hb0
  · rw [← hb0, after_zero, add_zero]
  have hn' := turned_n e hn hs
  by_cases hw : a < e.currFrame.n * 4 - e.pos
  · have h1 : cb_fill_audio.after e a = { e with pos := e.pos + a } := by
      unfold cb_fill_audio.after
      rw [if_neg (by omega), if_pos hw]
    rw [h1]
    unfold cb_fill_audio.after
    rw [if_neg (by omega), if_neg (show ¬ a + b ≤ 0 by omega)]
    dsimp only
    by_cases hw2 : a + b < e.currFrame.n * 4 - e.pos
    · rw [if_pos (by omega), if_pos hw2, add_assoc]
    · rw [if_neg (by omega), if_neg hw2, turned_set_pos]
      have harg : b - (e.currFrame.n * 4 - (e.pos + a)) = a + b - (e.currFrame.n * 4 - e.pos) := by
        ring
      rw [harg]
  · have h1 : cb_fill_audio.after e a = { cb_fill_audio.turned e with
        pos := (a - (e.currFrame.n * 4 - e.pos)) % ((cb_fill_audio.turned e).currFrame.n * 4) } := by
      unfold cb_fill_audio.after
      rw [if_neg (by omega), if_neg hw]
    have h2 : cb_fill_audio.after e (a + b) = { cb_fill_audio.turned e with
        pos := (a - (e.currFrame.n * 4 - e.pos) + b)
          % ((cb_fill_audio.turned e).currFrame.n * 4) } := by
      unfold cb_fill_audio.after
      rw [if_neg (by omega), if_neg (by omega)]
      have harg : a + b - (e.currFrame.n * 4 - e.pos) = a - (e.currFrame.n * 4 - e.pos) + b := by
        ring
      rw [harg]
    rw [h1, h2]
    have hN : (0 : Int) < (cb_fill_audio.turned e).currFrame.n * 4 := by omega
    generalize hr : (a - (e.currFrame.n * 4 - e.pos)) % ((cb_fill_audio.turned e).currFrame.n * 4)
      = r
    unfold cb_fill_audio.after
    rw [if_neg (by omega)]
    dsimp only
    by_cases hw2 : b < (cb_fill_audio.turned e).currFrame.n * 4 - r
    · rw [if_pos hw2, emod_step_lt _ b _ r hr.symm hN hb hw2]
    · rw [if_neg hw2, turned_turned, emod_step_ge _ b _ r hr.symm hN]

/-- The bytes of a second pull are the bytes that one longer pull writes
after the first ones. -/
theorem byteOut_after (e : Engine) (hn : 0 < e.currFrame.n)
    (hs : e.nextFrame.samples ≠ none → 0 < e.nextFrame.n) (a k : Int)
    (ha : 0 ≤ a) (hk : 0 ≤ k) :
    cb_fill_audio.byteOut (cb_fill_audio.after e a) k = cb_fill_audio.byteOut e (a + k) := by
  rcases eq_or_lt_of_le ha with ha0 | ha0
  · rw [← ha0, after_zero, zero_add]
  have hn' := turned_n e hn hs
  by_cases hw : a < e.currFrame.n * 4 - e.pos
  · have h1 : cb_fill_audio.after e a = { e with pos := e.pos + a } := by
      unfold cb_fill_audio.after
      rw [if_neg (by omega), if_pos hw]
    rw [h1]
    unfold cb_fill_audio.byteOut
    dsimp only
    by_cases hw2 : a + k < e.currFrame.n * 4 - e.pos
    · rw [if_pos (by omega), if_pos hw2, add_assoc]
    · rw [if_neg (by omega), if_neg hw2, turned_set_pos]
      have harg : k - (e.currFrame.n * 4 - (e.pos + a)) = a + k - (e.currFrame.n * 4 - e.pos) := by
        ring
      rw [harg]
  · have h1 : cb_fill_audio.after e a = { cb_fill_audio.turned e with
        pos := (a - (e.currFrame.n * 4 - e.pos)) % ((cb_fill_audio.turned e).currFrame.n * 4) } := by
      unfold cb_fill_audio.after
      rw [if_neg (by omega), if_neg hw]
    have h2 : cb_fill_audio.byteOut e (a + k) = (cb_fill_audio.turned e).currFrame.byte
        ((a - (e.currFrame.n * 4 - e.pos) + k) % ((cb_fill_audio.turned e).currFrame.n * 4)) := by
      unfold cb_fill_audio.byteOut
      rw [if_neg (by omega)]
      have harg : a + k - (e.currFrame.n * 4 - e.pos) = a - (e.currFrame.n * 4 - e.pos) + k := by
        ring
      rw [harg]
    rw [h1, h2]
    have hN : (0 : Int) < (cb_fill_audio.turned e).currFrame.n * 4 := by omega
    generalize hr : (a - (e.currFrame.n * 4 - e.pos)) % ((cb_fill_audio.turned e).currFrame.n * 4)
      = r
    unfold cb_fill_audio.byteOut
    dsimp only
    by_cases hw2 : k < (cb_fill_audio.turned e).currFrame.n * 4 - r
    · rw [if_pos hw2, emod_step_lt _ k _ r hr.symm hN hk hw2]
    · rw [if_neg hw2, turned_turned, emod_step_ge _ k _ r hr.symm hN]

/-- Claim C26: from every state whose active frame is non-empty and whose
staged frame, if any, is non-empty, and for all `a, b ≥ 0`, the calls
`cb_fill_audio(a)` and then `cb_fill_audio(b)` (with no call in between) both
return, as does the single call `cb_fill_audio(a + b)` from the same state; the
single call leaves the same engine (active frame, staged slot, position and
all else), its first `a` bytes are the bytes of the first call and its next `b`
bytes are the bytes of the second call. -/
theorem pull_chunking_independent (e : Engine) (a b : Int) (f1 f2 f3 : Nat)
    (s1 s2 s3 : Int → Option Nat)
    (hn : 0 < e.currFrame.n) (hs : e.nextFrame.samples ≠ none → 0 < e.nextFrame.n)
    (ha : 0 ≤ a) (hb : 0 ≤ b)
    (h1 : a + max 0 (e.pos - e.currFrame.n * 4 + 1) < f1)
    (h2 : b + max 0 (e.pos - e.currFrame.n * 4 + 1) < f2)
    (h3 : a + b + max 0 (e.pos - e.currFrame.n * 4 + 1) < f3) :
    ∃ (e1 e2 : Engine) (o1 o2 o3 : Int → Option Nat),
      cb_fill_audio f1 e s1 a = some (e1, o1) ∧
      cb_fill_audio f2 e1 s2 b = some (e2, o2) ∧
      cb_fill_audio f3 e s3 (a + b) = some (e2, o3) ∧
      (∀ k, 0 ≤ k → k < a → o3 k = o1 k) ∧
      (∀ k, 0 ≤ k → k < b → o3 (a + k) = o2 k) := by
  obtain ⟨o1, hr1, hb1⟩ := pull_closed e hn hs f1 s1 a 0 ha h1
  obtain ⟨hn1, hs1, hx1⟩ := after_frames e hn hs a
  obtain ⟨o2, hr2, hb2⟩ := pull_closed (cb_fill_audio.after e a) hn1 hs1 f2 s2 b 0 hb
    (by omega)
  obtain ⟨o3, hr3, hb3⟩ := pull_closed e hn hs f3 s3 (a + b) 0 (by omega) h3
  refine ⟨_, _, o1, o2, o3, hr1, hr2, ?_, ?_, ?_⟩
  · unfold cb_fill_audio
    rw [hr3, after_add e hn hs a b ha hb]
  · intro k hk0 hk1
    rw [hb3 k (by omega) (by omega), hb1 k (by omega) (by omega)]
  · intro k hk0 hk1
    rw [hb3 (a + k) (by omega) (by omega), hb2 k (by omega) (by omega), sub_zero, sub_zero,
      byteOut_after e hn hs a k ha hk0]

theorem pull_chunking_independent_witness :
    0 < twoClips.currFrame.n ∧
    ∃ (e1 e2 : Engine) (o1 o2 o3 : Int → Option Nat),
      cb_fill_audio 20 twoClips (fun _ => some 0) 3 = some (e1, o1) ∧
      cb_fill_audio 20 e1 (fun _ => some 0) 7 = some (e2, o2) ∧
      cb_fill_audio 20 twoClips (fun _ => some 0) (3 + 7) = some (e2, o3) ∧
      (∀ k, 0 ≤ k → k < 3 → o3 k = o1 k) ∧
      (∀ k, 0 ≤ k → k < 7 → o3 (3 + k) = o2 k) :=
  ⟨by decide,
    pull_chunking_independent twoClips 3 7 20 20 20 (fun _ => some 0) (fun _ => some 0)
      (fun _ => some 0) (by decide) (fun _ => by decide) (by decide) (by decide)
      (by decide) (by decide) (by decide)⟩

/-! ## cb_fill_audio: the position stays inside the active frame -/

theorem lineTo_nextFrame (sqrt : ℚ → ℚ) (e : Engine) (x y c : ℚ) :
    (lineTo sqrt e x y c).nextFrame = e.nextFrame := by
  unfold lineTo
  split <;> rfl

theorem flip_pos (e : Engine) (c : Int) : (flip e c).pos = e.pos := by
  unfold flip sendFrame
  split <;> rfl

theorem lineTo_inFrame (sqrt : ℚ → ℚ) (e : Engine) (x y c : ℚ) (h : e.inFrame) :
    (lineTo sqrt e x y c).inFrame := by
  unfold Engine.inFrame
  rw [lineTo_currFrame, lineTo_pos, lineTo_nextFrame]
  exact h

theorem flip_inFrame (e : Engine) (c : Int) (h : e.inFrame) (hm : 0 < (flip e c).nextFrame.n) :
    (flip e c).inFrame := by
  unfold Engine.inFrame
  rw [flip_currFrame, flip_pos]
  exact ⟨h.1, h.2.1, h.2.2.1, fun _ => hm⟩

/-- One pass of the loop from a state that meets the invariant: `frameLeft` is
positive at the top of the pass and not negative after the copy, and the state
after the pass meets the invariant. -/
theorem body_inFrame (e : Engine) (stream : Int → Option Nat) (left done : Int)
    (h : e.inFrame) (hl : 0 < left) :
    (cb_fill_audio.body e stream left done).1.inFrame := by
  obtain ⟨hn, hp0, hp, hs⟩ := h
  by_cases hw : left < e.currFrame.n * 4 - e.pos
  · rw [body_within e stream left done hl hw]
    exact ⟨hn, by dsimp only; omega, by dsimp only; omega, hs⟩
  · rw [body_turn e stream left done hl (by omega)]
    show (cb_fill_audio.turned e).inFrame
    have hn' := turned_n e hn hs
    unfold Engine.inFrame
    rw [turned_pos]
    exact ⟨hn', le_refl _, by omega, fun h => absurd (turned_staged e) h⟩

theorem loop_inFrame :
    ∀ (fuel : Nat) (e : Engine) (stream : Int → Option Nat) (left done : Int) (e' : Engine)
      (out : Int → Option Nat), e.inFrame →
      cb_fill_audio.loop fuel e stream left done = some (e', out) → e'.inFrame := by
  intro fuel
  induction fuel with
  | zero =>
    intro e stream left done e' out _ h
    simp [cb_fill_audio.loop] at h
  | succ fuel ih =>
    intro e stream left done e' out hg h
    by_cases hl : 0 < left
    · rw [loop_pass _ _ _ _ _ hl] at h
      exact ih _ _ _ _ _ _ (body_inFrame e stream left done hg hl) h
    · rw [loop_exit _ _ _ _ _ (by omega)] at h
      simp only [Option.some.injEq, Prod.mk.injEq] at h
      rw [← h.1]
      exact hg

theorem frameLefts_inFrame :
    ∀ (fuel : Nat) (e : Engine) (stream : Int → Option Nat) (left done : Int), e.inFrame →
      ∀ p ∈ cb_fill_audio.frameLefts fuel e stream left done, 0 < p.1 ∧ 0 ≤ p.2 := by
  intro fuel
  induction fuel with
  | zero =>
    intro e stream left done _ p hp
    rw [cb_fill_audio.frameLefts] at hp
    exact absurd hp (List.not_mem_nil p)
  | succ fuel ih =>
    intro e stream left done hg p hp
    rw [cb_fill_audio.frameLefts] at hp
    by_cases hl : left > 0
    · rw [if_pos hl] at hp
      dsimp only at hp
      rcases List.mem_cons.1 hp with rfl | hp
      · dsimp only
        obtain ⟨hn, hp0, hp1, hs⟩ := hg
        constructor
        · omega
        · split <;> omega
      · exact ih _ _ _ _ (body_inFrame e stream left done hg hl) p hp
    · rw [if_neg hl] at hp
      exact absurd hp (List.not_mem_nil p)

theorem reachable_inFrame (sqrt : ℚ → ℚ) (e0 e : Engine) (h0 : e0.inFrame)
    (h : ReachableNonEmpty sqrt e0 e) : e.inFrame := by
  induction h with
  | start => exact h0
  | setScale l r t b w _ ih => exact ih
  | setMode mode _ ih => exact ih
  | moveTo x y _ ih => exact lineTo_inFrame sqrt _ x y 0 ih
  | lineTo x y c _ ih => exact lineTo_inFrame sqrt _ x y c ih
  | flip c _ hm ih => exact flip_inFrame _ c ih hm
  | pull fuel stream out len _ hret ih => exact loop_inFrame _ _ _ _ _ _ _ ih hret

/-- Claim C28: start from a state whose active frame is non-empty, whose
position satisfies `0 ≤ pos < 4 * n` and whose staged frame, if any, is
non-empty (such as the state after `gfxInit` with a buffer of at least 4
samples), and let every `flip` stage a non-empty frame. Then in every state
reached, `0 ≤ pos < 4 * n` for the active frame of that state, before and after
every `cb_fill_audio`; every `cb_fill_audio(len)` with `0 ≤ len < fuel` returns;
and in every pass of its loop `frameLeft` is positive at the top and not
negative after `frameLeft -= toCopy`, so the diagnostic `frameLeft is ...`
stays silent. -/
theorem position_stays_inside_active_frame (sqrt : ℚ → ℚ) (e0 e : Engine)
    (hn : 0 < e0.currFrame.n) (hp0 : 0 ≤ e0.pos) (hp : e0.pos < e0.currFrame.n * 4)
    (hs : e0.nextFrame.samples ≠ none → 0 < e0.nextFrame.n)
    (h : ReachableNonEmpty sqrt e0 e) :
    (0 < e.currFrame.n ∧ 0 ≤ e.pos ∧ e.pos < e.currFrame.n * 4) ∧
    ∀ (fuel : Nat) (stream : Int → Option Nat) (len : Int),
      (∀ p ∈ cb_fill_audio.frameLefts fuel e stream len 0, 0 < p.1 ∧ 0 ≤ p.2) ∧
      (∀ (e' : Engine) (out : Int → Option Nat),
        cb_fill_audio fuel e stream len = some (e', out) →
        0 < e'.currFrame.n ∧ 0 ≤ e'.pos ∧ e'.pos < e'.currFrame.n * 4) ∧
      (0 ≤ len → len < fuel →
        ∃ (e' : Engine) (out : Int → Option Nat),
          cb_fill_audio fuel e stream len = some (e', out)) := by
  have hg : e.inFrame := reachable_inFrame sqrt e0 e ⟨hn, hp0, hp, hs⟩ h
  refine ⟨⟨hg.1, hg.2.1, hg.2.2.1⟩, ?_⟩
  intro fuel stream len
  refine ⟨frameLefts_inFrame fuel e stream len 0 hg, ?_, ?_⟩
  · intro e' out hret
    have hg' := loop_inFrame _ _ _ _ _ _ _ hg hret
    exact ⟨hg'.1, hg'.2.1, hg'.2.2.1⟩
  · intro hl hf
    obtain ⟨out, hr, _⟩ := pull_closed e hg.1 hg.2.2.2 fuel stream len 0 hl
      (by have := hg.2.2.1; rw [max_eq_left (by omega)]; omega)
    exact ⟨_, out, hr⟩

theorem position_stays_inside_active_frame_witness :
    (0 < drawn.currFrame.n ∧ 0 ≤ drawn.pos ∧ drawn.pos < drawn.currFrame.n * 4) ∧
    ReachableNonEmpty sqrtQ drawn (flip drawn 0) ∧
    (0 < (flip drawn 0).currFrame.n ∧ 0 ≤ (flip drawn 0).pos ∧
      (flip drawn 0).pos < (flip drawn 0).currFrame.n * 4) ∧
    (∀ p ∈ cb_fill_audio.frameLefts 20 (flip drawn 0) (fun _ => some 0) 12 0, 0 < p.1 ∧ 0 ≤ p.2) ∧
    ∃ (e' : Engine) (out : Int → Option Nat),
      cb_fill_audio 20 (flip drawn 0) (fun _ => some 0) 12 = some (e', out) :=
  ⟨by decide, ReachableNonEmpty.flip 0 ReachableNonEmpty.start (by decide),
    (position_stays_inside_active_frame sqrtQ drawn (flip drawn 0) (by decide) (by decide)
      (by decide) (fun h => absurd rfl h)
      (ReachableNonEmpty.flip 0 ReachableNonEmpty.start (by decide))).1,
    ((position_stays_inside_active_frame sqrtQ drawn (flip drawn 0) (by decide) (by decide)
      (by decide) (fun h => absurd rfl h)
      (ReachableNonEmpty.flip 0 ReachableNonEmpty.start (by decide))).2 20 (fun _ => some 0) 12).1,
    ((position_stays_inside_active_frame sqrtQ drawn (flip drawn 0) (by decide) (by decide)
      (by decide) (fun h => absurd rfl h)
      (ReachableNonEmpty.flip 0 ReachableNonEmpty.start (by decide))).2 20 (fun _ => some 0)
        12).2.2 (by decide) (by decide)⟩

/-! ## Double-precision rounding: evaluation -/

/-- Evaluation of `roundDouble` from the numerator, the denominator, the
exponent of the last place and the rounded significand. -/
theorem roundDouble_value (q : ℚ) (n : Int) (d : Nat) (s : Int) (u v m : Nat)
    (hn : q.num = n) (hd : q.den = d) (h0 : n ≠ 0) (hs : ulpExp n.natAbs d = s)
    (hu : s.toNat = u) (hv : (-s).toNat = v)
    (hm : roundHalfEven (n.natAbs * 2 ^ v) (d * 2 ^ u) = m) :
    roundDouble q
      = (((if n < 0 then -1 else 1) * (m : Int) * 2 ^ u : Int) : ℚ) / ((2 ^ v : Nat) : ℚ) := by
  unfold roundDouble
  rw [hn, hd, if_neg h0]
  dsimp only
  rw [hs, hu, hv, hm]

theorem roundDouble_zero : roundDouble 0 = 0 := by
  unfold roundDouble
  rw [if_pos (by norm_num)]

/-! ## Properties of the rounding -/

theorem roundHalfEven_ge (n d N : Nat) (h : N * d ≤ n) (hd : 0 < d) : N ≤ roundHalfEven n d := by
  have h1 : N ≤ n / d := (Nat.le_div_iff_mul_le hd).2 h
  unfold roundHalfEven
  dsimp only
  split_ifs <;> omega

theorem roundHalfEven_le (n d N : Nat) (h : n ≤ N * d) (hd : 0 < d) : roundHalfEven n d ≤ N := by
  have hdiv := Nat.div_add_mod n d
  have hmod := Nat.mod_lt n hd
  have h1 : n / d ≤ N := by
    calc n / d ≤ N * d / d := Nat.div_le_div_right h
      _ = N := Nat.mul_div_cancel N hd
  have h2 : n % d ≠ 0 → n / d < N := by
    intro hne
    by_contra hcon
    have he : n / d = N := by omega
    have : d * N + n % d = n := by rw [← he]; exact hdiv
    have : n = N * d + n % d := by rw [Nat.mul_comm] at this; omega
    omega
  unfold roundHalfEven
  dsimp only
  split_ifs with ha hb hc
  · exact h1
  · have : n % d ≠ 0 := by omega
    have := h2 this
    omega
  · exact h1
  · have : n % d ≠ 0 := by
      intro h0
      rw [h0] at ha hb
      omega
    have := h2 this
    omega

theorem bitLength_spec :
    ∀ (fuel n : Nat), n ≤ fuel → 0 < n →
      2 ^ (bitLength fuel n - 1) ≤ n ∧ n < 2 ^ bitLength fuel n ∧ 0 < bitLength fuel n := by
  intro fuel
  induction fuel with
  | zero => intro n h1 h2; omega
  | succ fuel ih =>
    intro n h1 h2
    rw [bitLength, if_neg (by omega)]
    by_cases hn : n / 2 = 0
    · have h1' : n = 1 := by omega
      subst h1'
      cases fuel with
      | zero => simp [bitLength]
      | succ f => simp [bitLength]
    · obtain ⟨a, b, c⟩ := ih (n / 2) (by omega) (by omega)
      refine ⟨?_, ?_, by omega⟩
      · have he : bitLength fuel (n / 2) + 1 - 1 = (bitLength fuel (n / 2) - 1) + 1 := by omega
        rw [he, pow_succ]
        omega
      · rw [pow_succ]
        omega

/-- The rounding keeps the sign. -/
theorem roundDouble_sign (q : ℚ) :
    (0 ≤ q → 0 ≤ roundDouble q) ∧ (q ≤ 0 → roundDouble q ≤ 0) := by
  unfold roundDouble
  by_cases h0 : q.num = 0
  · rw [if_pos h0]
    exact ⟨fun _ => le_refl _, fun _ => le_refl _⟩
  · rw [if_neg h0]
    dsimp only
    constructor
    · intro hq
      have hnum : 0 < q.num := lt_of_le_of_ne (Rat.num_nonneg.2 hq) (Ne.symm h0)
      rw [if_neg (by omega)]
      positivity
    · intro hq
      have hnum : q.num < 0 := lt_of_le_of_ne (Rat.num_nonpos.2 hq) h0
      rw [if_pos hnum]
      apply div_nonpos_of_nonpos_of_nonneg
      · push_cast
        have : (0 : ℚ) ≤ ((roundHalfEven (q.num.natAbs * 2 ^ (-ulpExp q.num.natAbs q.den).toNat)
            (q.den * 2 ^ (ulpExp q.num.natAbs q.den).toNat) : Nat) : ℚ)
            * 2 ^ (ulpExp q.num.natAbs q.den).toNat := by positivity
        linarith
      · positivity

/-- The exponent of the last place is not above `a / d`: in the normal range
`2 ^ (s + 52) ≤ a / d`. -/
theorem ulpExp_lower (a d : Nat) (ha : 0 < a) (hd : 0 < d) (hs : 0 < ulpExp a d) :
    d * 2 ^ ((ulpExp a d).toNat + 52) ≤ a := by
  obtain ⟨a1, a2, a3⟩ := bitLength_spec a a (le_refl _) ha
  obtain ⟨d1, d2, d3⟩ := bitLength_spec d d (le_refl _) hd
  unfold ulpExp at hs ⊢
  dsimp only at hs ⊢
  generalize bitLength a a = A at *
  generalize bitLength d d = D at *
  have hmax : ∀ z : Int, 0 < max (z - 52) (-1074) → max (z - 52) (-1074) = z - 52 := by
    intro z hz
    apply max_eq_left
    by_contra hcon
    rw [max_eq_right (by omega)] at hz
    omega
  split_ifs at hs ⊢ with hlt
  · have he := hmax _ hs
    rw [he] at hs ⊢
    have hAD : D + 53 ≤ A := by omega
    have hexp : ((A : Int) - (D : Int) - 1 - 52).toNat + 52 = A - 1 - D := by omega
    rw [hexp]
    have h2 : d * 2 ^ (A - 1 - D) ≤ 2 ^ D * 2 ^ (A - 1 - D) :=
      Nat.mul_le_mul_right _ (le_of_lt d2)
    rw [← pow_add, show D + (A - 1 - D) = A - 1 by omega] at h2
    exact h2.trans a1
  · have he := hmax _ hs
    rw [he] at hs ⊢
    have hAD : D + 52 < A := by omega
    have hexp : ((A : Int) - (D : Int) - 52).toNat + 52 = A - D := by omega
    rw [hexp]
    have h1 : (-((A : Int) - (D : Int))).toNat = 0 := by omega
    have h2 : ((A : Int) - (D : Int)).toNat = A - D := by omega
    rw [h1, h2, pow_zero, Nat.mul_one] at hlt
    omega

/-- The rounding does not cross an integer below `2 ^ 53` from above. -/
theorem roundDouble_ge_natCast (k : Nat) (q : ℚ) (hk : k < 2 ^ 53) (h : (k : ℚ) ≤ q) :
    (k : ℚ) ≤ roundDouble q := by
  have hq0 : 0 ≤ q := le_trans (Nat.cast_nonneg k) h
  by_cases h0 : q.num = 0
  · have hq : q = 0 := Rat.zero_of_num_zero h0
    rw [hq, roundDouble_zero]
    rw [hq] at h
    exact h
  have hnum : 0 < q.num := lt_of_le_of_ne (Rat.num_nonneg.2 hq0) (Ne.symm h0)
  obtain ⟨a, ha⟩ : ∃ a : Nat, q.num = (a : Int) := ⟨q.num.toNat, (Int.toNat_of_nonneg hnum.le).symm⟩
  have ha0 : 0 < a := by omega
  have hd0 : 0 < q.den := q.den_pos
  have hqa : q = (a : ℚ) / (q.den : ℚ) := by
    have h1 := Rat.num_div_den q
    rw [ha, Int.cast_natCast] at h1
    exact h1.symm
  have hkd : k * q.den ≤ a := by
    have hden : (0 : ℚ) < (q.den : ℚ) := by exact_mod_cast hd0
    rw [hqa, le_div_iff₀ hden] at h
    exact_mod_cast h
  unfold roundDouble
  rw [if_neg h0, ha, Int.natAbs_ofNat, if_neg (by omega)]
  dsimp only
  generalize hs : ulpExp a q.den = s
  rcases le_or_lt s 0 with hs0 | hs0
  · have hu : s.toNat = 0 := by omega
    rw [hu, pow_zero, Nat.mul_one]
    have hm := roundHalfEven_ge (a * 2 ^ (-s).toNat) q.den (k * 2 ^ (-s).toNat)
      (by calc k * 2 ^ (-s).toNat * q.den = (k * q.den) * 2 ^ (-s).toNat := by ring
            _ ≤ a * 2 ^ (-s).toNat := Nat.mul_le_mul_right _ hkd) hd0
    have hpos : (0 : ℚ) < ((2 ^ (-s).toNat : Nat) : ℚ) := by positivity
    rw [le_div_iff₀ hpos]
    have hm' : ((k * 2 ^ (-s).toNat : Nat) : ℚ)
        ≤ ((roundHalfEven (a * 2 ^ (-s).toNat) q.den : Nat) : ℚ) := by exact_mod_cast hm
    push_cast at hm' ⊢
    linarith
  · have hv : (-s).toNat = 0 := by omega
    rw [hv, pow_zero, Nat.mul_one]
    have hlow := ulpExp_lower a q.den ha0 hd0 (by rw [hs]; exact hs0)
    rw [hs] at hlow
    have hm := roundHalfEven_ge a (q.den * 2 ^ s.toNat) (2 ^ 52)
      (by calc 2 ^ 52 * (q.den * 2 ^ s.toNat) = q.den * 2 ^ (s.toNat + 52) := by ring
            _ ≤ a := hlow) (by positivity)
    have hm' : ((2 ^ 52 : Nat) : ℚ) ≤ ((roundHalfEven a (q.den * 2 ^ s.toNat) : Nat) : ℚ) := by
      exact_mod_cast hm
    have hk' : (k : ℚ) ≤ ((2 ^ 53 : Nat) : ℚ) := by exact_mod_cast hk.le
    have hpow : (2 : ℚ) ≤ (2 : ℚ) ^ s.toNat := by
      have h1 : (2 : ℚ) ^ 1 ≤ (2 : ℚ) ^ s.toNat :=
        pow_le_pow_right₀ (by norm_num) (by omega)
      simpa using h1
    push_cast at hm' hk' ⊢
    rw [div_one, one_mul]
    have hprod : (4503599627370496 : ℚ) * 2
        ≤ ((roundHalfEven a (q.den * 2 ^ s.toNat) : Nat) : ℚ) * 2 ^ s.toNat :=
      mul_le_mul hm' hpow (by norm_num) (by positivity)
    linarith

/-- The rounding does not cross an integer below `2 ^ 53` from below. -/
theorem roundDouble_le_natCast (k : Nat) (q : ℚ) (hk : k < 2 ^ 53) (h : q ≤ (k : ℚ)) :
    roundDouble q ≤ (k : ℚ) := by
  rcases le_or_lt q 0 with hq0 | hq0
  · exact le_trans ((roundDouble_sign q).2 hq0) (Nat.cast_nonneg k)
  have hnum : 0 < q.num := Rat.num_pos.2 hq0
  have h0 : q.num ≠ 0 := by omega
  obtain ⟨a, ha⟩ : ∃ a : Nat, q.num = (a : Int) := ⟨q.num.toNat, (Int.toNat_of_nonneg hnum.le).symm⟩
  have ha0 : 0 < a := by omega
  have hd0 : 0 < q.den := q.den_pos
  have hqa : q = (a : ℚ) / (q.den : ℚ) := by
    have h1 := Rat.num_div_den q
    rw [ha, Int.cast_natCast] at h1
    exact h1.symm
  have hkd : a ≤ k * q.den := by
    have hden : (0 : ℚ) < (q.den : ℚ) := by exact_mod_cast hd0
    rw [hqa, div_le_iff₀ hden] at h
    exact_mod_cast h
  unfold roundDouble
  rw [if_neg h0, ha, Int.natAbs_ofNat, if_neg (by omega)]
  dsimp only
  generalize hs : ulpExp a q.den = s
  rcases le_or_lt s 0 with hs0 | hs0
  · have hu : s.toNat = 0 := by omega
    rw [hu, pow_zero, Nat.mul_one]
    have hm := roundHalfEven_le (a * 2 ^ (-s).toNat) q.den (k * 2 ^ (-s).toNat)
      (by calc a * 2 ^ (-s).toNat ≤ (k * q.den) * 2 ^ (-s).toNat := Nat.mul_le_mul_right _ hkd
            _ = k * 2 ^ (-s).toNat * q.den := by ring) hd0
    have hpos : (0 : ℚ) < ((2 ^ (-s).toNat : Nat) : ℚ) := by positivity
    rw [div_le_iff₀ hpos]
    have hm' : ((roundHalfEven (a * 2 ^ (-s).toNat) q.den : Nat) : ℚ)
        ≤ ((k * 2 ^ (-s).toNat : Nat) : ℚ) := by exact_mod_cast hm
    push_cast at hm' ⊢
    linarith
  · exfalso
    have hlow := ulpExp_lower a q.den ha0 hd0 (by rw [hs]; exact hs0)
    rw [hs] at hlow
    have h53 : 2 ^ 53 ≤ 2 ^ (s.toNat + 52) := Nat.pow_le_pow_right (by norm_num) (by omega)
    have : q.den * 2 ^ 53 ≤ a := le_trans (Nat.mul_le_mul_left _ h53) hlow
    have : q.den * 2 ^ 53 ≤ k * q.den := le_trans this hkd
    have : 2 ^ 53 ≤ k := by
      have h' : 2 ^ 53 * q.den ≤ k * q.den := by rw [Nat.mul_comm]; exact this
      exact Nat.le_of_mul_le_mul_right h' hd0
    omega

/-- Integers below `2 ^ 53` are `double` values. -/
theorem roundDouble_natCast (k : Nat) (hk : k < 2 ^ 53) : roundDouble (k : ℚ) = k :=
  le_antisymm (roundDouble_le_natCast k _ hk (le_refl _)) (roundDouble_ge_natCast k _ hk (le_refl _))

/-! ## Double precision: links to the exact definitions -/

theorem rounded_scale_id (lo hi x : ℚ) :
    Rounded.lineTo.scale id lo hi x = lineTo.scale lo hi x := rfl

theorem rounded_lineTo_id (sqrt : ℚ → ℚ) (e : Engine) (x y c : ℚ) :
    Rounded.lineTo sqrt id e x y c = lineTo sqrt e x y c := rfl

theorem rounded_steps_id (e : Engine) (dX dY : ℚ) :
    ∀ (k : Nat) (X Y : ℚ) (buf : List Int),
      Rounded.sendFrame.steps id e dX dY k X Y buf = sendFrame.steps e dX dY k X Y buf := by
  intro k
  induction k with
  | zero => intro X Y buf; rfl
  | succ k ih =>
    intro X Y buf
    rw [Rounded.sendFrame.steps, sendFrame.steps]
    exact ih _ _ _

theorem rounded_segment_id (e : Engine) (vl : vlist) (pt : Int) (buf : List Int) :
    Rounded.sendFrame.segment id e vl pt buf = sendFrame.segment e vl pt buf := by
  unfold Rounded.sendFrame.segment sendFrame.segment
  exact rounded_steps_id e _ _ _ _ _ _

theorem rounded_render_id (e : Engine) (vl : vlist) :
    ∀ (k : Nat) (pt : Int) (buf : List Int),
      Rounded.sendFrame.render id e vl k pt buf = sendFrame.render e vl k pt buf := by
  intro k
  induction k with
  | zero => intro pt buf; rfl
  | succ k ih =>
    intro pt buf
    rw [Rounded.sendFrame.render, sendFrame.render, rounded_segment_id]
    exact ih _ _

/-- Without rounding (`fl = id`) the double-precision definitions are the exact
ones. -/
theorem rounded_flip_id (e : Engine) (c : Int) : Rounded.flip id e c = flip e c := by
  unfold Rounded.flip flip Rounded.sendFrame sendFrame
  simp only [rounded_render_id, id]

/-! ## Double precision: the rendered samples -/

theorem rounded_steps_eq (fl : ℚ → ℚ) (e : Engine) (dX dY : ℚ) :
    ∀ (k : Nat) (X Y : ℚ) (buf : List Int),
      Rounded.sendFrame.steps fl e dX dY k X Y buf
        = buf ++ (Rounded.sendFrame.track fl dX dY k X Y).flatMap (sendFrame.pair e) := by
  intro k
  induction k with
  | zero => intro X Y buf; simp [Rounded.sendFrame.steps, Rounded.sendFrame.track]
  | succ k ih =>
    intro X Y buf
    rw [Rounded.sendFrame.steps, Rounded.sendFrame.track, List.flatMap_cons, ih]
    unfold sendFrame.pair
    split <;> simp

theorem rounded_track_length (fl : ℚ → ℚ) (dX dY : ℚ) :
    ∀ (k : Nat) (X Y : ℚ), (Rounded.sendFrame.track fl dX dY k X Y).length = k := by
  intro k
  induction k with
  | zero => intro X Y; rfl
  | succ k ih =>
    intro X Y
    rw [Rounded.sendFrame.track, List.length_cons, ih]

theorem running_shift (fl : ℚ → ℚ) (p d : ℚ) :
    ∀ i : Nat, Rounded.sendFrame.running fl (fl (p + d)) d i
      = Rounded.sendFrame.running fl p d (i + 1) := by
  intro i
  induction i with
  | zero => rfl
  | succ i ih =>
    rw [Rounded.sendFrame.running, ih]
    rfl

theorem rounded_track_getElem (fl : ℚ → ℚ) (dX dY : ℚ) :
    ∀ (k i : Nat) (X Y : ℚ), i < k →
      (Rounded.sendFrame.track fl dX dY k X Y)[i]?
        = some (Rounded.sendFrame.running fl X dX i, Rounded.sendFrame.running fl Y dY i) := by
  intro k
  induction k with
  | zero => intro i X Y h; omega
  | succ k ih =>
    intro i X Y h
    rw [Rounded.sendFrame.track]
    cases i with
    | zero => simp [Rounded.sendFrame.running]
    | succ i =>
      rw [List.getElem?_cons_succ, ih i _ _ (by omega), running_shift, running_shift]

theorem rounded_segment_eq (fl : ℚ → ℚ) (e : Engine) (vl : vlist) (pt : Int) (buf : List Int) :
    Rounded.sendFrame.segment fl e vl pt buf
      = buf ++ (Rounded.sendFrame.segmentTrack fl vl pt).flatMap (sendFrame.pair e) := by
  unfold Rounded.sendFrame.segment Rounded.sendFrame.segmentTrack
  exact rounded_steps_eq fl e _ _ _ _ _ _

theorem rounded_segmentTrack_length (fl : ℚ → ℚ) (vl : vlist) (pt : Int) :
    (Rounded.sendFrame.segmentTrack fl vl pt).length = vl.pts (3 * pt + 2) + 1 := by
  unfold Rounded.sendFrame.segmentTrack
  dsimp only
  rw [rounded_track_length]
  omega

theorem rounded_segmentTrack_getElem (fl : ℚ → ℚ) (vl : vlist) (pt : Int) (i : Nat)
    (hi : i < vl.pts (3 * pt + 2) + 1) :
    (Rounded.sendFrame.segmentTrack fl vl pt)[i]?
      = some
          (Rounded.sendFrame.running fl (vl.pts (3 * (pt - 1) + 0) : ℚ)
            (fl (fl ((vl.pts (3 * pt + 0) : ℚ) - (vl.pts (3 * (pt - 1) + 0) : ℚ))
              / ((vl.pts (3 * pt + 2) : ℚ) + 1))) i,
           Rounded.sendFrame.running fl (vl.pts (3 * (pt - 1) + 1) : ℚ)
            (fl (fl ((vl.pts (3 * pt + 1) : ℚ) - (vl.pts (3 * (pt - 1) + 1) : ℚ))
              / ((vl.pts (3 * pt + 2) : ℚ) + 1))) i) := by
  unfold Rounded.sendFrame.segmentTrack
  dsimp only
  rw [rounded_track_getElem _ _ _ _ _ _ _ (by omega)]
  push_cast
  rfl

/-- The samples that the inner loop appends for one segment, in double
precision: pass `i` writes the pair of the running coordinates after `i`
rounded additions. -/
theorem rounded_segment_pairs (fl : ℚ → ℚ) (e : Engine) (vl : vlist) (pt : Int)
    (buf : List Int) :
    ∃ tail : List Int,
      Rounded.sendFrame.segment fl e vl pt buf = buf ++ tail ∧
      tail.length = 2 * (vl.pts (3 * pt + 2) + 1) ∧
      ∀ i : Nat, i < vl.pts (3 * pt + 2) + 1 →
        [tail[2 * i]?, tail[2 * i + 1]?]
          = (sendFrame.pair e
              (Rounded.sendFrame.running fl (vl.pts (3 * (pt - 1) + 0) : ℚ)
                (fl (fl ((vl.pts (3 * pt + 0) : ℚ) - (vl.pts (3 * (pt - 1) + 0) : ℚ))
                  / ((vl.pts (3 * pt + 2) : ℚ) + 1))) i,
               Rounded.sendFrame.running fl (vl.pts (3 * (pt - 1) + 1) : ℚ)
                (fl (fl ((vl.pts (3 * pt + 1) : ℚ) - (vl.pts (3 * (pt - 1) + 1) : ℚ))
                  / ((vl.pts (3 * pt + 2) : ℚ) + 1))) i)).map some := by
  have hpairs : ∀ i : Nat, i < vl.pts (3 * pt + 2) + 1 →
      [((Rounded.sendFrame.segmentTrack fl vl pt).flatMap (sendFrame.pair e))[2 * i]?,
        ((Rounded.sendFrame.segmentTrack fl vl pt).flatMap (sendFrame.pair e))[2 * i + 1]?]
        = (sendFrame.pair e
            (Rounded.sendFrame.running fl (vl.pts (3 * (pt - 1) + 0) : ℚ)
              (fl (fl ((vl.pts (3 * pt + 0) : ℚ) - (vl.pts (3 * (pt - 1) + 0) : ℚ))
                / ((vl.pts (3 * pt + 2) : ℚ) + 1))) i,
             Rounded.sendFrame.running fl (vl.pts (3 * (pt - 1) + 1) : ℚ)
              (fl (fl ((vl.pts (3 * pt + 1) : ℚ) - (vl.pts (3 * (pt - 1) + 1) : ℚ))
                / ((vl.pts (3 * pt + 2) : ℚ) + 1))) i)).map some := by
    intro i hi
    have hget := rounded_segmentTrack_getElem fl vl pt i hi
    by_cases hs : e.swapXY = 0
    · have h := flatMap_pair_getElem _ _ _ (pair_straight e hs)
        (Rounded.sendFrame.segmentTrack fl vl pt) i
      rw [h.1, h.2, hget, pair_straight e hs]
      rfl
    · have h := flatMap_pair_getElem _ _ _ (pair_swapped e hs)
        (Rounded.sendFrame.segmentTrack fl vl pt) i
      rw [h.1, h.2, hget, pair_swapped e hs]
      rfl
  refine ⟨_, rounded_segment_eq fl e vl pt buf, ?_, hpairs⟩
  have hlen := rounded_segmentTrack_length fl vl pt
  by_cases hs : e.swapXY = 0
  · rw [flatMap_pair_length _ _ _ (pair_straight e hs), hlen]
  · rw [flatMap_pair_length _ _ _ (pair_swapped e hs), hlen]

/-! ## Double precision: the interpolation drifts from the closed form -/

/-- Six rounded additions of the `double` nearest to 1/3, starting from 0, give
`2 - 2^(-52)`, not 2. -/
theorem running_third_six :
    roundDouble (1 / 3) = (6004799503160661 / 18014398509481984) ∧
    Rounded.sendFrame.running roundDouble 0 (6004799503160661 / 18014398509481984) 6 = (9007199254740991 / 4503599627370496) := by
  have hd : roundDouble (1 / 3) = (6004799503160661 / 18014398509481984) := by
    rw [roundDouble_value _ (1) 3 (-54) 0 54 6004799503160661
      (by norm_num) (by norm_num) (by decide) (by decide) (by decide) (by decide) (by decide)]
    norm_num
  have h1 : roundDouble (0 + (6004799503160661 / 18014398509481984)) = (6004799503160661 / 18014398509481984) := by
    rw [roundDouble_value _ (6004799503160661) 18014398509481984 (-54) 0 54 6004799503160661
      (by norm_num) (by norm_num) (by decide) (by decide) (by decide) (by decide) (by decide)]
    norm_num
  have h2 : roundDouble ((6004799503160661 / 18014398509481984) + (6004799503160661 / 18014398509481984)) = (6004799503160661 / 9007199254740992) := by
    rw [roundDouble_value _ (6004799503160661) 9007199254740992 (-53) 0 53 6004799503160661
      (by norm_num) (by norm_num) (by decide) (by decide) (by decide) (by decide) (by decide)]
    norm_num
  have h3 : roundDouble ((6004799503160661 / 9007199254740992) + (6004799503160661 / 18014398509481984)) = 1 := by
    rw [roundDouble_value _ (18014398509481983) 18014398509481984 (-53) 0 53 9007199254740992
      (by norm_num) (by norm_num) (by decide) (by decide) (by decide) (by decide) (by decide)]
    norm_num
  have h4 : roundDouble (1 + (6004799503160661 / 18014398509481984)) = (6004799503160661 / 4503599627370496) := by
    rw [roundDouble_value _ (24019198012642645) 18014398509481984 (-52) 0 52 6004799503160661
      (by norm_num) (by norm_num) (by decide) (by decide) (by decide) (by decide) (by decide)]
    norm_num
  have h5 : roundDouble ((6004799503160661 / 4503599627370496) + (6004799503160661 / 18014398509481984)) = (3752999689475413 / 2251799813685248) := by
    rw [roundDouble_value _ (30023997515803305) 18014398509481984 (-52) 0 52 7505999378950826
      (by norm_num) (by norm_num) (by decide) (by decide) (by decide) (by decide) (by decide)]
    norm_num
  have h6 : roundDouble ((3752999689475413 / 2251799813685248) + (6004799503160661 / 18014398509481984)) = (9007199254740991 / 4503599627370496) := by
    rw [roundDouble_value _ (36028797018963965) 18014398509481984 (-52) 0 52 9007199254740991
      (by norm_num) (by norm_num) (by decide) (by decide) (by decide) (by decide) (by decide)]
    norm_num
  refine ⟨hd, ?_⟩
  simp only [Rounded.sendFrame.running]
  rw [h1, h2, h3, h4, h5, h6]

theorem truncQ_of_floor (q : ℚ) (z : Int) (h0 : 0 ≤ q) (h1 : (z : ℚ) ≤ q) (h2 : q < z + 1) :
    truncQ q = z := by
  unfold truncQ
  rw [if_pos h0]
  exact Int.floor_eq_iff.2 ⟨h1, h2⟩

/-- Claim C25 (as stated) fails: in the segment from X = 0 to X = 3 with weight 8
(9 passes), pass 6 adds the rounded step six times and reaches
`1.9999999999999998`, whose integer part is 1, so the X sample is 32766; the
closed form `0 + 6 * (3 - 0) / 9 = 2` gives the sample 32765. -/
theorem interpolation_drifts_from_closed_form :
    shortLine.pts (3 * 1 + 0) = 3 ∧ shortLine.pts (3 * (1 - 1) + 0) = 0 ∧
    shortLine.pts (3 * 1 + 2) = 8 ∧
    (Rounded.sendFrame.segment roundDouble boot shortLine 1 [])[2 * 6 + 1]? = some 32766 ∧
    (sendFrame.pair boot ((0 : ℚ) + 6 * ((3 : ℚ) - 0) / (8 + 1), 0))[1]? = some 32765 := by
  have hq : shortLine.pts (3 * 1 + 0) = 3 := by decide
  have hp : shortLine.pts (3 * (1 - 1) + 0) = 0 := by decide
  have hw : shortLine.pts (3 * 1 + 2) = 8 := by decide
  have hqy : shortLine.pts (3 * 1 + 1) = 0 := by decide
  have hpy : shortLine.pts (3 * (1 - 1) + 1) = 0 := by decide
  have hs : boot.swapXY = 0 := rfl
  refine ⟨hq, hp, hw, ?_, ?_⟩
  · have hget := rounded_segmentTrack_getElem roundDouble shortLine 1 6 (by rw [hw]; decide)
    have h := (flatMap_pair_getElem _ _ _ (pair_straight boot hs)
      (Rounded.sendFrame.segmentTrack roundDouble shortLine 1) 6).2
    rw [rounded_segment_eq, List.nil_append, h, hget]
    rw [hq, hp, hw]
    have hd3 : roundDouble ((3 : Nat) - (0 : Nat) : ℚ) = 3 := by
      rw [roundDouble_value _ 3 1 (-51) 0 51 (3 * 2 ^ 51)
        (by norm_num) (by norm_num) (by decide) (by decide) (by decide) (by decide) (by decide)]
      norm_num
    have hdx : roundDouble (roundDouble ((3 : Nat) - (0 : Nat) : ℚ) / (((8 : Nat) : ℚ) + 1))
        = 6004799503160661 / 18014398509481984 := by
      rw [hd3]
      have h13 : (3 : ℚ) / (((8 : Nat) : ℚ) + 1) = 1 / 3 := by norm_num
      rw [h13]
      exact running_third_six.1
    rw [hdx]
    have hrun := running_third_six.2
    have hcast : ((0 : Nat) : ℚ) = 0 := Nat.cast_zero
    rw [hcast, hrun]
    have ht : truncQ (9007199254740991 / 4503599627370496) = 1 :=
      truncQ_of_floor _ 1 (by norm_num) (by norm_num) (by norm_num)
    have hiX : sendFrame.iX boot.flipX (9007199254740991 / 4503599627370496) = 32766 := by
      rw [iX_of_range _ _ (by rw [ht]; decide) (by rw [ht]; decide), ht]
      rfl
    show Option.map (fun p : ℚ × ℚ => sendFrame.iX boot.flipX p.1) (some _) = some 32766
    rw [Option.map_some', hiX]
  · rw [pair_straight boot hs]
    have hv : (0 : ℚ) + 6 * ((3 : ℚ) - 0) / (8 + 1) = 2 := by norm_num
    have ht : truncQ 2 = 2 := truncQ_of_floor 2 2 (by norm_num) (by norm_num) (by norm_num)
    have hiX : sendFrame.iX boot.flipX 2 = 32765 := by
      rw [iX_of_range _ _ (by rw [ht]; decide) (by rw [ht]; decide), ht]
      rfl
    show ([sendFrame.iY boot.flipY 0, sendFrame.iX boot.flipX ((0 : ℚ) + 6 * ((3 : ℚ) - 0) / (8 + 1))])[1]?
      = some 32765
    rw [hv, hiX]
    rfl

/-- Claim C25 (as amended): for the segment ending at point `pt`, from stored
point `p` to stored point `q` with stored weight `w`, the render loop appends
exactly `w + 1` sample pairs; pass `i` (`0 ≤ i ≤ w`) writes the pair of the
running coordinates obtained from `p` by `i` rounded additions of the step
`fl (fl (q - p) / (w + 1))` on each axis (every `double` operation rounded by
`fl`), which enter the samples through their integer parts; the first pair is
the pair of `p` exactly. Without rounding the running coordinate is the closed
form `p + i * (q - p) / (w + 1)`. -/
theorem segment_interpolation_rounded (fl : ℚ → ℚ) (e : Engine) (vl : vlist) (pt : Int)
    (buf : List Int) :
    (∃ tail : List Int,
      Rounded.sendFrame.segment fl e vl pt buf = buf ++ tail ∧
      tail.length = 2 * (vl.pts (3 * pt + 2) + 1) ∧
      (∀ i : Nat, i < vl.pts (3 * pt + 2) + 1 →
        [tail[2 * i]?, tail[2 * i + 1]?]
          = (sendFrame.pair e
              (Rounded.sendFrame.running fl (vl.pts (3 * (pt - 1) + 0) : ℚ)
                (fl (fl ((vl.pts (3 * pt + 0) : ℚ) - (vl.pts (3 * (pt - 1) + 0) : ℚ))
                  / ((vl.pts (3 * pt + 2) : ℚ) + 1))) i,
               Rounded.sendFrame.running fl (vl.pts (3 * (pt - 1) + 1) : ℚ)
                (fl (fl ((vl.pts (3 * pt + 1) : ℚ) - (vl.pts (3 * (pt - 1) + 1) : ℚ))
                  / ((vl.pts (3 * pt + 2) : ℚ) + 1))) i)).map some) ∧
      [tail[0]?, tail[1]?]
        = (sendFrame.pair e ((vl.pts (3 * (pt - 1) + 0) : ℚ),
            (vl.pts (3 * (pt - 1) + 1) : ℚ))).map some) ∧
    (∀ X Y : ℚ, sendFrame.pair e (X, Y)
        = sendFrame.pair e (((truncQ X : Int) : ℚ), ((truncQ Y : Int) : ℚ))) ∧
    (∀ (p d : ℚ) (i : Nat), Rounded.sendFrame.running id p d i = p + i * d) ∧
    Rounded.sendFrame.segment id e vl pt buf = sendFrame.segment e vl pt buf := by
  obtain ⟨tail, h1, h2, h3⟩ := rounded_segment_pairs fl e vl pt buf
  refine ⟨⟨tail, h1, h2, h3, ?_⟩, pair_truncQ e, ?_, rounded_segment_id e vl pt buf⟩
  · have h := h3 0 (Nat.succ_pos _)
    simp only [Rounded.sendFrame.running, Nat.mul_zero, Nat.zero_add] at h
    exact h
  · intro p d i
    induction i with
    | zero => simp [Rounded.sendFrame.running]
    | succ i ih =>
      rw [Rounded.sendFrame.running, ih]
      push_cast
      simp only [id]
      ring

/-! ## Double precision: scaling and clamping -/

/-- What `lineTo` stores on a list that is not full, in double precision. -/
theorem rounded_lineTo_stores (sqrt fl : ℚ → ℚ) (e : Engine) (x y c : ℚ)
    (h : e.work.n < MAX_POINTS) :
    (Rounded.lineTo sqrt fl e x y c).work.n = e.work.n + 1 ∧
    (Rounded.lineTo sqrt fl e x y c).work.pts (e.work.n * 3 + 0)
      = toUint16 (Rounded.lineTo.scale fl e.xmin e.xmax x) ∧
    (Rounded.lineTo sqrt fl e x y c).work.pts (e.work.n * 3 + 1)
      = toUint16 (Rounded.lineTo.scale fl e.ymin e.ymax y) ∧
    (Rounded.lineTo sqrt fl e x y c).work.pts (e.work.n * 3 + 2)
      = toUint16 (Rounded.lineTo.color sqrt fl e (Rounded.lineTo.scale fl e.xmin e.xmax x)
          (Rounded.lineTo.scale fl e.ymin e.ymax y) c) := by
  unfold Rounded.lineTo
  rw [if_neg (by omega)]
  refine ⟨rfl, ?_, ?_, ?_⟩
  · simp [Function.update]
  · simp [Function.update]
  · simp [Function.update]

/-- The 16-bit value stored for a clamped `double`. -/
theorem clamp_stored (z : ℚ) :
    (toUint16 (if z < 0 then 0 else if z > 65535 then 65535 else z) : Int)
      = max 0 (min 65535 ⌊z⌋) := by
  by_cases hneg : z < 0
  · rw [if_pos hneg, toUint16_zero]
    have hf : ⌊z⌋ < 0 := Int.floor_lt.mpr (by exact_mod_cast hneg)
    omega
  · rw [if_neg hneg]
    by_cases hbig : z > 65535
    · rw [if_pos hbig]
      have h := toUint16_natCast 65535 (by norm_num)
      have hf : (65535 : Int) ≤ ⌊z⌋ := Int.le_floor.mpr (by exact_mod_cast le_of_lt hbig)
      have hc : ((65535 : Nat) : ℚ) = 65535 := by norm_num
      rw [hc] at h
      rw [h]
      omega
    · rw [if_neg hbig]
      have h0 : 0 ≤ z := not_lt.mp hneg
      have h1 : z ≤ 65535 := not_lt.mp hbig
      rw [toUint16_of_range _ h0 (by linarith)]
      have hf0 : 0 ≤ ⌊z⌋ := Int.floor_nonneg.mpr h0
      have hf1 : ⌊z⌋ ≤ 65535 := by
        have : ⌊z⌋ < 65535 + 1 := Int.floor_lt.mpr (by push_cast; linarith)
        omega
      omega

/-- The 16-bit value stored for a scaled and clamped coordinate, in double
precision. -/
theorem rounded_scale_stored (fl : ℚ → ℚ) (lo hi x : ℚ) :
    (toUint16 (Rounded.lineTo.scale fl lo hi x) : Int)
      = if lo = hi then 32768
        else max 0 (min 65535 ⌊fl (fl (fl (x - lo) / fl (hi - lo)) * 65535)⌋) := by
  by_cases hd : lo = hi
  · rw [if_pos hd]
    have hs : Rounded.lineTo.scale fl lo hi x = ((32768 : Nat) : ℚ) := by
      unfold Rounded.lineTo.scale
      simp only [hd, if_true]
      norm_num
    rw [hs, toUint16_natCast _ (by norm_num)]
    rfl
  · rw [if_neg hd]
    unfold Rounded.lineTo.scale
    simp only [hd, if_false]
    exact clamp_stored _

/-- Claim C7 (as stated) fails: after `setScale(0, 1, 0, 1, 100)`, `lineTo` with
x the `double` nearest to 0.6 (`5404319552844595 / 2^53`) stores 39321: the
product `x * 65535 = 39320.99999999999854...` is rounded to the `double` 39321
before the cast, while the integer part of `((x - 0) / (1 - 0)) * 65535` is
39320. -/
theorem scaling_rounds_before_truncation :
    roundDouble (3 / 5) = 5404319552844595 / 9007199254740992 ∧
    (Rounded.lineTo sqrtQ roundDouble (setScale (gfxInit boot 44100 1024) 0 1 0 1 100)
        (5404319552844595 / 9007199254740992) 0 1).work.pts 0 = 39321 ∧
    (if (0 : ℚ) = 1 then (32768 : Int)
      else max 0 (min 65535
        ⌊((5404319552844595 / 9007199254740992 : ℚ) - 0) / (1 - 0) * 65535⌋)) = 39320 := by
  have h06 : roundDouble (3 / 5) = (5404319552844595 / 9007199254740992) := by
    rw [roundDouble_value _ (3) 5 (-53) 0 53 5404319552844595
      (by norm_num) (by norm_num) (by decide) (by decide) (by decide) (by decide) (by decide)]
    norm_num
  have hx : roundDouble (5404319552844595 / 9007199254740992) = (5404319552844595 / 9007199254740992) := by
    rw [roundDouble_value _ (5404319552844595) 9007199254740992 (-53) 0 53 5404319552844595
      (by norm_num) (by norm_num) (by decide) (by decide) (by decide) (by decide) (by decide)]
    norm_num
  have hm : roundDouble ((5404319552844595 / 9007199254740992) * 65535) = 39321 := by
    rw [roundDouble_value _ (354172081895670533325) 9007199254740992 (-37) 0 37 5404237089472512
      (by norm_num) (by norm_num) (by decide) (by decide) (by decide) (by decide) (by decide)]
    norm_num
  have h1 : roundDouble 1 = 1 := by
    have h := roundDouble_natCast 1 (by norm_num)
    rw [Nat.cast_one] at h
    exact h
  refine ⟨h06, ?_, ?_⟩
  · have hst := (rounded_lineTo_stores sqrtQ roundDouble
      (setScale (gfxInit boot 44100 1024) 0 1 0 1 100)
      (5404319552844595 / 9007199254740992) 0 1 (by decide)).2.1
    have hidx : (setScale (gfxInit boot 44100 1024) 0 1 0 1 100).work.n * 3 + 0 = 0 := by decide
    rw [hidx] at hst
    have hsc := rounded_scale_stored roundDouble 0 1 (5404319552844595 / 9007199254740992)
    rw [if_neg (by norm_num), sub_zero, sub_zero, hx, h1, div_one, hx, hm] at hsc
    have hfl : ⌊(39321 : ℚ)⌋ = 39321 := by
      rw [Int.floor_eq_iff]
      norm_num
    rw [hfl] at hsc
    have hval : (toUint16 (Rounded.lineTo.scale roundDouble 0 1
        (5404319552844595 / 9007199254740992)) : Int) = 39321 := by
      rw [hsc]
      decide
    rw [hst]
    show toUint16 (Rounded.lineTo.scale roundDouble 0 1 (5404319552844595 / 9007199254740992))
      = 39321
    exact_mod_cast hval
  · rw [if_neg (by norm_num)]
    have hfl : ⌊((5404319552844595 / 9007199254740992 : ℚ) - 0) / (1 - 0) * 65535⌋ = 39320 := by
      rw [Int.floor_eq_iff]
      norm_num
    rw [hfl]
    decide

/-- The integers that a rounding does not cross are reproduced by it. -/
theorem fl_natCast (fl : ℚ → ℚ)
    (hge : ∀ (k : Nat) (q : ℚ), k ≤ 65535 → (k : ℚ) ≤ q → (k : ℚ) ≤ fl q)
    (hle : ∀ (k : Nat) (q : ℚ), k ≤ 65535 → q ≤ (k : ℚ) → fl q ≤ (k : ℚ))
    (k : Nat) (hk : k ≤ 65535) : fl (k : ℚ) = k :=
  le_antisymm (hle k _ hk (le_refl _)) (hge k _ hk (le_refl _))

/-- The stored value under `setScale(0, 1000, ...)` of a coordinate at or
below 0, and at or above 1000. -/
theorem rounded_scale_edges (fl : ℚ → ℚ)
    (hge : ∀ (k : Nat) (q : ℚ), k ≤ 65535 → (k : ℚ) ≤ q → (k : ℚ) ≤ fl q)
    (hle : ∀ (k : Nat) (q : ℚ), k ≤ 65535 → q ≤ (k : ℚ) → fl q ≤ (k : ℚ)) (v : ℚ) :
    (v ≤ 0 → toUint16 (Rounded.lineTo.scale fl 0 1000 v) = 0) ∧
    (1000 ≤ v → toUint16 (Rounded.lineTo.scale fl 0 1000 v) = 65535) := by
  have h1000 : fl 1000 = 1000 := by
    have h := fl_natCast fl hge hle 1000 (by norm_num)
    push_cast at h
    exact h
  have hst := rounded_scale_stored fl 0 1000 v
  rw [if_neg (by norm_num), sub_zero, sub_zero, h1000] at hst
  constructor
  · intro hv
    have a1 : fl v ≤ 0 := by
      have h := hle 0 v (by norm_num) (by push_cast; exact hv)
      push_cast at h
      exact h
    have a2 : fl (fl v / 1000) ≤ 0 := by
      have h := hle 0 (fl v / 1000) (by norm_num) (by push_cast; linarith)
      push_cast at h
      exact h
    have a3 : fl (fl (fl v / 1000) * 65535) ≤ 0 := by
      have h := hle 0 (fl (fl v / 1000) * 65535) (by norm_num) (by push_cast; linarith)
      push_cast at h
      exact h
    have hf : ⌊fl (fl (fl v / 1000) * 65535)⌋ ≤ 0 := by
      have := Int.floor_le (fl (fl (fl v / 1000) * 65535))
      have h2 : ((⌊fl (fl (fl v / 1000) * 65535)⌋ : Int) : ℚ) ≤ ((0 : Int) : ℚ) := by
        push_cast
        linarith
      exact_mod_cast h2
    have : (toUint16 (Rounded.lineTo.scale fl 0 1000 v) : Int) = 0 := by
      rw [hst]
      omega
    exact_mod_cast this
  · intro hv
    have a1 : 1000 ≤ fl v := by
      have h := hge 1000 v (by norm_num) (by push_cast; exact hv)
      push_cast at h
      exact h
    have a2 : 1 ≤ fl (fl v / 1000) := by
      have h := hge 1 (fl v / 1000) (by norm_num) (by push_cast; linarith)
      push_cast at h
      exact h
    have a3 : 65535 ≤ fl (fl (fl v / 1000) * 65535) := by
      have h := hge 65535 (fl (fl v / 1000) * 65535) (by norm_num) (by push_cast; linarith)
      push_cast at h
      exact h
    have hf : (65535 : Int) ≤ ⌊fl (fl (fl v / 1000) * 65535)⌋ :=
      Int.le_floor.mpr (by push_cast; exact a3)
    have : (toUint16 (Rounded.lineTo.scale fl 0 1000 v) : Int) = 65535 := by
      rw [hst]
      omega
    exact_mod_cast this

/-- Claim C7 (as amended): after `setScale(l, r, t, b, w)`, a `lineTo` or
`moveTo` on a list that is not full stores as X the value 32768 when `l = r`
and otherwise the integer part of the `double` value of `((x - l) / (r - l)) *
65535`, each of the three operations and the difference `r - l` rounded (`fl`),
clamped to `[0, 65535]`, and as Y the same with `t`, `b`, `y` (for bounds whose
differences do not overflow). For a rounding
that does not cross the integers `0..65535` (as round-to-nearest does), with
`setScale(0, 1000, 0, 1000, w)`: (0, 0) is stored as (0, 0), (1000, 1000) as
(65535, 65535), a coordinate below 0 as 0 and a coordinate above 1000 as 65535. -/
theorem lineTo_scales_and_clamps_rounded (sqrt fl : ℚ → ℚ) (e : Engine)
    (l r t b w x y c : ℚ) (hfull : e.work.n < MAX_POINTS)
    (hge : ∀ (k : Nat) (q : ℚ), k ≤ 65535 → (k : ℚ) ≤ q → (k : ℚ) ≤ fl q)
    (hle : ∀ (k : Nat) (q : ℚ), k ≤ 65535 → q ≤ (k : ℚ) → fl q ≤ (k : ℚ))
    (_ : |r - l| < 2 ^ 1023) (_ : |b - t| < 2 ^ 1023) :
    (((Rounded.lineTo sqrt fl (setScale e l r t b w) x y c).work.pts (e.work.n * 3 + 0) : Int)
        = if l = r then 32768
          else max 0 (min 65535 ⌊fl (fl (fl (x - l) / fl (r - l)) * 65535)⌋)) ∧
    (((Rounded.lineTo sqrt fl (setScale e l r t b w) x y c).work.pts (e.work.n * 3 + 1) : Int)
        = if t = b then 32768
          else max 0 (min 65535 ⌊fl (fl (fl (y - t) / fl (b - t)) * 65535)⌋)) ∧
    (((Rounded.moveTo sqrt fl (setScale e l r t b w) x y).work.pts (e.work.n * 3 + 0) : Int)
        = if l = r then 32768
          else max 0 (min 65535 ⌊fl (fl (fl (x - l) / fl (r - l)) * 65535)⌋)) ∧
    (((Rounded.moveTo sqrt fl (setScale e l r t b w) x y).work.pts (e.work.n * 3 + 1) : Int)
        = if t = b then 32768
          else max 0 (min 65535 ⌊fl (fl (fl (y - t) / fl (b - t)) * 65535)⌋)) ∧
    ((Rounded.lineTo sqrt fl (setScale e 0 1000 0 1000 w) 0 0 c).work.pts (e.work.n * 3 + 0) = 0 ∧
      (Rounded.lineTo sqrt fl (setScale e 0 1000 0 1000 w) 0 0 c).work.pts (e.work.n * 3 + 1)
        = 0) ∧
    ((Rounded.lineTo sqrt fl (setScale e 0 1000 0 1000 w) 1000 1000 c).work.pts
        (e.work.n * 3 + 0) = 65535 ∧
      (Rounded.lineTo sqrt fl (setScale e 0 1000 0 1000 w) 1000 1000 c).work.pts
        (e.work.n * 3 + 1) = 65535) ∧
    (x < 0 →
      (Rounded.lineTo sqrt fl (setScale e 0 1000 0 1000 w) x y c).work.pts (e.work.n * 3 + 0)
        = 0) ∧
    (1000 < x →
      (Rounded.lineTo sqrt fl (setScale e 0 1000 0 1000 w) x y c).work.pts (e.work.n * 3 + 0)
        = 65535) ∧
    (y < 0 →
      (Rounded.lineTo sqrt fl (setScale e 0 1000 0 1000 w) x y c).work.pts (e.work.n * 3 + 1)
        = 0) ∧
    (1000 < y →
      (Rounded.lineTo sqrt fl (setScale e 0 1000 0 1000 w) x y c).work.pts (e.work.n * 3 + 1)
        = 65535) := by
  have hX : ∀ (l r t b x y c : ℚ),
      (Rounded.lineTo sqrt fl (setScale e l r t b w) x y c).work.pts (e.work.n * 3 + 0)
        = toUint16 (Rounded.lineTo.scale fl l r x) :=
    fun l r t b x y c => (rounded_lineTo_stores sqrt fl (setScale e l r t b w) x y c hfull).2.1
  have hY : ∀ (l r t b x y c : ℚ),
      (Rounded.lineTo sqrt fl (setScale e l r t b w) x y c).work.pts (e.work.n * 3 + 1)
        = toUint16 (Rounded.lineTo.scale fl t b y) :=
    fun l r t b x y c => (rounded_lineTo_stores sqrt fl (setScale e l r t b w) x y c hfull).2.2.1
  have hE := rounded_scale_edges fl hge hle
  refine ⟨?_, ?_, ?_, ?_, ⟨?_, ?_⟩, ⟨?_, ?_⟩, ?_, ?_, ?_, ?_⟩
  · rw [hX, rounded_scale_stored]
  · rw [hY, rounded_scale_stored]
  · unfold Rounded.moveTo
    rw [hX, rounded_scale_stored]
  · unfold Rounded.moveTo
    rw [hY, rounded_scale_stored]
  · rw [hX]
    exact (hE 0).1 (le_refl _)
  · rw [hY]
    exact (hE 0).1 (le_refl _)
  · rw [hX]
    exact (hE 1000).2 (le_refl _)
  · rw [hY]
    exact (hE 1000).2 (le_refl _)
  · intro h
    rw [hX]
    exact (hE x).1 h.le
  · intro h
    rw [hX]
    exact (hE x).2 h.le
  · intro h
    rw [hY]
    exact (hE y).1 h.le
  · intro h
    rw [hY]
    exact (hE y).2 h.le

theorem lineTo_scales_and_clamps_rounded_witness :
    (gfxInit boot 44100 1024).work.n < MAX_POINTS ∧
    (((Rounded.lineTo sqrtQ roundDouble (setScale (gfxInit boot 44100 1024) (-1) 1 5 5 100)
          (1 / 2) 7 1).work.pts ((gfxInit boot 44100 1024).work.n * 3 + 0) : Int)
      = if (-1 : ℚ) = 1 then 32768
        else max 0 (min 65535
          ⌊roundDouble (roundDouble (roundDouble ((1 / 2 : ℚ) - (-1)) / roundDouble (1 - (-1)))
            * 65535)⌋)) ∧
    (Rounded.lineTo sqrtQ roundDouble (setScale (gfxInit boot 44100 1024) 0 1000 0 1000 100)
        1000 1000 1).work.pts ((gfxInit boot 44100 1024).work.n * 3 + 0) = 65535 :=
  ⟨by decide,
    (lineTo_scales_and_clamps_rounded sqrtQ roundDouble (gfxInit boot 44100 1024) (-1) 1 5 5 100
      (1 / 2) 7 1 (by decide)
      (fun k q hk h => roundDouble_ge_natCast k q (by omega) h)
      (fun k q hk h => roundDouble_le_natCast k q (by omega) h)
      (by rw [abs_of_nonneg] <;> norm_num) (by rw [abs_of_nonneg] <;> norm_num)).1,
    (lineTo_scales_and_clamps_rounded sqrtQ roundDouble (gfxInit boot 44100 1024) (-1) 1 5 5 100
      (1 / 2) 7 1 (by decide)
      (fun k q hk h => roundDouble_ge_natCast k q (by omega) h)
      (fun k q hk h => roundDouble_le_natCast k q (by omega) h)
      (by rw [abs_of_nonneg] <;> norm_num) (by rw [abs_of_nonneg] <;> norm_num)).2.2.2.2.2.1.1⟩

/-! ## Double precision: exchanged bounds -/

end Gfx
